import Mathlib

/-!
# Control-flow-graph model of the CFG visualiser

A shallow embedding of the graph data model `GraphGenerator::CFGGraph`
(`include/graph_generator.h`, `src/cfg_graph.cpp`, `src/graph_generator_impl.cpp`),
of its DOT and JSON writers, and of the two line-oriented DOT readers
(`MainWindow::parseDotToCFG`, `CustomGraphView::parseDotFormat`) and the JSON
reader (`CustomGraphView::parseJson`); further of the builder
`GraphGenerator::generateCFG`, the writer `Parser::generateDOT`, the dependency
visitor `CFGVisitor`, and the level and depth computations and positioning loops of the
hierarchical layouts.

Conventions of the embedding:

* `int` is `Int`; no arithmetic is performed on node ids, so no wrap-around occurs.
  Where a textual id is converted back (`QString::toInt`) the 32-bit range is checked.
* `std::set<T>` and `std::map<K, V>` are ascending lists maintained by ordered insertion;
  the functions do not require their argument to be ordered, the predicate `CFGGraph.WF`
  records the ordering every `std::map` has.
* text is `String`; the readers work on the list of characters of a line.
* writing a file is modelled by the value that is written.
* a loop that may run forever takes a bound on its iterations (`fuel`) and returns `none`
  when the bound is reached.
* a method that can reach a construct whose behaviour C++ leaves undefined returns an
  `Outcome`, which tells a returned value from a call that is undefined.
-/

namespace CFG

/-! ## Ordered containers (`std::set`, `std::map`) -/

section Containers

variable {κ : Type} {β : Type}

/-- `std::set<K>::insert` for a comparator `lt`: the element is placed before the first
larger element and is dropped when an equivalent element is met. -/
def setInsert (lt : κ → κ → Bool) (x : κ) : List κ → List κ
  | [] => [x]
  | y :: ys =>
    if lt x y then x :: y :: ys
    else if lt y x then y :: setInsert lt x ys
    else y :: ys

/-- `std::set<K>::count(x) > 0` (equivalently `find(x) != end()`). -/
def setContains (lt : κ → κ → Bool) (x : κ) : List κ → Bool
  | [] => false
  | y :: ys => if lt x y || lt y x then setContains lt x ys else true

/-- `std::map<K, V>::find`: the value stored under a key equivalent to `k`. -/
def mapFind (lt : κ → κ → Bool) (k : κ) : List (κ × β) → Option β
  | [] => none
  | (k', v) :: rest => if lt k k' || lt k' k then mapFind lt k rest else some v

/-- Assignment `m[k] = v` on a `std::map`: replaces the value of an existing key,
otherwise inserts the pair at its ordered position. -/
def mapSet (lt : κ → κ → Bool) (k : κ) (v : β) : List (κ × β) → List (κ × β)
  | [] => [(k, v)]
  | (k', v') :: rest =>
    if lt k k' then (k, v) :: (k', v') :: rest
    else if lt k' k then (k', v') :: mapSet lt k v rest
    else (k', v) :: rest

/-- In-place update `f(m[k])` through `std::map::operator[]`: a missing key is first
default-constructed (`dflt`). -/
def mapUpdate (lt : κ → κ → Bool) (dflt : β) (k : κ) (f : β → β) (m : List (κ × β)) :
    List (κ × β) :=
  mapSet lt k (f ((mapFind lt k m).getD dflt)) m

end Containers

/-- The comparator `std::less<int>`. -/
def intLt (a b : Int) : Bool := decide (a < b)

/-- The comparator `std::less<std::pair<int, int>>` (lexicographic). -/
def pairLt (p q : Int × Int) : Bool :=
  decide (p.1 < q.1) || (!decide (q.1 < p.1) && decide (p.2 < q.2))

/-! ## Decimal rendering of integers (`std::to_string`, `operator<<(int)`) -/

/-- The character of a decimal digit. -/
def digitChar (d : Nat) : Char := Char.ofNat (48 + d)

/-- Decimal digits of `n`, most significant first, pushed in front of `acc`;
`fuel` bounds the number of digits. -/
def natDigits : Nat → Nat → List Char → List Char
  | 0, _, acc => acc
  | fuel + 1, n, acc =>
    if n < 10 then digitChar n :: acc
    else natDigits fuel (n / 10) (digitChar (n % 10) :: acc)

/-- Decimal text of a natural number. -/
def natToChars (n : Nat) : List Char := natDigits (n + 1) n []

/-- Decimal text of an integer, as `std::to_string(int)` and stream output produce it. -/
def intToChars : Int → List Char
  | Int.ofNat n => natToChars n
  | Int.negSucc n => '-' :: natToChars (n + 1)

/-- The function `std::to_string(int)`. -/
def to_string (i : Int) : String := ⟨intToChars i⟩

/-! ## Data model (`include/graph_generator.h`) -/

/-- The struct `CFGNode`. -/
structure CFGNode where
  id : Int
  label : String
  functionName : String
  successors : List Int
  statements : List String
deriving DecidableEq

/-- The default constructor `CFGNode()`: id `-1`, empty label and function name. -/
def CFGNode.default : CFGNode := ⟨-1, "", "", [], []⟩

/-- The constructor `CFGNode(int nodeId, const std::string& lbl = "", fnName = "")`. -/
def CFGNode.mk1 (nodeId : Int) (lbl : String) : CFGNode := ⟨nodeId, lbl, "", [], []⟩

/-- The private state of class `CFGGraph`. -/
structure CFGGraph where
  nodes : List (Int × CFGNode)
  exceptionEdges : List (Int × Int)
  tryBlocks : List Int
  throwingBlocks : List Int
deriving DecidableEq

namespace CFGGraph

/-- A freshly constructed graph. -/
def empty : CFGGraph := ⟨[], [], [], []⟩

/-- The node ids, i.e. the keys of `getNodes()`, in iteration order. -/
def keys (g : CFGGraph) : List Int := g.nodes.map Prod.fst

/-- The ordering invariant of `std::map<int, CFGNode>`: keys strictly ascending. -/
def WF (g : CFGGraph) : Prop := g.keys.Pairwise (· < ·)

/-- The test `nodes.find(id) != nodes.end()`. -/
def hasNode (g : CFGGraph) (nodeID : Int) : Bool := (mapFind intLt nodeID g.nodes).isSome

/-- The successor set of a node (empty for an id that is not a node). -/
def successorsOf (g : CFGGraph) (nodeID : Int) : List Int :=
  match mapFind intLt nodeID g.nodes with
  | some n => n.successors
  | none => []

/-- Inline `addNode(int nodeID)` of the header: a missing node is created with the
label `"Block <id>"`, an existing node is left alone. -/
def addNode (g : CFGGraph) (nodeID : Int) : CFGGraph :=
  if g.hasNode nodeID then g
  else { g with nodes := mapSet intLt nodeID (CFGNode.mk1 nodeID ("Block " ++ to_string nodeID)) g.nodes }

/-- The overload `addNode(int id, const std::string& label)` of `cfg_graph.cpp`: creates the node or
overwrites the label of an existing one. -/
def addNodeWithLabel (g : CFGGraph) (id : Int) (label : String) : CFGGraph :=
  if g.hasNode id then
    let relabel : CFGNode → CFGNode := fun n => { n with label := label }
    { g with nodes := mapUpdate intLt CFGNode.default id relabel g.nodes }
  else { g with nodes := mapSet intLt id (CFGNode.mk1 id label) g.nodes }

/-- Inline `addStatementToNode(int nodeID, const std::string& stmt)`. -/
def addStatementToNode (g : CFGGraph) (nodeID : Int) (stmt : String) : CFGGraph :=
  let g1 := if g.hasNode nodeID then g else g.addNode nodeID
  let push : CFGNode → CFGNode := fun n => { n with statements := n.statements ++ [stmt] }
  { g1 with nodes := mapUpdate intLt CFGNode.default nodeID push g1.nodes }

/-- The method `addStatement`, which forwards to `addStatementToNode`. -/
def addStatement (g : CFGGraph) (nodeID : Int) (stmt : String) : CFGGraph :=
  g.addStatementToNode nodeID stmt

/-- Inline `addEdge(int fromID, int toID)`: only the source node is created on demand. -/
def addEdge (g : CFGGraph) (fromID toID : Int) : CFGGraph :=
  let g1 := if g.hasNode fromID then g else g.addNode fromID
  let ins : CFGNode → CFGNode := fun n => { n with successors := setInsert intLt toID n.successors }
  { g1 with nodes := mapUpdate intLt CFGNode.default fromID ins g1.nodes }

/-- The method `addExceptionEdge` of `cfg_graph.cpp`: records the pair, nothing else. -/
def addExceptionEdge (g : CFGGraph) (sourceID targetID : Int) : CFGGraph :=
  { g with exceptionEdges := setInsert pairLt (sourceID, targetID) g.exceptionEdges }

/-- The query `isExceptionEdge`. -/
def isExceptionEdge (g : CFGGraph) (sourceID targetID : Int) : Bool :=
  setContains pairLt (sourceID, targetID) g.exceptionEdges

/-- The method `markNodeAsTryBlock`. -/
def markNodeAsTryBlock (g : CFGGraph) (nodeID : Int) : CFGGraph :=
  { g with tryBlocks := setInsert intLt nodeID g.tryBlocks }

/-- The method `markNodeAsThrowingException`. -/
def markNodeAsThrowingException (g : CFGGraph) (nodeID : Int) : CFGGraph :=
  { g with throwingBlocks := setInsert intLt nodeID g.throwingBlocks }

/-- The query `isNodeTryBlock`. -/
def isNodeTryBlock (g : CFGGraph) (nodeID : Int) : Bool := setContains intLt nodeID g.tryBlocks

/-- The query `isNodeThrowingException`. -/
def isNodeThrowingException (g : CFGGraph) (nodeID : Int) : Bool :=
  setContains intLt nodeID g.throwingBlocks

/-- The method `getNodeLabel` of `cfg_graph.cpp`. -/
def getNodeLabel (g : CFGGraph) (nodeID : Int) : String :=
  match mapFind intLt nodeID g.nodes with
  | some n => if n.label = "" then "Block " ++ to_string nodeID else n.label
  | none => "Unknown Block"

/-- The method `getNodeCount`. -/
def getNodeCount (g : CFGGraph) : Nat := g.nodes.length

/-- The method `getEdgeCount`: the successor-set sizes summed over the nodes. -/
def getEdgeCount (g : CFGGraph) : Nat :=
  g.nodes.foldl (fun count p => count + p.2.successors.length) 0

end CFGGraph

/-! ### The second set of definitions (`src/graph_generator_impl.cpp`) -/

namespace Impl

/-- The method `CFGGraph::getNodeLabel` as defined in `graph_generator_impl.cpp`. -/
def getNodeLabel (g : CFGGraph) (nodeID : Int) : String :=
  match mapFind intLt nodeID g.nodes with
  | some n => n.label
  | none => "Unknown Node"

/-- The method `CFGGraph::addExceptionEdge` as defined in `graph_generator_impl.cpp`: both
ends are created on demand, then the pair is recorded. -/
def addExceptionEdge (g : CFGGraph) (sourceID targetID : Int) : CFGGraph :=
  let g1 := if g.hasNode sourceID then g else g.addNode sourceID
  let g2 := if g1.hasNode targetID then g1 else g1.addNode targetID
  { g2 with exceptionEdges := setInsert pairLt (sourceID, targetID) g2.exceptionEdges }

end Impl

/-- One call of a public mutating operation of `CFGGraph`. -/
inductive Op where
  | addNode (id : Int)
  | addNodeWithLabel (id : Int) (label : String)
  | addStatement (id : Int) (stmt : String)
  | addEdge (fromID toID : Int)
  | addExceptionEdge (sourceID targetID : Int)
  | markNodeAsTryBlock (id : Int)
  | markNodeAsThrowingException (id : Int)

/-- The effect of one operation. -/
def Op.apply (g : CFGGraph) : Op → CFGGraph
  | .addNode id => g.addNode id
  | .addNodeWithLabel id l => g.addNodeWithLabel id l
  | .addStatement id s => g.addStatement id s
  | .addEdge a b => g.addEdge a b
  | .addExceptionEdge a b => g.addExceptionEdge a b
  | .markNodeAsTryBlock id => g.markNodeAsTryBlock id
  | .markNodeAsThrowingException id => g.markNodeAsThrowingException id

/-- The graph obtained from the empty graph by a sequence of public operations. -/
def run (ops : List Op) : CFGGraph := ops.foldl Op.apply CFGGraph.empty

/-- A state is reachable when some sequence of public operations produces it. -/
def Reachable (g : CFGGraph) : Prop := ∃ ops, run ops = g

/-! ## Text helpers (`QString`) -/

/-- The test `QChar::isSpace`: ASCII white space, NEL, NBSP and the Unicode separator
categories Zs, Zl and Zp. -/
def isSpaceQChar (c : Char) : Bool :=
  let u := c.toNat
  u == 0x20 || (0x09 ≤ u && u ≤ 0x0d) || u == 0x85 || u == 0xa0 || u == 0x1680 ||
    (0x2000 ≤ u && u ≤ 0x200a) || u == 0x2028 || u == 0x2029 || u == 0x202f ||
    u == 0x205f || u == 0x3000

/-- The class `\s` of `QRegularExpression` without the Unicode-properties option:
space, `\t`, `\n`, `\v`, `\f`, `\r`. -/
def reSpace (c : Char) : Bool :=
  let u := c.toNat
  u == 0x20 || (0x09 ≤ u && u ≤ 0x0d)

/-- The class `\d` without the Unicode-properties option: the ASCII digits. -/
def reDigit (c : Char) : Bool := 48 ≤ c.toNat && c.toNat ≤ 57

/-- The class `\w` without the Unicode-properties option: ASCII letters, digits, `_`. -/
def reWord (c : Char) : Bool :=
  let u := c.toNat
  (48 ≤ u && u ≤ 57) || (65 ≤ u && u ≤ 90) || (97 ≤ u && u ≤ 122) || u == 95

/-- The method `QString::trimmed`: white space removed from both ends. -/
def trimmed (s : List Char) : List Char :=
  ((s.dropWhile isSpaceQChar).reverse.dropWhile isSpaceQChar).reverse

/-- The method `QString::startsWith`. -/
def startsWith : List Char → List Char → Bool
  | _, [] => true
  | [], _ :: _ => false
  | c :: cs, p :: ps => c == p && startsWith cs ps

/-- The text that follows the literal `lit` at the head of `s`, when `s` starts with it. -/
def stripLit : List Char → List Char → Option (List Char)
  | [], s => some s
  | _ :: _, [] => none
  | l :: ls, c :: cs => if l == c then stripLit ls cs else none

/-- The call `QString::split(sep)` keeping empty parts. -/
def splitOn (sep : Char) : List Char → List (List Char)
  | [] => [[]]
  | c :: cs =>
    if c == sep then [] :: splitOn sep cs
    else
      match splitOn sep cs with
      | [] => [[c]]
      | l :: ls => (c :: l) :: ls

/-- The call `dotContent.split('\n', Qt::SkipEmptyParts)`. -/
def splitLines (s : List Char) : List (List Char) :=
  (splitOn '\n' s).filter (fun l => !l.isEmpty)

/-- Value of a string of ASCII digits. -/
def digitsValue (ds : List Char) : Nat :=
  ds.foldl (fun acc c => acc * 10 + (c.toNat - 48)) 0

/-- The call `QString::toInt(&ok)` on a non-empty string of ASCII digits: `none` stands for
`ok == false`, which happens exactly when the value exceeds `INT_MAX`. -/
def toInt (ds : List Char) : Option Int :=
  if digitsValue ds ≤ 2147483647 then some (Int.ofNat (digitsValue ds)) else none

/-- Unanchored search of `QRegularExpression::match`: the result of the matcher `f` at the
leftmost position of the subject where it succeeds. -/
def searchFrom {α : Type} (f : List Char → Option α) : List Char → Option α
  | [] => f []
  | c :: cs =>
    match f (c :: cs) with
    | some r => some r
    | none => searchFrom f cs

/-! ## The reader `MainWindow::parseDotToCFG` (`src/gui/mainwindow.cpp`) -/

/-- The tail `\s*;?\s*$` shared by `nodeRegex` and `edgeRegex`. -/
def matchTail (s : List Char) : Bool :=
  match s.dropWhile reSpace with
  | [] => true
  | c :: r => c == ';' && (r.dropWhile reSpace).isEmpty

/-- The bracketed attribute list `\[([^\]]*)\]` followed by the tail `\s*;?\s*$`:
the captured attribute text. -/
def matchAttrBlock (s : List Char) : Option (List Char) :=
  match s with
  | [] => none
  | c :: s2 =>
    if c == '[' then
      match s2.dropWhile (fun x => x != ']') with
      | [] => none
      | _ :: s3 => if matchTail s3 then some (s2.takeWhile (fun x => x != ']')) else none
    else none

/-- The pattern `nodeRegex`, `^\s*(\d+)\s*\[([^\]]*)\]\s*;?\s*$`: captures 1 and 2. -/
def nodeRegex (t : List Char) : Option (List Char × List Char) :=
  let s0 := t.dropWhile reSpace
  let ds := s0.takeWhile reDigit
  if ds.isEmpty then none
  else
    match matchAttrBlock ((s0.dropWhile reDigit).dropWhile reSpace) with
    | some attrs => some (ds, attrs)
    | none => none

/-- The pattern `edgeRegex`, `^\s*(\d+)\s*->\s*(\d+)\s*\[([^\]]*)\]\s*;?\s*$`:
captures 1, 2 and 3. -/
def edgeRegex (t : List Char) : Option (List Char × List Char × List Char) :=
  let s0 := t.dropWhile reSpace
  let ds1 := s0.takeWhile reDigit
  if ds1.isEmpty then none
  else
    match stripLit ['-', '>'] ((s0.dropWhile reDigit).dropWhile reSpace) with
    | none => none
    | some s1 =>
      let s2 := s1.dropWhile reSpace
      let ds2 := s2.takeWhile reDigit
      if ds2.isEmpty then none
      else
        match matchAttrBlock ((s2.dropWhile reDigit).dropWhile reSpace) with
        | some attrs => some (ds1, ds2, attrs)
        | none => none

/-- The pattern `labelRegex` at one position. The raw string literal of the source is
`label\s*=\\s*"([^"]*)"`: after `=` it asks for a literal backslash and any number of
letters `s`, then for the quoted text, which is capture 1. -/
def labelRegexAt (s : List Char) : Option (List Char) :=
  match stripLit "label".toList s with
  | none => none
  | some s1 =>
    match stripLit ['=', '\\'] (s1.dropWhile reSpace) with
    | none => none
    | some s2 =>
      match stripLit ['"'] (s2.dropWhile (fun x => x == 's')) with
      | none => none
      | some s3 =>
        match s3.dropWhile (fun x => x != '"') with
        | [] => none
        | _ :: _ => some (s3.takeWhile (fun x => x != '"'))

/-- The first word of `ws` that `s` starts with: an alternation `(w1|w2|...)`. -/
def firstWord (ws : List String) (s : List Char) : Option String :=
  ws.find? (fun w => startsWith s w.toList)

/-- A pattern `key\s*=\s*"?(w1|w2|...)"?` at one position: capture 1. -/
def keywordRegexAt (key : String) (ws : List String) (s : List Char) : Option String :=
  match stripLit key.toList s with
  | none => none
  | some s1 =>
    match stripLit ['='] (s1.dropWhile reSpace) with
    | none => none
    | some s2 =>
      match s2.dropWhile reSpace with
      | [] => none
      | c :: r => if c == '"' then firstWord ws r else firstWord ws (c :: r)

/-- The match `labelRegex.match(attributes)`: capture 1 of the leftmost match. -/
def labelRegex (attributes : List Char) : Option (List Char) :=
  searchFrom labelRegexAt attributes

/-- The match `colorRegex.match(attributes)` for the pattern
`color\s*=\s*"?(red|blue|green|black|white|gray)"?`. -/
def colorRegex (attributes : List Char) : Option String :=
  searchFrom (keywordRegexAt "color" ["red", "blue", "green", "black", "white", "gray"]) attributes

/-- The match `shapeRegex.match(attributes)` for the pattern
`shape\s*=\s*"?(box|ellipse|diamond|circle)"?`. -/
def shapeRegex (attributes : List Char) : Option String :=
  searchFrom (keywordRegexAt "shape" ["box", "ellipse", "diamond", "circle"]) attributes

/-- The lines that `parseDotToCFG` skips: comments, graph declarations, closing braces and
blank lines. -/
def skippedByCFGParser (t : List Char) : Bool :=
  startsWith t "//".toList || startsWith t "/*".toList || startsWith t "digraph".toList ||
    startsWith t "\x7d".toList || t.isEmpty

/-- The node branch of the loop body of `parseDotToCFG`. -/
def parseNodeStatement (g : CFGGraph) (idText attributes : List Char) : CFGGraph :=
  match toInt idText with
  | none => g
  | some id =>
    let g1 := g.addNode id
    let g2 := match labelRegex attributes with
      | some l => g1.addStatement id ⟨l⟩
      | none => g1
    let g3 := if colorRegex attributes = some "red" then g2.markNodeAsThrowingException id else g2
    if shapeRegex attributes = some "box" then g3.markNodeAsTryBlock id else g3

/-- The edge branch of the loop body of `parseDotToCFG`. -/
def parseEdgeStatement (g : CFGGraph) (fromText toText attributes : List Char) : CFGGraph :=
  match toInt fromText, toInt toText with
  | some fromId, some toId =>
    let g1 := g.addEdge fromId toId
    if colorRegex attributes = some "red" then g1.addExceptionEdge fromId toId else g1
  | _, _ => g

/-- One iteration of the loop of `parseDotToCFG` over the lines. -/
def parseDotLine (g : CFGGraph) (line : List Char) : CFGGraph :=
  let t := trimmed line
  if skippedByCFGParser t then g
  else
    match nodeRegex t with
    | some (idText, attributes) => parseNodeStatement g idText attributes
    | none =>
      match edgeRegex t with
      | some (fromText, toText, attributes) => parseEdgeStatement g fromText toText attributes
      | none => g

/-- The function `MainWindow::parseDotToCFG`. -/
def parseDotToCFG (dotContent : String) : CFGGraph :=
  (splitLines dotContent.toList).foldl parseDotLine CFGGraph.empty

/-! ## The DOT writers -/

namespace CFGGraph

/-- The node statement that `writeToDotFile` (`cfg_graph.cpp`) writes for a node id. -/
def nodeStatement (g : CFGGraph) (nodeID : Int) : String :=
  "    " ++ to_string nodeID ++ " [label=\"" ++ g.getNodeLabel nodeID ++ "\"" ++
    (if g.isNodeTryBlock nodeID then " shape=box color=lightblue"
     else if g.isNodeThrowingException nodeID then " color=red"
     else "") ++ "];\n"

/-- The edge statement that `writeToDotFile` (`cfg_graph.cpp`) writes for a successor. -/
def edgeStatement (g : CFGGraph) (nodeID successorID : Int) : String :=
  "    " ++ to_string nodeID ++ " -> " ++ to_string successorID ++
    (if g.isExceptionEdge nodeID successorID then " [color=red]" else "") ++ ";\n"

/-- The successor pairs in the order of the double loop over nodes and successors. -/
def edgePairs (g : CFGGraph) : List (Int × Int) :=
  g.nodes.flatMap (fun p => p.2.successors.map (fun t => (p.1, t)))

/-- The pieces written by `writeToDotFile` (`cfg_graph.cpp`), in order. -/
def dotStatements (g : CFGGraph) : List String :=
  ["digraph CFG \x7b\n"] ++ g.nodes.map (fun p => g.nodeStatement p.1) ++
    g.edgePairs.map (fun e => g.edgeStatement e.1 e.2) ++ ["\x7d\n"]

/-- The text that `writeToDotFile` of `cfg_graph.cpp` writes to the file. -/
def writeToDotFile (g : CFGGraph) : String := String.join g.dotStatements

end CFGGraph

namespace Visualizer

/-- The node statement of `generateDotRepresentation`. -/
def nodeStatement (g : CFGGraph) (simplifyGraph : Bool) (highlightPaths : List Int)
    (id : Int) (node : CFGNode) : String :=
  "  " ++ to_string id ++ " [label=\"" ++ g.getNodeLabel id ++ "\"" ++
    (if g.isNodeTryBlock id then ", style=filled, fillcolor=lightblue" else "") ++
    (if g.isNodeThrowingException id then ", style=filled, fillcolor=lightcoral" else "") ++
    (if highlightPaths.contains id then ", style=filled, fillcolor=yellow, penwidth=2" else "") ++
    (if simplifyGraph && node.successors.length == 1 then ", shape=ellipse" else "") ++
    (if node.successors.length > 1 then ", style=dashed, color=gray" else "") ++ "];\n"

/-- The edge statement of `generateDotRepresentation`. -/
def edgeStatement (g : CFGGraph) (simplifyGraph : Bool) (id succ : Int) : String :=
  "  " ++ to_string id ++ " -> " ++ to_string succ ++
    (if g.isExceptionEdge id succ then " [color=red, style=dashed, label=\"exception\"]"
     else if simplifyGraph && decide (succ ≤ id) then " [color=blue, style=bold]"
     else "") ++ ";\n"

/-- The pieces of the text built by `generateDotRepresentation`, in order. -/
def dotStatements (g : CFGGraph) (simplifyGraph : Bool) (highlightPaths : List Int) :
    List String :=
  ["digraph CFG \x7b\n", "  node [shape=box, fontname=\"Courier\", fontsize=10];\n",
    "  edge [fontsize=8];\n"] ++
    g.nodes.map (fun p => nodeStatement g simplifyGraph highlightPaths p.1 p.2) ++
    g.edgePairs.map (fun e => edgeStatement g simplifyGraph e.1 e.2) ++ ["\x7d\n"]

/-- The function `Visualizer::generateDotRepresentation` for a non-null graph; the flag
`showLineNumbers` has no effect in the source (its code is commented out). -/
def generateDotRepresentation (g : CFGGraph) (simplifyGraph : Bool) (highlightPaths : List Int) :
    String :=
  String.join (dotStatements g simplifyGraph highlightPaths)

end Visualizer

/-! ## JSON values and the JSON codec -/

/-- A JSON document as both `nlohmann::json` and `QJsonValue` represent it. The textual
form (`dump`, `QJsonDocument::fromJson`) is not modelled: the reader is applied to the value
the writer built. -/
inductive Json where
  | null
  | bool (b : Bool)
  | num (n : Int)
  | str (s : String)
  | arr (items : List Json)
  | obj (fields : List (String × Json))

/-- Byte-wise comparison of two texts (`std::string::operator<`); on UTF-8 this is the
lexicographic order of the code points. -/
def charsLt : List Char → List Char → Bool
  | [], [] => false
  | [], _ :: _ => true
  | _ :: _, [] => false
  | a :: as, b :: bs =>
    if a.toNat < b.toNat then true
    else if b.toNat < a.toNat then false
    else charsLt as bs

/-- The comparator `std::less<std::string>` that orders the keys of a JSON object. -/
def strLt (a b : String) : Bool := charsLt a.data b.data

namespace Json

/-- The members of an object; no members for any other value. -/
def fields : Json → List (String × Json)
  | obj fs => fs
  | _ => []

/-- The assignment `j[key] = v` of `nlohmann::json`: `null` silently becomes an object, the
members stay ordered by key. (The library throws for other non-object values, a case the
writer never reaches; the value is then left unchanged.) -/
def set (j : Json) (key : String) (v : Json) : Json :=
  match j with
  | null => obj [(key, v)]
  | obj fs => obj (mapSet strLt key v fs)
  | other => other

/-- The call `j.push_back(v)` of `nlohmann::json`: `null` silently becomes an array. -/
def push (j : Json) (v : Json) : Json :=
  match j with
  | null => arr [v]
  | arr items => arr (items ++ [v])
  | other => other

/-- Member access `j[key]` for reading; `null` stands for a missing member (what
`QJsonObject::operator[]` reports as undefined). -/
def get (j : Json) (key : String) : Json :=
  (mapFind strLt key j.fields).getD null

/-- The conversion `QJsonValue::toArray`: the items of an array, nothing for any other value. -/
def toArray : Json → List Json
  | arr items => items
  | _ => []

/-- The conversion `QJsonValue::toObject`: an object stays, any other value gives the empty object. -/
def toObject : Json → Json
  | obj fs => obj fs
  | _ => obj []

/-- The conversion `QJsonValue::toString`: the text of a string value, the empty text for any
other value (numbers included). -/
def toQString : Json → String
  | str s => s
  | _ => ""

/-- An object built from an initializer list of key/value pairs. -/
def ofPairs (ps : List (String × Json)) : Json :=
  ps.foldl (fun j p => j.set p.1 p.2) (obj [])

end Json

namespace CFGGraph

/-- The object stored under `graphJson["nodes"][std::to_string(nodeID)]`. -/
def nodeJson (g : CFGGraph) (nodeID : Int) (node : CFGNode) : Json :=
  Json.ofPairs
    [("id", .num nodeID),
     ("label", .str (g.getNodeLabel nodeID)),
     ("functionName", .str node.functionName),
     ("statements", .arr (node.statements.map Json.str)),
     ("isTryBlock", .bool (g.isNodeTryBlock nodeID)),
     ("isThrowingException", .bool (g.isNodeThrowingException nodeID))]

/-- The object pushed to `graphJson["edges"]` for one successor. -/
def edgeJson (g : CFGGraph) (nodeID successorID : Int) : Json :=
  Json.ofPairs
    [("source", .num nodeID),
     ("target", .num successorID),
     ("isExceptionEdge", .bool (g.isExceptionEdge nodeID successorID))]

/-- The first loop of `writeToJsonFile`: the value of `graphJson` after the nodes were added. -/
def jsonAfterNodes (g : CFGGraph) : Json :=
  g.nodes.foldl
    (fun j p => j.set "nodes" ((j.get "nodes").set (to_string p.1) (g.nodeJson p.1 p.2)))
    Json.null

/-- The second loop of `writeToJsonFile`: the edges are pushed in iteration order. -/
def jsonAfterEdges (g : CFGGraph) : Json :=
  g.edgePairs.foldl
    (fun j e => j.set "edges" ((j.get "edges").push (g.edgeJson e.1 e.2)))
    g.jsonAfterNodes

/-- The value `graphJson` that `writeToJsonFile` (`cfg_graph.cpp`) dumps to the file. -/
def writeToJsonFile (g : CFGGraph) (astJson functionCallJson : Json) : Json :=
  (g.jsonAfterEdges.set "ast" astJson).set "functionCalls" functionCallJson

end CFGGraph

/-- What `CustomGraphView` keeps of a graph: the keys of `m_nodes` and the list `m_edges`. -/
structure ViewGraph where
  nodes : List String
  edges : List (String × String)
deriving DecidableEq

/-- The first loop of `CustomGraphView::parseJson`: every item of `nodes` is stored under the
text of its `id` member (`nodeItems[id]`, `m_nodes[id]`). -/
def parseJsonNodes (json : Json) : List String :=
  (json.get "nodes").toArray.foldl
    (fun acc node => setInsert strLt (node.toObject.get "id").toQString acc) []

/-- The second loop of `CustomGraphView::parseJson`: an item of `edges` is kept when both its
`from` and its `to` text name a stored node. -/
def parseJsonEdges (json : Json) (nodeItems : List String) : List (String × String) :=
  (json.get "edges").toArray.foldl
    (fun acc edge =>
      let src := (edge.toObject.get "from").toQString
      let dst := (edge.toObject.get "to").toQString
      if setContains strLt src nodeItems && setContains strLt dst nodeItems then
        acc ++ [(src, dst)]
      else acc) []

/-- The function `CustomGraphView::parseJson` on a well-formed document (`doc.object()` of a
document that is not an object is the empty object). -/
def parseJson (doc : Json) : ViewGraph :=
  let json := doc.toObject
  let nodeItems := parseJsonNodes json
  ⟨nodeItems, parseJsonEdges json nodeItems⟩

/-! ## The reader `CustomGraphView::parseDotFormat` (`src/gui/customgraphview.cpp`)

The four patterns of this reader carry no anchors, so `match` searches the line for the
leftmost position where the pattern applies. Each pattern starts with `\s*`, which can only
extend a match to the left over white space, and ends with `\s*;?`, which always succeeds;
the functions below therefore decide the remaining core of the pattern at one position. -/

/-- An attribute table `QMap<QString, QString>`. -/
abbrev Attrs := List (String × String)

/-- A node or edge name `(\d+|"[^"]+")`: the captured text and the text after it. -/
def dotName (s : List Char) : Option (List Char × List Char) :=
  match s with
  | [] => none
  | c :: r =>
    if reDigit c then some ((c :: r).takeWhile reDigit, (c :: r).dropWhile reDigit)
    else if c == '"' then
      let body := r.takeWhile (fun x => x != '"')
      match r.dropWhile (fun x => x != '"') with
      | [] => none
      | q :: rest => if body.isEmpty then none else some ('"' :: body ++ [q], rest)
    else none

/-- The attribute block `\[\s*([^\]]+)\]`: the captured text and the text after the block.
When only white space stands between the brackets, `\s*` gives back its last character. -/
def attrBlock (s : List Char) : Option (List Char × List Char) :=
  match s with
  | [] => none
  | c :: s1 =>
    if c == '[' then
      let inner := s1.takeWhile (fun x => x != ']')
      match s1.dropWhile (fun x => x != ']') with
      | [] => none
      | _ :: rest =>
        let body := inner.dropWhile reSpace
        if !body.isEmpty then some (body, rest)
        else
          match inner.getLast? with
          | some w => some ([w], rest)
          | none => none
    else none

/-- The core of `globalAttrRegex`, `(graph|node|edge)\s*\[\s*([^\]]+)\]`, at one position:
captures 1 and 2. -/
def globalAttrRegexAt (s : List Char) : Option (String × List Char) :=
  match firstWord ["graph", "node", "edge"] s with
  | none => none
  | some w =>
    match attrBlock ((s.drop w.length).dropWhile reSpace) with
    | some (body, _) => some (w, body)
    | none => none

/-- The core of the view's `nodeRegex`, `(\d+|"[^"]+")\s*\[\s*([^\]]+)\]`, at one position:
captures 1 and 2. -/
def viewNodeRegexAt (s : List Char) : Option (List Char × List Char) :=
  match dotName s with
  | none => none
  | some (name, r) =>
    match attrBlock (r.dropWhile reSpace) with
    | some (body, _) => some (name, body)
    | none => none

/-- The core of the view's `edgeRegex`,
`(\d+|"[^"]+")\s*->\s*(\d+|"[^"]+")\s*(?:\[\s*([^\]]+)\])?`, at one position: captures 1, 2
and 3 (empty when the optional attribute block is absent). -/
def viewEdgeRegexAt (s : List Char) : Option (List Char × List Char × List Char) :=
  match dotName s with
  | none => none
  | some (src, r) =>
    match stripLit ['-', '>'] (r.dropWhile reSpace) with
    | none => none
    | some r1 =>
      match dotName (r1.dropWhile reSpace) with
      | none => none
      | some (dst, r2) =>
        match attrBlock (r2.dropWhile reSpace) with
        | some (body, _) => some (src, dst, body)
        | none => some (src, dst, [])

/-- The letters a bare attribute value `[^\s,;"]+` may consist of. -/
def bareValueChar (c : Char) : Bool := !(reSpace c || c == ',' || c == ';' || c == '"')

/-- The pattern `attrRegex`, `(\w+)\s*=\s*(?:"([^"]*)"|([^\s,;"]+))`, at one position:
captures 1, 2 and 3 and the text after the match. -/
def attrRegexAt (s : List Char) : Option (List Char × List Char × List Char × List Char) :=
  let key := s.takeWhile reWord
  if key.isEmpty then none
  else
    match stripLit ['='] ((s.dropWhile reWord).dropWhile reSpace) with
    | none => none
    | some s1 =>
      match s1.dropWhile reSpace with
      | [] => none
      | c :: r =>
        if c == '"' then
          match r.dropWhile (fun x => x != '"') with
          | [] => none
          | _ :: rest => some (key, r.takeWhile (fun x => x != '"'), [], rest)
        else
          let v := (c :: r).takeWhile bareValueChar
          if v.isEmpty then none else some (key, [], v, (c :: r).dropWhile bareValueChar)

/-- The loop over `attrRegex.globalMatch(attrStr)`: every match assigns
`table[key] = value`, where the value is capture 2 or, when that is empty, capture 3.
`fuel` bounds the number of matches. -/
def applyAttrMatches : Nat → List Char → Attrs → Attrs
  | 0, _, table => table
  | fuel + 1, s, table =>
    match searchFrom attrRegexAt s with
    | none => table
    | some (key, quoted, bare, rest) =>
      applyAttrMatches fuel rest
        (mapSet strLt ⟨key⟩ ⟨if quoted.isEmpty then bare else quoted⟩ table)

/-- The attributes of `attrStr` laid over the table `base`. -/
def parseAttrs (attrStr : List Char) (base : Attrs) : Attrs :=
  applyAttrMatches (attrStr.length + 1) attrStr base

/-- The recurring step "strip quotes if present": `s.mid(1, s.length() - 2)` when the text
starts and ends with a double quote. -/
def stripQuotes (s : List Char) : List Char :=
  if startsWith s ['"'] && startsWith s.reverse ['"'] then (s.drop 1).take (s.length - 2) else s

/-- The call `QString::toInt()` without an `ok` flag: the value of an optionally signed
decimal number in the range of `int` (white space around it ignored), `0` for any other text. -/
def toIntOrZero (s : List Char) : Int :=
  let t := trimmed s
  let neg := startsWith t ['-']
  let ds := if neg || startsWith t ['+'] then t.drop 1 else t
  if ds.isEmpty || !ds.all reDigit then 0
  else if neg then (if digitsValue ds ≤ 2147483648 then - Int.ofNat (digitsValue ds) else 0)
  else (if digitsValue ds ≤ 2147483647 then Int.ofNat (digitsValue ds) else 0)

/-- A call made by `parseDotFormat` to build the scene. -/
inductive SceneCall where
  | createNodeFromDot (id : Int) (label : String) (attributes : Attrs)
  | createEdgeFromDot (source target : Int) (attributes : Attrs)
deriving DecidableEq

/-- The local state of the loop of `parseDotFormat`. -/
structure DotParseState where
  defaultAttributes : List (String × Attrs)
  calls : List SceneCall
  parsedSuccessfully : Bool
deriving DecidableEq

/-- The state before the first line: the built-in default attributes, nothing parsed. -/
def DotParseState.init : DotParseState :=
  { defaultAttributes :=
      mapSet strLt "edge" (mapSet strLt "color" "black" [])
        (mapSet strLt "node"
          (mapSet strLt "fillcolor" "lightgray"
            (mapSet strLt "style" "filled" (mapSet strLt "shape" "ellipse" []))) [])
    calls := []
    parsedSuccessfully := false }

/-- The lines that `parseDotFormat` skips before trying any pattern. -/
def skippedByView (t : List Char) : Bool :=
  startsWith t "//".toList || startsWith t "#".toList || t.isEmpty ||
    startsWith t "digraph".toList || startsWith t "graph".toList ||
    t == ['{'] || t == ['}']

/-- The default attributes of one category (`defaultAttributes[category]`). -/
def DotParseState.defaultsOf (st : DotParseState) (category : String) : Attrs :=
  (mapFind strLt category st.defaultAttributes).getD []

/-- One iteration of the loop of `parseDotFormat` over the lines. -/
def viewParseLine (st : DotParseState) (line : List Char) : DotParseState :=
  let t := trimmed line
  if skippedByView t then st
  else
    match searchFrom globalAttrRegexAt t with
    | some (elementType, attrStr) =>
      { st with
        defaultAttributes :=
          mapSet strLt elementType (parseAttrs attrStr (st.defaultsOf elementType))
            st.defaultAttributes
        parsedSuccessfully := true }
    | none =>
      match searchFrom viewNodeRegexAt t with
      | some (name, attrStr) =>
        let idStr := stripQuotes name
        let attributes := parseAttrs attrStr (st.defaultsOf "node")
        let label := stripQuotes ((mapFind strLt "label" attributes).getD ⟨idStr⟩).toList
        { st with
          calls := st.calls ++ [.createNodeFromDot (toIntOrZero idStr) ⟨label⟩ attributes]
          parsedSuccessfully := true }
      | none =>
        match searchFrom viewEdgeRegexAt t with
        | some (src, dst, attrStr) =>
          let attributes :=
            if attrStr.isEmpty then st.defaultsOf "edge"
            else parseAttrs attrStr (st.defaultsOf "edge")
          { st with
            calls := st.calls ++
              [.createEdgeFromDot (toIntOrZero (stripQuotes src)) (toIntOrZero (stripQuotes dst))
                attributes]
            parsedSuccessfully := true }
        | none => st

/-- The loop of `parseDotFormat` over the non-empty lines of the text. -/
def viewParseLines (dotContent : String) : DotParseState :=
  (splitLines dotContent.toList).foldl viewParseLine DotParseState.init

/-- The function `CustomGraphView::parseDotFormat`: its return value. Without a scene the
function returns `false` at once; otherwise it returns the flag `parsedSuccessfully`. -/
def parseDotFormat (hasScene : Bool) (dotContent : String) : Bool :=
  if !hasScene then false else (viewParseLines dotContent).parsedSuccessfully

/-! ## The writer of `src/graph_generator_impl.cpp` -/

namespace Impl

/-- The escaping loop of `writeToDotFile` in `graph_generator_impl.cpp`: every `"` of a
statement is replaced by `\"` (the search resumes behind the inserted pair). -/
def escapeQuotes (s : List Char) : List Char :=
  s.flatMap (fun c => if c == '"' then ['\\', '"'] else [c])

/-- The node statement of `writeToDotFile` in `graph_generator_impl.cpp`: the label is the
node id followed by the escaped statements, each closed by the two characters `\n`. -/
def nodeStatement (node : CFGNode) : String :=
  "    node" ++ to_string node.id ++ " [label=\"" ++ to_string node.id ++ "\\n" ++
    String.join (node.statements.map (fun stmt => ⟨escapeQuotes stmt.toList⟩ ++ "\\n")) ++
    "\"];\n"

/-- The edge statement of `writeToDotFile` in `graph_generator_impl.cpp`. -/
def edgeStatement (node : CFGNode) (succId : Int) : String :=
  "    node" ++ to_string node.id ++ " -> node" ++ to_string succId ++ ";\n"

/-- The text that `writeToDotFile` of `graph_generator_impl.cpp` writes to the file. -/
def writeToDotFile (g : CFGGraph) : String :=
  String.join
    (["digraph CFG \x7b\n", "    node [shape=box];\n"] ++
      g.nodes.map (fun p => nodeStatement p.2) ++
      g.nodes.flatMap (fun p => p.2.successors.map (fun t => edgeStatement p.2 t)) ++
      ["\x7d\n"])

end Impl

/-! ## Monotonicity and texts made of statements -/

/-- Everything present in `g` is still present in `g'`: node ids, successor pairs,
exception-edge pairs, try-block marks and throwing marks. -/
def CFGGraph.Preserved (g g' : CFGGraph) : Prop :=
  (∀ k, g.hasNode k = true → g'.hasNode k = true) ∧
    (∀ s t, t ∈ g.successorsOf s → t ∈ g'.successorsOf s) ∧
    (∀ s t, g.isExceptionEdge s t = true → g'.isExceptionEdge s t = true) ∧
    (∀ k, g.isNodeTryBlock k = true → g'.isNodeTryBlock k = true) ∧
    (∀ k, g.isNodeThrowingException k = true → g'.isNodeThrowingException k = true)

/-- The invariant of the `std::set<int>` members of the nodes: successors strictly ascending. -/
def CFGGraph.SuccWF (g : CFGGraph) : Prop :=
  ∀ p ∈ g.nodes, p.2.successors.Pairwise (· < ·)

/-- The node statement `n [attrs];` as a line of text. -/
def nodeLine (n : Nat) (attrs : List Char) : List Char :=
  natToChars n ++ ' ' :: '[' :: (attrs ++ [']', ';'])

/-- The text in which the line `line` stands between the texts `before` and `after`. -/
def textAround (before line after : List Char) : String :=
  ⟨before ++ '\n' :: (line ++ '\n' :: after)⟩

/-- The text made of the texts `before` and `after` alone. -/
def textWithout (before after : List Char) : String :=
  ⟨before ++ '\n' :: after⟩

/-! ## The hierarchical layouts -/

/-- The horizontal coordinate `(pos - (count - 1) / 2.0) * NODE_WIDTH` with `NODE_WIDTH = 120`,
which both hierarchical layouts compute from the slot index and the number of nodes of the
level. The operands are `int` values converted to `double`; halves of integers and their
multiples by 120 are exact in `double`, so the rational value is the computed one. -/
def slotX (pos count : Int) : ℚ := ((pos : ℚ) - ((count - 1 : Int) : ℚ) / 2) * 120

/-- The vertical coordinate `level * LEVEL_HEIGHT` with `LEVEL_HEIGHT = 100`. -/
def levelY (level : Int) : ℚ := ((level * 100 : Int) : ℚ)

namespace CustomGraphView

/-- The read `m_nodeLevels[id]` on the `QMap<QString, int>`, given as its list of entries:
the level stored for `id`, and 0 (which the read then stores) for an id without an entry. -/
def levelOf (nodeLevels : List (String × Int)) (id : String) : Int :=
  (nodeLevels.lookup id).getD 0

/-- The first loop of `applyHierarchicalLayout`: `levelCounts[level]++` for every value of
`m_nodeLevels`. -/
def levelCounts (nodeLevels : List (String × Int)) : List (Int × Int) :=
  (nodeLevels.map Prod.snd).foldl (fun counts level => mapUpdate intLt 0 level (· + 1) counts) []

/-- The second loop of `applyHierarchicalLayout` over `m_nodes.keys()`, started with the
given content of `levelPositions`: the calls `m_nodes[id]->setPos(x, y)` in order. -/
def placeNodes (nodeLevels : List (String × Int)) (counts : List (Int × Int)) :
    List (Int × Int) → List String → List (String × ℚ × ℚ)
  | _, [] => []
  | levelPositions, id :: rest =>
    let level := levelOf nodeLevels id
    let pos := (mapFind intLt level levelPositions).getD 0
    let x := slotX pos ((mapFind intLt level counts).getD 0)
    let y := levelY level
    (id, x, y) :: placeNodes nodeLevels counts (mapSet intLt level (pos + 1) levelPositions) rest

/-- The method `CustomGraphView::applyHierarchicalLayout` after its call of `calculateLevels`:
`keys` is `m_nodes.keys()` and `nodeLevels` the content of `m_nodeLevels` that
`calculateLevels` left. The result lists the positions set, node by node. -/
def applyHierarchicalLayout (keys : List String) (nodeLevels : List (String × Int)) :
    List (String × ℚ × ℚ) :=
  if nodeLevels.isEmpty then []
  else placeNodes nodeLevels (levelCounts nodeLevels) [] keys

end CustomGraphView

namespace CFGVisualizerWindow

/-- The loop `depthCounts[depth]++` over the entries of `depths`. -/
def depthCounts (depths : List (String × Int)) : List (Int × Int) :=
  (depths.map Prod.snd).foldl (fun counts depth => mapUpdate intLt 0 depth (· + 1) counts) []

/-- The inner loop of the positioning: `i` counts the entries of the same depth that are
met before the entry of `func`, where the loop breaks. -/
def position (func : String) (depth : Int) : Int → List (String × Int) → Int
  | i, [] => i
  | i, (otherFunc, otherDepth) :: rest =>
    if otherDepth = depth then
      if otherFunc = func then i else position func depth (i + 1) rest
    else position func depth i rest

/-- The positioning loop of `CFGVisualizerWindow::applyHierarchicalLayout`: `depths` is the
`unordered_map` filled by `calculateDepth`, given as its entries in iteration order. The
result lists the positions `nodeItem->setPos(x, y)`, function by function. -/
def applyHierarchicalLayout (depths : List (String × Int)) : List (String × ℚ × ℚ) :=
  depths.map (fun e =>
    (e.1, slotX (position e.1 e.2 0 depths) ((mapFind intLt e.2 (depthCounts depths)).getD 0),
      levelY e.2))

end CFGVisualizerWindow

/-! ## Maps read by key (`std::unordered_map`, `QMap<QString, int>`) -/

/-- Assignment `m[key] = value` on a `std::unordered_map`, given by its entries: the value of
an existing key is replaced, a new key gets an entry. The order of the list stands for the
iteration order, which the library leaves unspecified. The same functions serve for the maps
`m_nodeLevels` and `stmtToBlock`, which the code reads by key only. -/
def umapSet {κ β : Type} [DecidableEq κ] (key : κ) (value : β) : List (κ × β) → List (κ × β)
  | [] => [(key, value)]
  | (k, v) :: rest => if k = key then (k, value) :: rest else (k, v) :: umapSet key value rest

/-- The lookup `m.find(key)` on a `std::unordered_map`. -/
def umapFind {κ β : Type} [DecidableEq κ] (key : κ) : List (κ × β) → Option β
  | [] => none
  | (k, v) :: rest => if k = key then some v else umapFind key rest

/-! ## The DOT writer `Parser::generateDOT` (`src/parser.cpp`) -/

namespace Parser

/-- A node of a `FunctionCFG`; `id` and `line` are `unsigned`. -/
structure CFGNode where
  id : Nat
  label : String
  line : Nat
  code : String

/-- An edge of a `FunctionCFG`. -/
structure CFGEdge where
  sourceId : Nat
  targetId : Nat
  label : String

/-- The record `Parser::FunctionCFG`. -/
structure FunctionCFG where
  functionName : String
  nodes : List CFGNode
  edges : List CFGEdge

/-- The escaping of a node label: `std::replace` turns every double quote into a single
quote, `std::regex_replace` turns every newline into backslash, `n`. -/
def escapeLabel (label : String) : String :=
  ⟨(label.toList.map (fun c => if c == '"' then '\'' else c)).flatMap
    (fun c => if c == '\n' then ['\\', 'n'] else [c])⟩

/-- What one iteration of the node loop of `generateDOT` writes. -/
def nodeStatement (cfg : FunctionCFG) (node : CFGNode) : String :=
  "  " ++ ⟨natToChars node.id⟩ ++ " [" ++
    (if node.id = 0 then
      "label=\"ENTRY\", shape=diamond, style=filled, fillcolor=palegreen"
    else if node.id = 1 ∧ cfg.nodes.length > 1 then
      "label=\"EXIT\", shape=diamond, style=filled, fillcolor=palegreen"
    else
      "label=\"" ++ escapeLabel node.label ++ "\"" ++
        (if node.label.toList.contains '\n' then ", style=filled, fillcolor=lemonchiffon"
         else "")) ++
    "];\n"

/-- What one iteration of the edge loop of `generateDOT` writes. -/
def edgeStatement (edge : CFGEdge) : String :=
  "  " ++ ⟨natToChars edge.sourceId⟩ ++ " -> " ++ ⟨natToChars edge.targetId⟩ ++
    (if edge.label ≠ "" then
      " [label=\"" ++ edge.label ++ "\"" ++
        (if edge.label = "True" ∨ edge.label = "False" then ", color=blue" else "")
    else "") ++
    ";\n"

/-- The function `Parser::generateDOT`. -/
def generateDOT (cfg : FunctionCFG) : String :=
  "digraph \"" ++ cfg.functionName ++ "\" \x7b\n" ++
    "  node [shape=rectangle, fontname=\"Courier\", fontsize=10];\n" ++
    "  edge [fontsize=8];\n\n" ++
    String.join (cfg.nodes.map (nodeStatement cfg)) ++
    String.join (cfg.edges.map edgeStatement) ++
    "\x7d\n"

/-- The labels that `Parser::extractAllCFGs` gives to the edges of one block: `True` and
`False` for the first and the later non-null successors of a block with more than one
successor slot, `Unconditional` otherwise. -/
def edgeLabel (succSize edgeIdx : Nat) : String :=
  if succSize > 1 then (if edgeIdx = 0 then "True" else "False") else "Unconditional"

end Parser

/-! ## The dependency visitor `CFGVisitor` (`src/cfg_analyzer.cpp`) -/

namespace CFGVisitor

/-- The members `CurrentFunction` and `FunctionDependencies` of the visitor. The callee sets
are `std::set<std::string>`. -/
structure VisitorState where
  CurrentFunction : String
  FunctionDependencies : List (String × List String)
deriving DecidableEq

/-- An event of the traversal: a function declaration `FD` (with the results of
`FD->hasBody()`, `SM.isInMainFile(FD->getLocation())` and
`FD->getQualifiedNameAsString()`) or a call expression (with the qualified name of
`CE->getDirectCallee()`, if there is a direct callee). -/
inductive VisitorEvent where
  | functionDecl (hasBody isInMainFile : Bool) (qualifiedName : String)
  | callExpr (directCallee : Option String)
deriving DecidableEq

/-- The state of a freshly constructed visitor. -/
def VisitorState.init : VisitorState := ⟨"", []⟩

/-- The method `VisitFunctionDecl` (the export of the function's CFG aside). -/
def VisitFunctionDecl (st : VisitorState) (hasBody isInMainFile : Bool) (funcName : String) :
    VisitorState :=
  if !hasBody then st
  else if !isInMainFile then st
  else ⟨funcName, umapSet funcName [] st.FunctionDependencies⟩

/-- The method `VisitCallExpr`. -/
def VisitCallExpr (st : VisitorState) (directCallee : Option String) : VisitorState :=
  if st.CurrentFunction ≠ "" then
    match directCallee with
    | some calledFunc =>
      { st with
        FunctionDependencies :=
          umapSet st.CurrentFunction
            (setInsert strLt calledFunc
              ((umapFind st.CurrentFunction st.FunctionDependencies).getD []))
            st.FunctionDependencies }
    | none => st
  else st

/-- The effect of one event. -/
def visit (st : VisitorState) : VisitorEvent → VisitorState
  | .functionDecl hasBody isInMainFile name => VisitFunctionDecl st hasBody isInMainFile name
  | .callExpr callee => VisitCallExpr st callee

/-- The traversal of a translation unit, as the sequence of its events. -/
def traverse (events : List VisitorEvent) : VisitorState :=
  events.foldl visit VisitorState.init

/-- The callee set recorded for `caller` (empty when there is no entry). -/
def calleesOf (deps : List (String × List String)) (caller : String) : List String :=
  (umapFind caller deps).getD []

end CFGVisitor

/-! ## The builder `GraphGenerator::generateCFG` (`src/graph_generator.cpp`) -/

namespace Builder

/-- The kinds of statement that `handleTryAndCatch` tells apart; a `CXXTryStmt` carries its
handlers (`getHandler(i)`), named by the identity of the `CXXCatchStmt`. -/
inductive StmtKind where
  | other
  | tryStmt (handlers : List Nat)
  | throwExpr
deriving DecidableEq

/-- A statement `const clang::Stmt*`: `ptr` is its identity, `text` the result of
`getStmtString`. -/
structure Stmt where
  ptr : Nat
  text : String
  kind : StmtKind
deriving DecidableEq

/-- An element of a block: a statement (`CFGElement::Statement`) or an element of another
kind. -/
inductive CFGElement where
  | statement (s : Stmt)
  | other
deriving DecidableEq

/-- A basic block `clang::CFGBlock`: `blockID` is `getBlockID()` as the `int` the graph
receives, `succs` the successor slots, of which some are null. -/
structure CFGBlock where
  blockID : Int
  elements : List CFGElement
  succs : List (Option Int)
deriving DecidableEq

/-- The statements among the elements of a block, in order. -/
def CFGBlock.statements (block : CFGBlock) : List Stmt :=
  block.elements.filterMap (fun e => match e with | .statement s => some s | .other => none)

/-- The function `extractStatementsFromBlock`. -/
def extractStatementsFromBlock (block : CFGBlock) (graph : CFGGraph) : CFGGraph :=
  block.statements.foldl (fun g s => g.addStatement block.blockID s.text) graph

/-- The function `handleTryAndCatch`; `stmtToBlock` maps the identity of a statement to the
id of its block. -/
def handleTryAndCatch (block : CFGBlock) (graph : CFGGraph) (stmtToBlock : List (Nat × Int)) :
    CFGGraph :=
  block.statements.foldl
    (fun g s =>
      match s.kind with
      | .tryStmt handlers =>
        handlers.foldl
          (fun g1 catchStmt =>
            match umapFind catchStmt stmtToBlock with
            | some target => g1.addExceptionEdge block.blockID target
            | none => g1)
          (g.markNodeAsTryBlock block.blockID)
      | .throwExpr => g.markNodeAsThrowingException block.blockID
      | .other => g)
    graph

/-- The function `handleSuccessors`: an edge for every successor slot that is not null. -/
def handleSuccessors (block : CFGBlock) (graph : CFGGraph) : CFGGraph :=
  block.succs.foldl
    (fun g succ =>
      match succ with
      | some id => g.addEdge block.blockID id
      | none => g)
    graph

/-- The first loop of `generateCFG`: the index `stmtToBlock`. -/
def stmtToBlockOf (blocks : List CFGBlock) : List (Nat × Int) :=
  blocks.foldl
    (fun m block => block.statements.foldl (fun m1 s => umapSet s.ptr block.blockID m1) m) []

/-- The body of the second loop of `generateCFG` for one block. -/
def processBlock (stmtToBlock : List (Nat × Int)) (graph : CFGGraph) (block : CFGBlock) :
    CFGGraph :=
  handleSuccessors block
    (handleTryAndCatch block (extractStatementsFromBlock block (graph.addNode block.blockID))
      stmtToBlock)

/-- The function `generateCFG(const clang::FunctionDecl*)` from the point where
`clang::CFG::buildCFG` has returned the blocks `cfg`; null entries of the block list are
skipped. -/
def generateCFG (cfg : List (Option CFGBlock)) : CFGGraph :=
  let blocks := cfg.filterMap id
  blocks.foldl (processBlock (stmtToBlockOf blocks)) CFGGraph.empty

/-- The statement list of a node (`getNodes().at(id).statements`), empty for a missing
node. -/
def statementsOf (g : CFGGraph) (nodeID : Int) : List String :=
  match mapFind intLt nodeID g.nodes with
  | some n => n.statements
  | none => []

end Builder

/-! ## The level computation `CustomGraphView::calculateLevels` -/

/-- How a call of a method ends: it returns, leaving `value`; or it is still running when
the bound on the number of loop iterations is reached; or it executes a construct whose
behaviour C++ leaves undefined, after which nothing is known about the call. -/
inductive Outcome (α : Type) where
  | returned (value : α)
  | outOfFuel
  | undefinedBehaviour
  deriving DecidableEq

namespace CustomGraphView

/-- The set `rootNodes`: the nodes that are the target of no edge, in the iteration order of
`allNodes`. -/
def rootNodes (allNodes : List String) (m_edges : List (String × String)) : List String :=
  allNodes.filter (fun nodeId => !(m_edges.map Prod.snd).contains nodeId)

/-- The update of `m_nodeLevels` for a dequeued pair: the level is stored when the node has
no level yet or a smaller one. -/
def recordLevel (nodeLevels : List (String × Int)) (currentNode : String) (currentLevel : Int) :
    List (String × Int) :=
  match umapFind currentNode nodeLevels with
  | none => umapSet currentNode currentLevel nodeLevels
  | some level =>
    if level < currentLevel then umapSet currentNode currentLevel nodeLevels else nodeLevels

/-- The pairs enqueued for a dequeued pair: one for every edge that leaves the node, in the
order of `m_edges`. -/
def outgoing (m_edges : List (String × String)) (currentNode : String) (currentLevel : Int) :
    List (String × Int) :=
  (m_edges.filter (fun edge => edge.1 = currentNode)).map (fun edge => (edge.2, currentLevel + 1))

/-- The loop `while (!queue.isEmpty())` of `calculateLevels`; `fuel` bounds the number of
iterations, `none` means that the bound was reached with the queue not empty. -/
def levelLoop (m_edges : List (String × String)) :
    Nat → List (String × Int) → List (String × Int) → Option (List (String × Int))
  | _, [], nodeLevels => some nodeLevels
  | 0, _ :: _, _ => none
  | fuel + 1, (currentNode, currentLevel) :: queue, nodeLevels =>
    levelLoop m_edges fuel (queue ++ outgoing m_edges currentNode currentLevel)
      (recordLevel nodeLevels currentNode currentLevel)

/-- The last loop of `calculateLevels`: a node without level gets level 0. -/
def fillUnvisited (allNodes : List String) (nodeLevels : List (String × Int)) :
    List (String × Int) :=
  allNodes.foldl
    (fun levels nodeId =>
      if (umapFind nodeId levels).isSome then levels else umapSet nodeId 0 levels)
    nodeLevels

/-- The statements of `calculateLevels` that follow the construction of `allNodes`, for a
given content of that set: the search for the roots, the queue loop and the loop over the
unvisited nodes. The result is the content of `m_nodeLevels`. The list `allNodes` also
stands for the iteration order of the sets `allNodes` and `rootNodes`, which Qt leaves
unspecified. Without a root the first element `*allNodes.begin()` is taken, which is
undefined for an empty set. -/
def calculateLevelsFrom (fuel : Nat) (allNodes : List String)
    (m_edges : List (String × String)) : Outcome (List (String × Int)) :=
  let roots := rootNodes allNodes m_edges
  if roots.isEmpty && allNodes.isEmpty then Outcome.undefinedBehaviour
  else
    let seeds := if roots.isEmpty then allNodes.take 1 else roots
    match levelLoop m_edges fuel (seeds.map (fun root => (root, 0))) [] with
    | none => Outcome.outOfFuel
    | some nodeLevels => Outcome.returned (fillUnvisited allNodes nodeLevels)

/-- The method `CustomGraphView::calculateLevels`, for `keys` the keys of `m_nodes` and
`m_edges` the edge list: the content of `m_nodeLevels` it leaves. With no node the method
clears `m_nodeLevels` and returns. With a node it executes
`QSet<QString> allNodes(m_nodes.keys().begin(), m_nodes.keys().end())`, where `keys()`
returns a new list at each call: the two iterators belong to two different lists, the range
between them is not a valid range, and the behaviour of the constructor, and with it of the
whole call, is undefined. What the following statements compute for a given set is
`calculateLevelsFrom`. -/
def calculateLevels (keys : List String) (_m_edges : List (String × String)) :
    Outcome (List (String × Int)) :=
  if keys.isEmpty then Outcome.returned [] else Outcome.undefinedBehaviour

/-- The pairs enqueued while the pairs of `queue` are processed. -/
def expand (m_edges : List (String × String)) (queue : List (String × Int)) :
    List (String × Int) :=
  queue.flatMap (fun item => outgoing m_edges item.1 item.2)

/-- The content of the queue `n` generations after `queue`. -/
def generation (m_edges : List (String × String)) : Nat → List (String × Int) →
    List (String × Int)
  | 0, queue => queue
  | n + 1, queue => generation m_edges n (expand m_edges queue)

/-- All pairs dequeued during the first `n` generations, in the order of processing. -/
def generations (m_edges : List (String × String)) : Nat → List (String × Int) →
    List (String × Int)
  | 0, _ => []
  | n + 1, queue => queue ++ generations m_edges n (expand m_edges queue)

/-- A walk along `k` edges from the first to the second node. -/
inductive Walk (edges : List (String × String)) : String → String → Nat → Prop where
  | nil (u : String) : Walk edges u u 0
  | snoc {u v w : String} {k : Nat} : Walk edges u v k → (v, w) ∈ edges → Walk edges u w (k + 1)

/-- An edge list is acyclic when no walk along at least one edge returns to its start. -/
def Acyclic (edges : List (String × String)) : Prop :=
  ∀ v k, ¬ Walk edges v v (k + 1)

/-- A root is a node that is the target of no edge. -/
def IsRoot (keys : List String) (edges : List (String × String)) (r : String) : Prop :=
  r ∈ keys ∧ ∀ e ∈ edges, e.2 ≠ r

/-- The members of the view that the readers and the layouts share, together with what the
code reads back from the scene: for every item of the scene the text of its data under
key 0 (`item->data(0).toString()`). -/
structure ViewState where
  m_nodes : List String
  m_edges : List (String × String)
  m_nodeLevels : List (String × Int)
  sceneData0 : List String

/-- The method `clear()` of a view with a scene: the scene and the three containers are
emptied, then the text item `Cleared` is added to the scene. -/
def ViewState.clear (_st : ViewState) : ViewState := ⟨[], [], [], [""]⟩

/-- The method `createNodeFromDot`: an ellipse with a text child is added to the scene; its
data is set under the key `MainWindow::NodeItemType` only. -/
def createNodeFromDot (st : ViewState) (_id : Int) (_label : String) (_attributes : Attrs) :
    ViewState :=
  { st with sceneData0 := st.sceneData0 ++ ["", ""] }

/-- The method `findNodeById`: whether some item of the scene carries the decimal text of
`id` as its data under key 0. -/
def findNodeById (st : ViewState) (id : Int) : Bool :=
  st.sceneData0.contains (to_string id)

/-- The method `createEdgeFromDot`: a line is added to the scene when both ends are found. -/
def createEdgeFromDot (st : ViewState) (source target : Int) (_attributes : Attrs) :
    ViewState :=
  if findNodeById st source && findNodeById st target then
    { st with sceneData0 := st.sceneData0 ++ [""] }
  else st

/-- The effect of one call that `parseDotFormat` makes. -/
def applySceneCall (st : ViewState) : SceneCall → ViewState
  | .createNodeFromDot id label attributes => createNodeFromDot st id label attributes
  | .createEdgeFromDot source target attributes => createEdgeFromDot st source target attributes

/-- The method `parseDotFormat` as a transition of the view: without a scene nothing
happens; with a scene the view is cleared and the calls of the loop are made. The second
component is the return value. -/
def ViewState.parseDotFormat (hasScene : Bool) (st : ViewState) (dotContent : String) :
    ViewState × Bool :=
  if !hasScene then (st, false)
  else
    ((viewParseLines dotContent).calls.foldl applySceneCall st.clear,
      (viewParseLines dotContent).parsedSuccessfully)

/-- The method `applyHierarchicalLayout` on a view: `calculateLevels`, then the positioning
loop. The result lists the calls `m_nodes[id]->setPos(x, y)`; when `calculateLevels` does
not return, no position is set. -/
def ViewState.applyHierarchicalLayout (st : ViewState) : Outcome (List (String × ℚ × ℚ)) :=
  match calculateLevels st.m_nodes st.m_edges with
  | Outcome.returned nodeLevels =>
    Outcome.returned (CustomGraphView.applyHierarchicalLayout st.m_nodes nodeLevels)
  | Outcome.outOfFuel => Outcome.outOfFuel
  | Outcome.undefinedBehaviour => Outcome.undefinedBehaviour

/-- The ids whose item is moved (`setPos`) by `applyForceDirectedLayout`: none without a
scene or without nodes, otherwise every key of `m_nodes`. The coordinates are floating-point
values and are not part of the model. -/
def ViewState.applyForceDirectedLayout (hasScene : Bool) (st : ViewState) : List String :=
  if !hasScene || st.m_nodes.isEmpty then [] else st.m_nodes

/-- The ids whose item is moved (`setPos`) by `applyCircularLayout`: none when `m_nodes` is
empty, otherwise every key of `m_nodes`. The coordinates are floating-point values and are
not part of the model. -/
def ViewState.applyCircularLayout (st : ViewState) : List String :=
  if st.m_nodes.length = 0 then [] else st.m_nodes

end CustomGraphView

/-! ## The depth computation of `CFGVisualizerWindow::applyHierarchicalLayout` -/

namespace CFGVisualizerWindow

/-- The recursive lambda `calculateDepth(func, visited)`: the returned depth and the new
contents of `visited` and `depths`. `functionDependencies` maps a caller to its callee set
(`std::set<std::string>`, iterated in ascending order). `fuel` bounds the depth of the
recursion, `none` means that the bound was reached. -/
def calculateDepth (functionDependencies : List (String × List String)) :
    Nat → String → List String × List (String × Int) →
      Option (Int × List String × List (String × Int))
  | 0, _, _ => none
  | fuel + 1, func, (visited, depths) =>
    if setContains strLt func visited then some (0, visited, depths)
    else
      let callees := (umapFind func functionDependencies).getD []
      let children :=
        callees.foldl
          (fun acc callee =>
            match acc with
            | none => none
            | some (maxChildDepth, visited1, depths1) =>
              match calculateDepth functionDependencies fuel callee (visited1, depths1) with
              | none => none
              | some (d, visited2, depths2) => some (max maxChildDepth d, visited2, depths2))
          (some (0, setInsert strLt func visited, depths))
      match children with
      | none => none
      | some (maxChildDepth, visited1, depths1) =>
        some (maxChildDepth + 1, visited1, umapSet func (maxChildDepth + 1) depths1)

/-- The set `allFunctions`: every caller and every callee. -/
def allFunctions (functionDependencies : List (String × List String)) : List String :=
  functionDependencies.foldl
    (fun all entry =>
      entry.2.foldl (fun all1 callee => setInsert strLt callee all1)
        (setInsert strLt entry.1 all))
    []

/-- The set `calledFunctions`: every callee. -/
def calledFunctions (functionDependencies : List (String × List String)) : List String :=
  functionDependencies.foldl
    (fun called entry => entry.2.foldl (fun called1 callee => setInsert strLt callee called1) called)
    []

/-- The vector `roots`: the functions that nobody calls or, when there is none, every
caller. -/
def roots (functionDependencies : List (String × List String)) : List String :=
  let notCalled :=
    (allFunctions functionDependencies).filter
      (fun func => !setContains strLt func (calledFunctions functionDependencies))
  if notCalled.isEmpty then functionDependencies.map Prod.fst else notCalled

/-- The loop over the roots: `calculateDepth(root, visited)` with a fresh `visited` for
every root; the result is the content of `depths`. -/
def calculateDepths (fuel : Nat) (functionDependencies : List (String × List String)) :
    Option (List (String × Int)) :=
  (roots functionDependencies).foldl
    (fun acc root =>
      match acc with
      | none => none
      | some depths =>
        match calculateDepth functionDependencies fuel root ([], depths) with
        | none => none
        | some (_, _, depths1) => some depths1)
    (some [])

/-- The positions that `CFGVisualizerWindow::applyHierarchicalLayout` sets for a dependency
map: the depth computation followed by the positioning loop. -/
def hierarchicalPositions (fuel : Nat) (functionDependencies : List (String × List String)) :
    Option (List (String × ℚ × ℚ)) :=
  match calculateDepths fuel functionDependencies with
  | none => none
  | some depths => some (applyHierarchicalLayout depths)

end CFGVisualizerWindow

/-! ## Sample graphs -/

/-- The graph with nodes 0, 1, 2 and the plain edges 0 -> 1, 1 -> 2, 0 -> 2. -/
def triangleGraph : CFGGraph :=
  run [Op.addNode 0, Op.addNode 1, Op.addNode 2, Op.addEdge 0 1, Op.addEdge 1 2, Op.addEdge 0 2]

/-- The state reached by marking 5 as try-block, 6 as throwing and recording the exception
edge (5, 6), without any node or plain edge. -/
def marksOnlyGraph : CFGGraph :=
  run [Op.markNodeAsTryBlock 5, Op.markNodeAsThrowingException 6, Op.addExceptionEdge 5 6]

/-- The try-block node 5 with an exception edge to the throwing node 6, both nodes and the
plain edge being present. -/
def tryThrowGraph : CFGGraph :=
  run [Op.addNode 5, Op.addNode 6, Op.markNodeAsTryBlock 5, Op.markNodeAsThrowingException 6,
    Op.addEdge 5 6, Op.addExceptionEdge 5 6]

/-- The two-line text `a [label="L"];` followed by `a -> b;`. -/
def scenarioText (a b : Int) (L : String) : String :=
  to_string a ++ " [label=\"" ++ L ++ "\"];\n" ++ to_string a ++ " -> " ++ to_string b ++ ";\n"

/-- A node whose label holds double quotes. -/
def quotedLabelGraph : CFGGraph := run [Op.addNodeWithLabel 1 "say \"hi\""]

/-- A node carrying both the try-block mark and the throwing mark. -/
def bothMarksGraph : CFGGraph :=
  run [Op.addNode 5, Op.markNodeAsTryBlock 5, Op.markNodeAsThrowingException 5]

/-! # Properties -/

/-! ## Ordered containers -/

section ContainerLemmas

variable {κ : Type} {β : Type} {lt : κ → κ → Bool}

theorem setContains_setInsert (hirr : ∀ a, lt a a = false) (x : κ) (s : List κ) :
    setContains lt x (setInsert lt x s) = true := by
  induction s with
  | nil => simp [setInsert, setContains, hirr]
  | cons y ys ih =>
    cases h1 : lt x y
    · cases h2 : lt y x
      · simp [setInsert, setContains, h1, h2]
      · simp [setInsert, setContains, h1, h2, ih]
    · simp [setInsert, setContains, h1, hirr]

theorem setInsert_idem (hirr : ∀ a, lt a a = false) (x : κ) (s : List κ) :
    setInsert lt x (setInsert lt x s) = setInsert lt x s := by
  induction s with
  | nil => simp [setInsert, hirr]
  | cons y ys ih =>
    cases h1 : lt x y
    · cases h2 : lt y x
      · simp [setInsert, h1, h2]
      · simp [setInsert, h1, h2, ih]
    · simp [setInsert, h1, hirr]

theorem mem_setInsert_self (heq : ∀ a b, lt a b = false → lt b a = false → a = b)
    (x : κ) (s : List κ) : x ∈ setInsert lt x s := by
  induction s with
  | nil => simp [setInsert]
  | cons y ys ih =>
    cases h1 : lt x y
    · cases h2 : lt y x
      · have he : x = y := heq x y h1 h2
        simp only [setInsert, h1, h2, Bool.false_eq_true, if_false]
        rw [he]
        exact List.mem_cons_self _ _
      · simp [setInsert, h1, h2, ih]
    · simp [setInsert, h1]

theorem mem_setInsert_of_mem (x y : κ) (s : List κ) (h : y ∈ s) : y ∈ setInsert lt x s := by
  induction s with
  | nil => simp at h
  | cons z zs ih =>
    cases h1 : lt x z
    · cases h2 : lt z x
      · simpa [setInsert, h1, h2] using h
      · simp only [setInsert, h1, h2, if_true, Bool.false_eq_true, if_false, List.mem_cons]
        rcases List.mem_cons.1 h with h | h
        · exact Or.inl h
        · exact Or.inr (ih h)
    · simp only [setInsert, h1, if_true]
      exact List.mem_cons_of_mem _ h

theorem mapFind_mapSet_self (hirr : ∀ a, lt a a = false) (k : κ) (v : β)
    (m : List (κ × β)) : mapFind lt k (mapSet lt k v m) = some v := by
  induction m with
  | nil => simp [mapSet, mapFind, hirr]
  | cons p rest ih =>
    obtain ⟨k', v'⟩ := p
    cases h1 : lt k k'
    · cases h2 : lt k' k
      · simp [mapSet, mapFind, h1, h2]
      · simp [mapSet, mapFind, h1, h2, ih]
    · simp [mapSet, mapFind, h1, hirr]

theorem mapSet_mapSet (hirr : ∀ a, lt a a = false) (k : κ) (v w : β)
    (m : List (κ × β)) : mapSet lt k w (mapSet lt k v m) = mapSet lt k w m := by
  induction m with
  | nil => simp [mapSet, hirr]
  | cons p rest ih =>
    obtain ⟨k', v'⟩ := p
    cases h1 : lt k k'
    · cases h2 : lt k' k
      · simp [mapSet, h1, h2]
      · simp [mapSet, h1, h2, ih]
    · simp [mapSet, h1, hirr]

theorem lt_or_lt_of_ne (heq : ∀ a b, lt a b = false → lt b a = false → a = b)
    {k k2 : κ} (hne : k ≠ k2) : (lt k k2 || lt k2 k) = true := by
  cases h1 : lt k k2
  · cases h2 : lt k2 k
    · exact absurd (heq k k2 h1 h2) hne
    · rfl
  · rfl

theorem mapFind_mapSet_ne (heq : ∀ a b, lt a b = false → lt b a = false → a = b)
    {k k2 : κ} (hne : k ≠ k2) (v : β) (m : List (κ × β)) :
    mapFind lt k (mapSet lt k2 v m) = mapFind lt k m := by
  have hk : (lt k k2 || lt k2 k) = true := lt_or_lt_of_ne heq hne
  induction m with
  | nil => simp [mapSet, mapFind, hk]
  | cons p rest ih =>
    obtain ⟨k', v'⟩ := p
    cases h1 : lt k2 k'
    · cases h2 : lt k' k2
      · have he : k2 = k' := heq k2 k' h1 h2
        subst he
        simp [mapSet, mapFind, h1, hk]
      · simp [mapSet, h1, h2, mapFind, ih]
    · simp [mapSet, mapFind, h1, hk]

theorem mem_keys_mapSet (heq : ∀ a b, lt a b = false → lt b a = false → a = b)
    (k : κ) (v : β) (m : List (κ × β)) (k' : κ) :
    k' ∈ (mapSet lt k v m).map Prod.fst ↔ k' = k ∨ k' ∈ m.map Prod.fst := by
  induction m with
  | nil => simp [mapSet]
  | cons p rest ih =>
    obtain ⟨k1, v1⟩ := p
    cases h1 : lt k k1
    · cases h2 : lt k1 k
      · have he : k = k1 := heq k k1 h1 h2
        subst he
        simp [mapSet, h1]
      · have : mapSet lt k v ((k1, v1) :: rest) = (k1, v1) :: mapSet lt k v rest := by
          simp [mapSet, h1, h2]
        rw [this, List.map_cons, List.mem_cons, ih, List.map_cons, List.mem_cons]
        tauto
    · simp [mapSet, h1]

theorem mapFind_isSome_iff (hirr : ∀ a, lt a a = false)
    (heq : ∀ a b, lt a b = false → lt b a = false → a = b) (k : κ) (m : List (κ × β)) :
    (mapFind lt k m).isSome = true ↔ k ∈ m.map Prod.fst := by
  induction m with
  | nil => simp [mapFind]
  | cons p rest ih =>
    obtain ⟨k1, v1⟩ := p
    cases h1 : lt k k1
    · cases h2 : lt k1 k
      · have he : k = k1 := heq k k1 h1 h2
        simp only [mapFind, h1, h2, Bool.or_self, Bool.false_eq_true, if_false,
          Option.isSome_some, List.map_cons, List.mem_cons, true_iff]
        exact Or.inl he
      · have hne : k ≠ k1 := by
          rintro rfl
          rw [hirr] at h2
          exact Bool.noConfusion h2
        simp [mapFind, h1, h2, ih, hne]
    · have hne : k ≠ k1 := by
        rintro rfl
        rw [hirr] at h1
        exact Bool.noConfusion h1
      simp [mapFind, h1, ih, hne]

theorem mapFind_mem (heq : ∀ a b, lt a b = false → lt b a = false → a = b) (k : κ)
    (m : List (κ × β)) (v : β) (h : mapFind lt k m = some v) : (k, v) ∈ m := by
  induction m with
  | nil => simp [mapFind] at h
  | cons p rest ih =>
    obtain ⟨k1, v1⟩ := p
    cases h1 : lt k k1
    · cases h2 : lt k1 k
      · have he : k = k1 := heq k k1 h1 h2
        simp only [mapFind, h1, h2, Bool.or_self, Bool.false_eq_true, if_false,
          Option.some.injEq] at h
        subst he
        subst h
        exact List.mem_cons_self _ _
      · simp only [mapFind, h1, h2, Bool.or_true, if_true] at h
        exact List.mem_cons_of_mem _ (ih h)
    · simp only [mapFind, h1, Bool.true_or, if_true] at h
      exact List.mem_cons_of_mem _ (ih h)

end ContainerLemmas

theorem intLt_irrefl (a : Int) : intLt a a = false := by simp [intLt]

theorem intLt_eq_of_not_lt (a b : Int) (h1 : intLt a b = false) (h2 : intLt b a = false) :
    a = b := by
  simp only [intLt, decide_eq_false_iff_not, not_lt] at h1 h2
  omega

theorem keys_mapSet_pairwise (k : Int) (v : CFGNode) (m : List (Int × CFGNode))
    (h : (m.map Prod.fst).Pairwise (· < ·)) :
    ((mapSet intLt k v m).map Prod.fst).Pairwise (· < ·) := by
  induction m with
  | nil => simp [mapSet]
  | cons p rest ih =>
    obtain ⟨k1, v1⟩ := p
    simp only [List.map_cons, List.pairwise_cons] at h
    cases h1 : intLt k k1
    · cases h2 : intLt k1 k
      · simp only [mapSet, h1, h2, Bool.false_eq_true, if_false, List.map_cons,
          List.pairwise_cons]
        exact h
      · have hk : k1 < k := by simpa [intLt] using h2
        simp only [mapSet, h1, h2, if_true, Bool.false_eq_true, if_false, List.map_cons,
          List.pairwise_cons]
        refine ⟨?_, ih h.2⟩
        intro a ha
        rcases (mem_keys_mapSet intLt_eq_of_not_lt k v rest a).1 ha with rfl | ha
        · exact hk
        · exact h.1 a ha
    · have hk : k < k1 := by simpa [intLt] using h1
      simp only [mapSet, h1, if_true, List.map_cons, List.pairwise_cons, List.mem_cons]
      refine ⟨?_, h.1, h.2⟩
      rintro a (rfl | ha)
      · exact hk
      · exact lt_trans hk (h.1 a ha)

/-! ## The graph model -/

namespace CFGGraph

theorem hasNode_iff (g : CFGGraph) (k : Int) : g.hasNode k = true ↔ k ∈ g.keys :=
  mapFind_isSome_iff intLt_irrefl intLt_eq_of_not_lt k g.nodes

theorem hasNode_addNode (g : CFGGraph) (k : Int) : (g.addNode k).hasNode k = true := by
  cases h : g.hasNode k
  · have hg : g.addNode k =
        { g with nodes := mapSet intLt k (CFGNode.mk1 k ("Block " ++ to_string k)) g.nodes } := by
      simp [addNode, h]
    rw [hg]
    show (mapFind intLt k (mapSet intLt k _ g.nodes)).isSome = true
    rw [mapFind_mapSet_self intLt_irrefl]
    rfl
  · simp [addNode, h]

theorem mem_keys_addNode (g : CFGGraph) (k k' : Int) :
    k' ∈ (g.addNode k).keys ↔ k' = k ∨ k' ∈ g.keys := by
  cases h : g.hasNode k
  · simp only [addNode, h, Bool.false_eq_true, if_false, keys]
    exact mem_keys_mapSet intLt_eq_of_not_lt _ _ _ _
  · have hk : k ∈ g.keys := (hasNode_iff g k).1 h
    simp only [addNode, h, if_true]
    constructor
    · exact Or.inr
    · rintro (rfl | h')
      · exact hk
      · exact h'

theorem wf_addNode (g : CFGGraph) (k : Int) (h : g.WF) : (g.addNode k).WF := by
  cases hk : g.hasNode k
  · simp only [addNode, hk, Bool.false_eq_true, if_false, WF, keys]
    exact keys_mapSet_pairwise _ _ _ h
  · simpa [addNode, hk] using h

/-- The graph on which `addEdge` performs its update: the source node exists in it. -/
theorem addEdge_eq (g : CFGGraph) (a b : Int) :
    g.addEdge a b =
      { g.addNode a with
        nodes := mapSet intLt a
          { ((mapFind intLt a (g.addNode a).nodes).getD CFGNode.default) with
            successors := setInsert intLt b
              ((mapFind intLt a (g.addNode a).nodes).getD CFGNode.default).successors }
          (g.addNode a).nodes } := by
  cases h : g.hasNode a
  · simp [addEdge, h, mapUpdate]
  · simp [addEdge, h, mapUpdate, addNode]

theorem mem_keys_addEdge (g : CFGGraph) (a b k : Int) :
    k ∈ (g.addEdge a b).keys ↔ k = a ∨ k ∈ g.keys := by
  rw [addEdge_eq]
  simp only [keys]
  rw [mem_keys_mapSet intLt_eq_of_not_lt]
  have := mem_keys_addNode g a k
  simp only [keys] at this
  rw [this]
  tauto

theorem wf_addEdge (g : CFGGraph) (a b : Int) (h : g.WF) : (g.addEdge a b).WF := by
  rw [addEdge_eq]
  exact keys_mapSet_pairwise _ _ _ (wf_addNode g a h)

theorem successorsOf_addEdge (g : CFGGraph) (a b : Int) :
    (g.addEdge a b).successorsOf a =
      setInsert intLt b ((mapFind intLt a (g.addNode a).nodes).getD CFGNode.default).successors := by
  rw [addEdge_eq]
  simp [successorsOf, mapFind_mapSet_self intLt_irrefl]

theorem addEdge_idem (g : CFGGraph) (a b : Int) :
    (g.addEdge a b).addEdge a b = g.addEdge a b := by
  have hn : (g.addEdge a b).hasNode a = true :=
    (hasNode_iff _ _).2 ((mem_keys_addEdge g a b a).2 (Or.inl rfl))
  have hfind : ∀ (v : CFGNode) (m : List (Int × CFGNode)),
      mapFind intLt a (mapSet intLt a v m) = some v :=
    fun v m => mapFind_mapSet_self intLt_irrefl a v m
  conv_lhs => rw [addEdge]
  simp only [hn, if_true, mapUpdate]
  rw [addEdge_eq]
  simp only [hfind, Option.getD_some, setInsert_idem intLt_irrefl,
    mapSet_mapSet intLt_irrefl]

theorem wf_nodup (g : CFGGraph) (h : g.WF) : g.keys.Nodup :=
  List.Pairwise.imp (fun hab => ne_of_lt hab) h

end CFGGraph

/-- C1: the exception-edge invariant fails on a reachable state. After the single public
call `addExceptionEdge(5, 6)` on the empty graph, `isExceptionEdge(5, 6)` is true although
`6` is not in the successor set of node `5` (node `5` does not even exist). -/
theorem exception_edge_without_plain_edge :
    Reachable (run [Op.addExceptionEdge 5 6]) ∧
      (run [Op.addExceptionEdge 5 6]).isExceptionEdge 5 6 = true ∧
      6 ∉ (run [Op.addExceptionEdge 5 6]).successorsOf 5 ∧
      (run [Op.addExceptionEdge 5 6]).hasNode 5 = false :=
  ⟨⟨_, rfl⟩, by decide, by decide, by decide⟩

/-- C3, as stated, fails: after `addEdge(5, 6)` on the empty graph the target `6` is not a
key of `getNodes()`, so it is not true that both ends are nodes. -/
theorem addEdge_target_not_created :
    ¬ (5 ∈ (CFGGraph.empty.addEdge 5 6).keys ∧ 6 ∈ (CFGGraph.empty.addEdge 5 6).keys ∧
        (CFGGraph.empty.addEdge 5 6).keys.Nodup) := by
  decide

/-- C3, amended: on every graph whose node map is ordered, `addEdge(a, b)` keeps the map
ordered and free of duplicate ids, makes the source `a` a node, puts `b` into the successor
set of `a`, and adds no node id other than `a`: the target `b` is a node afterwards only if
it was one before or equals `a`. -/
theorem addEdge_creates_source_only (g : CFGGraph) (a b : Int) (h : g.WF) :
    (g.addEdge a b).WF ∧ (g.addEdge a b).keys.Nodup ∧ a ∈ (g.addEdge a b).keys ∧
      b ∈ (g.addEdge a b).successorsOf a ∧
      (∀ k, k ∈ (g.addEdge a b).keys ↔ k = a ∨ k ∈ g.keys) ∧
      (b ∈ (g.addEdge a b).keys ↔ b = a ∨ b ∈ g.keys) := by
  refine ⟨CFGGraph.wf_addEdge g a b h, CFGGraph.wf_nodup _ (CFGGraph.wf_addEdge g a b h),
    (CFGGraph.mem_keys_addEdge g a b a).2 (Or.inl rfl), ?_,
    fun k => CFGGraph.mem_keys_addEdge g a b k, CFGGraph.mem_keys_addEdge g a b b⟩
  rw [CFGGraph.successorsOf_addEdge]
  exact mem_setInsert_self intLt_eq_of_not_lt _ _

/-- Witness for C3 amended: the graph with nodes 1 and 2, extended by the edge `1 -> 7`. -/
theorem addEdge_creates_source_only_witness :
    (run [Op.addNode 1, Op.addNode 2]).WF ∧
      7 ∈ ((run [Op.addNode 1, Op.addNode 2]).addEdge 1 7).successorsOf 1 ∧
      ¬ (7 ∈ ((run [Op.addNode 1, Op.addNode 2]).addEdge 1 7).keys) :=
  have hwf : (run [Op.addNode 1, Op.addNode 2]).WF := by
    simp [run, Op.apply, CFGGraph.WF, CFGGraph.keys, CFGGraph.addNode, CFGGraph.hasNode,
      CFGGraph.empty, mapFind, mapSet, intLt]
  ⟨hwf,
    (addEdge_creates_source_only (run [Op.addNode 1, Op.addNode 2]) 1 7 hwf).2.2.2.1,
    by decide⟩

/-- C7: `addEdge(a, b)` called twice leaves `getEdgeCount()` at its value after one call,
for every graph and all ids `a`, `b`. -/
theorem addEdge_twice_edge_count (g : CFGGraph) (a b : Int) :
    ((g.addEdge a b).addEdge a b).getEdgeCount = (g.addEdge a b).getEdgeCount := by
  rw [CFGGraph.addEdge_idem]

/-- C8: marking node `n` as try-block and as throwing, in either order, makes both
predicates true and leaves the node map (ids, successors, statements, labels) unchanged. -/
theorem marks_independent (g : CFGGraph) (n : Int) :
    ((g.markNodeAsTryBlock n).markNodeAsThrowingException n).isNodeTryBlock n = true ∧
      ((g.markNodeAsTryBlock n).markNodeAsThrowingException n).isNodeThrowingException n = true ∧
      ((g.markNodeAsTryBlock n).markNodeAsThrowingException n).nodes = g.nodes ∧
      ((g.markNodeAsThrowingException n).markNodeAsTryBlock n).isNodeTryBlock n = true ∧
      ((g.markNodeAsThrowingException n).markNodeAsTryBlock n).isNodeThrowingException n = true ∧
      ((g.markNodeAsThrowingException n).markNodeAsTryBlock n).nodes = g.nodes := by
  simp [CFGGraph.markNodeAsTryBlock, CFGGraph.markNodeAsThrowingException,
    CFGGraph.isNodeTryBlock, CFGGraph.isNodeThrowingException,
    setContains_setInsert intLt_irrefl]

/-- C9: for an id that is not a node, the two definitions of `getNodeLabel` return
different placeholders: `"Unknown Block"` (`cfg_graph.cpp`) and `"Unknown Node"`
(`graph_generator_impl.cpp`). -/
theorem getNodeLabel_placeholders_differ (g : CFGGraph) (id : Int)
    (h : g.hasNode id = false) :
    g.getNodeLabel id = "Unknown Block" ∧ Impl.getNodeLabel g id = "Unknown Node" ∧
      g.getNodeLabel id ≠ Impl.getNodeLabel g id := by
  have hnone : mapFind intLt id g.nodes = none := by
    simpa [CFGGraph.hasNode] using h
  simp [CFGGraph.getNodeLabel, Impl.getNodeLabel, hnone]

/-- Witness for C9: the empty graph and the id 7. -/
theorem getNodeLabel_placeholders_differ_witness :
    CFGGraph.empty.hasNode 7 = false ∧
      CFGGraph.empty.getNodeLabel 7 ≠ Impl.getNodeLabel CFGGraph.empty 7 :=
  ⟨by decide, (getNodeLabel_placeholders_differ CFGGraph.empty 7 (by decide)).2.2⟩

/-! ## Round trips through the codecs -/

/-- C2: the DOT round trip fails on the spec's instance. The graph with nodes 0, 1, 2 and
edges 0 -> 1, 1 -> 2, 0 -> 2 has no exception edge and every edge target is a node; both
writers emit its plain edges without an attribute list, `parseDotToCFG` accepts an edge
statement only with one, and the graph read back has 3 nodes but 0 edges. -/
theorem dot_round_trip_drops_plain_edges :
    triangleGraph.exceptionEdges = [] ∧ triangleGraph.getNodeCount = 3 ∧
      triangleGraph.getEdgeCount = 3 ∧ triangleGraph.successorsOf 0 = [1, 2] ∧
      (parseDotToCFG triangleGraph.writeToDotFile).getNodeCount = 3 ∧
      (parseDotToCFG triangleGraph.writeToDotFile).getEdgeCount = 0 ∧
      (parseDotToCFG triangleGraph.writeToDotFile).successorsOf 0 = [] ∧
      (parseDotToCFG (Visualizer.generateDotRepresentation triangleGraph false [])).getNodeCount = 3 ∧
      (parseDotToCFG (Visualizer.generateDotRepresentation triangleGraph false [])).getEdgeCount = 0 := by
  decide

/-- C6: the JSON round trip fails. For the graph with nodes 0, 1, 2 and three edges,
`parseJson` applied to the document built by `writeToJsonFile` recovers no node and no edge:
the writer stores `nodes` as an object keyed by id with numeric `id` members and names the edge
ends `source` and `target`, the reader iterates `nodes` as an array, reads `id` as text and
looks for `from` and `to`. -/
theorem json_round_trip_recovers_nothing :
    triangleGraph.keys = [0, 1, 2] ∧
      triangleGraph.edgePairs = [(0, 1), (0, 2), (1, 2)] ∧
      parseJson (triangleGraph.writeToJsonFile Json.null Json.null) = ⟨[], []⟩ := by
  decide

/-! ## The reader of the graph view -/

/-- C10: a global attribute statement for `graph` is dropped before any pattern is tried. The
pattern `globalAttrRegex` names `graph` next to `node` and `edge` and matches the line
`graph [rankdir=LR];`, but the skip test discards every line that starts with `graph`: for
this text `parseDotFormat` changes nothing and returns `false`, although the line matched a
global-attribute statement. The statement `node [shape=box];` is handled and gives `true`. -/
theorem graph_attribute_statement_is_skipped :
    searchFrom globalAttrRegexAt (trimmed "graph [rankdir=LR];".toList) =
        some ("graph", "rankdir=LR".toList) ∧
      skippedByView (trimmed "graph [rankdir=LR];".toList) = true ∧
      viewParseLines "graph [rankdir=LR];" = DotParseState.init ∧
      parseDotFormat true "graph [rankdir=LR];" = false ∧
      parseDotFormat true "node [shape=box];" = true := by
  decide

/-! ## Decimal rendering and the order of texts -/

theorem digitChar_toNat (d : Nat) (h : d < 10) : (digitChar d).toNat = 48 + d := by
  interval_cases d <;> rfl

theorem natDigits_acc (fuel n : Nat) (acc : List Char) :
    natDigits fuel n acc = natDigits fuel n [] ++ acc := by
  induction fuel generalizing n acc with
  | zero => simp [natDigits]
  | succ f ih =>
    by_cases h : n < 10
    · simp [natDigits, h]
    · simp only [natDigits, h, if_false]
      rw [ih (n / 10) (digitChar (n % 10) :: acc), ih (n / 10) [digitChar (n % 10)]]
      simp

theorem digitsValue_append_single (xs : List Char) (c : Char) :
    digitsValue (xs ++ [c]) = digitsValue xs * 10 + (c.toNat - 48) := by
  simp [digitsValue, List.foldl_append]

theorem digitsValue_natDigits (fuel n : Nat) (h : n < fuel) :
    digitsValue (natDigits fuel n []) = n := by
  induction fuel generalizing n with
  | zero => omega
  | succ f ih =>
    by_cases h10 : n < 10
    · simp [natDigits, h10, digitsValue, digitChar_toNat n h10]
    · simp only [natDigits, h10, if_false]
      rw [natDigits_acc, digitsValue_append_single, ih (n / 10) (by omega),
        digitChar_toNat _ (Nat.mod_lt _ (by norm_num))]
      omega

theorem digitsValue_natToChars (n : Nat) : digitsValue (natToChars n) = n :=
  digitsValue_natDigits (n + 1) n (Nat.lt_succ_self n)

theorem reDigit_digitChar (d : Nat) (h : d < 10) : reDigit (digitChar d) = true := by
  interval_cases d <;> rfl

theorem natDigits_all_digits (fuel n : Nat) (acc : List Char)
    (hacc : ∀ c ∈ acc, reDigit c = true) : ∀ c ∈ natDigits fuel n acc, reDigit c = true := by
  induction fuel generalizing n acc with
  | zero => simpa [natDigits] using hacc
  | succ f ih =>
    by_cases h10 : n < 10
    · simp only [natDigits, h10, if_true]
      intro c hc
      rcases List.mem_cons.1 hc with rfl | hc
      · exact reDigit_digitChar n h10
      · exact hacc c hc
    · simp only [natDigits, h10, if_false]
      apply ih
      intro c hc
      rcases List.mem_cons.1 hc with rfl | hc
      · exact reDigit_digitChar _ (Nat.mod_lt _ (by norm_num))
      · exact hacc c hc

theorem natToChars_all_digits (n : Nat) : ∀ c ∈ natToChars n, reDigit c = true :=
  natDigits_all_digits (n + 1) n [] (by simp)

theorem natDigits_ne_nil (fuel n : Nat) (acc : List Char) (h : 0 < fuel) :
    natDigits fuel n acc ≠ [] := by
  induction fuel generalizing n acc with
  | zero => omega
  | succ f ih =>
    by_cases h10 : n < 10
    · simp [natDigits, h10]
    · simp only [natDigits, h10, if_false]
      rw [natDigits_acc]
      simp

theorem natToChars_ne_nil (n : Nat) : natToChars n ≠ [] :=
  natDigits_ne_nil (n + 1) n [] (Nat.succ_pos n)

theorem natToChars_injective (n m : Nat) (h : natToChars n = natToChars m) : n = m := by
  rw [← digitsValue_natToChars n, ← digitsValue_natToChars m, h]

theorem intToChars_injective (a b : Int) (h : intToChars a = intToChars b) : a = b := by
  have hdash : reDigit '-' = false := by rfl
  cases a with
  | ofNat n =>
    cases b with
    | ofNat m => rw [natToChars_injective n m (by simpa [intToChars] using h)]
    | negSucc m =>
      exfalso
      simp only [intToChars] at h
      have hm : '-' ∈ natToChars n := by rw [h]; exact List.mem_cons_self _ _
      have := natToChars_all_digits n _ hm
      rw [hdash] at this
      exact Bool.noConfusion this
  | negSucc n =>
    cases b with
    | ofNat m =>
      exfalso
      simp only [intToChars] at h
      have hm : '-' ∈ natToChars m := by rw [← h]; exact List.mem_cons_self _ _
      have := natToChars_all_digits m _ hm
      rw [hdash] at this
      exact Bool.noConfusion this
    | negSucc m =>
      simp only [intToChars, List.cons.injEq, true_and] at h
      have := natToChars_injective _ _ h
      have hnm : n = m := by omega
      rw [hnm]

theorem to_string_injective (a b : Int) (h : to_string a = to_string b) : a = b := by
  apply intToChars_injective
  have := congrArg String.data h
  simpa [to_string] using this

theorem charsLt_irrefl (s : List Char) : charsLt s s = false := by
  induction s with
  | nil => rfl
  | cons c cs ih => simp [charsLt, ih]

theorem char_eq_of_toNat_eq (a b : Char) (h : a.toNat = b.toNat) : a = b := by
  apply Char.ext
  apply UInt32.ext
  exact h

theorem charsLt_eq_of_not_lt (s t : List Char) (h1 : charsLt s t = false)
    (h2 : charsLt t s = false) : s = t := by
  induction s generalizing t with
  | nil =>
    cases t with
    | nil => rfl
    | cons b bs => simp [charsLt] at h1
  | cons a as ih =>
    cases t with
    | nil => simp [charsLt] at h2
    | cons b bs =>
      by_cases hab : a.toNat < b.toNat
      · simp [charsLt, hab] at h1
      · by_cases hba : b.toNat < a.toNat
        · simp [charsLt, hba] at h2
        · have he : a = b := char_eq_of_toNat_eq a b (by omega)
          subst he
          simp only [charsLt, hab, if_false] at h1 h2
          rw [ih bs h1 h2]

theorem strLt_irrefl (s : String) : strLt s s = false := charsLt_irrefl s.data

theorem strLt_eq_of_not_lt (s t : String) (h1 : strLt s t = false) (h2 : strLt t s = false) :
    s = t := by
  have := charsLt_eq_of_not_lt s.data t.data h1 h2
  cases s; cases t; simp_all

/-! ## The writers -/

theorem Json.get_set_self (j : Json) (k : String) (v : Json)
    (hj : j = Json.null ∨ ∃ fs, j = Json.obj fs) : (j.set k v).get k = v := by
  rcases hj with rfl | ⟨fs, rfl⟩
  · simp [Json.set, Json.get, Json.fields, mapFind, strLt_irrefl]
  · simp [Json.set, Json.get, Json.fields, mapFind_mapSet_self strLt_irrefl]

theorem Json.get_set_ne (j : Json) (k k2 : String) (v : Json) (hne : k ≠ k2)
    (hj : j = Json.null ∨ ∃ fs, j = Json.obj fs) : (j.set k2 v).get k = j.get k := by
  have hk : (strLt k k2 || strLt k2 k) = true := lt_or_lt_of_ne strLt_eq_of_not_lt hne
  rcases hj with rfl | ⟨fs, rfl⟩
  · simp [Json.set, Json.get, Json.fields, mapFind, hk]
  · simp [Json.set, Json.get, Json.fields, mapFind_mapSet_ne strLt_eq_of_not_lt hne]

theorem Json.set_isObj (j : Json) (k : String) (v : Json)
    (hj : j = Json.null ∨ ∃ fs, j = Json.obj fs) : ∃ fs, j.set k v = Json.obj fs := by
  rcases hj with rfl | ⟨fs, rfl⟩
  · exact ⟨_, rfl⟩
  · exact ⟨_, rfl⟩

theorem nodeJson_isTryBlock (g : CFGGraph) (id : Int) (n : CFGNode) :
    (g.nodeJson id n).get "isTryBlock" = Json.bool (g.isNodeTryBlock id) := by
  rfl

theorem nodeJson_isThrowingException (g : CFGGraph) (id : Int) (n : CFGNode) :
    (g.nodeJson id n).get "isThrowingException" = Json.bool (g.isNodeThrowingException id) := by
  rfl

theorem jsonNodes_fold (g : CFGGraph) (a : Int) (l : List (Int × CFGNode)) (j : Json)
    (hj : j = Json.null ∨ ∃ fs, j = Json.obj fs)
    (hn : j.get "nodes" = Json.null ∨ ∃ fs, j.get "nodes" = Json.obj fs)
    (h : (∃ n, (j.get "nodes").get (to_string a) = g.nodeJson a n) ∨ a ∈ l.map Prod.fst) :
    (∃ fs, l.foldl (fun j p =>
        j.set "nodes" ((j.get "nodes").set (to_string p.1) (g.nodeJson p.1 p.2))) j
          = Json.obj fs) ∧
      ∃ n, ((l.foldl (fun j p =>
        j.set "nodes" ((j.get "nodes").set (to_string p.1) (g.nodeJson p.1 p.2))) j).get
          "nodes").get (to_string a) = g.nodeJson a n := by
  induction l generalizing j with
  | nil =>
    rcases h with h | h
    · refine ⟨?_, h⟩
      rcases hj with rfl | hj
      · obtain ⟨n, hn'⟩ := h
        exact absurd hn'.symm (by simp [Json.get, Json.fields, mapFind, CFGGraph.nodeJson,
          Json.ofPairs, Json.set])
      · exact hj
    · simp at h
  | cons p l ih =>
    rw [List.foldl_cons]
    have hget : (j.set "nodes" ((j.get "nodes").set (to_string p.1) (g.nodeJson p.1 p.2))).get
        "nodes" = (j.get "nodes").set (to_string p.1) (g.nodeJson p.1 p.2) :=
      Json.get_set_self j _ _ hj
    apply ih
    · exact Or.inr (Json.set_isObj j _ _ hj)
    · rw [hget]
      exact Or.inr (Json.set_isObj _ _ _ hn)
    · rw [hget]
      by_cases hpa : p.1 = a
      · left
        exact ⟨p.2, by rw [hpa]; exact Json.get_set_self _ _ _ hn⟩
      · have hne : to_string a ≠ to_string p.1 :=
          fun hc => hpa (to_string_injective _ _ hc).symm
        rcases h with ⟨n, hq⟩ | h
        · left
          exact ⟨n, by rw [Json.get_set_ne _ _ _ _ hne hn]; exact hq⟩
        · right
          rcases List.mem_map.1 h with ⟨q, hq, hqa⟩
          rcases List.mem_cons.1 hq with rfl | hq
          · exact absurd hqa hpa
          · exact List.mem_map.2 ⟨q, hq, hqa⟩

theorem jsonEdges_fold (g : CFGGraph) (l : List (Int × Int)) (j : Json)
    (hj : j = Json.null ∨ ∃ fs, j = Json.obj fs) :
    ((l.foldl (fun j e => j.set "edges" ((j.get "edges").push (g.edgeJson e.1 e.2))) j)
        = Json.null ∨
      ∃ fs, (l.foldl (fun j e => j.set "edges" ((j.get "edges").push (g.edgeJson e.1 e.2))) j)
        = Json.obj fs) ∧
      (l.foldl (fun j e => j.set "edges" ((j.get "edges").push (g.edgeJson e.1 e.2))) j).get
        "nodes" = j.get "nodes" := by
  induction l generalizing j with
  | nil => exact ⟨hj, rfl⟩
  | cons e l ih =>
    rw [List.foldl_cons]
    obtain ⟨h1, h2⟩ := ih (j.set "edges" ((j.get "edges").push (g.edgeJson e.1 e.2)))
      (Or.inr (Json.set_isObj j _ _ hj))
    refine ⟨h1, ?_⟩
    rw [h2]
    exact Json.get_set_ne j _ _ _ (by decide) hj

theorem json_node_entry (g : CFGGraph) (astJson functionCallJson : Json) (a : Int)
    (ha : a ∈ g.keys) :
    ∃ n, ((g.writeToJsonFile astJson functionCallJson).get "nodes").get (to_string a) =
      g.nodeJson a n := by
  obtain ⟨⟨fs, hobj⟩, n, hn⟩ := jsonNodes_fold g a g.nodes Json.null (Or.inl rfl) (Or.inl rfl)
    (Or.inr ha)
  have hobj' : g.jsonAfterNodes = Json.obj fs := hobj
  have hn' : (g.jsonAfterNodes.get "nodes").get (to_string a) = g.nodeJson a n := hn
  obtain ⟨he1, he2⟩ := jsonEdges_fold g g.edgePairs g.jsonAfterNodes (Or.inr ⟨fs, hobj'⟩)
  have he1' : g.jsonAfterEdges = Json.null ∨ ∃ fs, g.jsonAfterEdges = Json.obj fs := he1
  have he2' : g.jsonAfterEdges.get "nodes" = g.jsonAfterNodes.get "nodes" := he2
  refine ⟨n, ?_⟩
  unfold CFGGraph.writeToJsonFile
  rw [Json.get_set_ne _ _ _ _ (by decide) (Or.inr (Json.set_isObj _ _ _ he1')),
    Json.get_set_ne _ _ _ _ (by decide) he1', he2']
  exact hn'

namespace CFGGraph

theorem mem_dotStatements_node (g : CFGGraph) (b : Int) (h : b ∈ g.keys) :
    g.nodeStatement b ∈ g.dotStatements := by
  rcases List.mem_map.1 h with ⟨p, hp, rfl⟩
  simp only [dotStatements, List.mem_append, List.mem_map]
  exact Or.inl (Or.inl (Or.inr ⟨p, hp, rfl⟩))

theorem mem_dotStatements_edge (g : CFGGraph) (a b : Int) (h : (a, b) ∈ g.edgePairs) :
    g.edgeStatement a b ∈ g.dotStatements := by
  simp only [dotStatements, List.mem_append, List.mem_map]
  exact Or.inl (Or.inr ⟨(a, b), h, rfl⟩)

theorem mem_edgePairs_of_successorsOf (g : CFGGraph) (a b : Int)
    (h : b ∈ g.successorsOf a) : (a, b) ∈ g.edgePairs := by
  unfold successorsOf at h
  cases hf : mapFind intLt a g.nodes with
  | none => simp [hf] at h
  | some n =>
    simp only [hf] at h
    have hm := mapFind_mem intLt_eq_of_not_lt a g.nodes n hf
    simp only [edgePairs, List.mem_flatMap, List.mem_map]
    exact ⟨(a, n), hm, b, h, rfl⟩

theorem infix_writeToDotFile (g : CFGGraph) (s : String) (h : s ∈ g.dotStatements) :
    s.data <:+: g.writeToDotFile.data := by
  unfold writeToDotFile
  rw [String.data_join]
  exact List.infix_of_mem_flatten (List.mem_map.2 ⟨s, h, rfl⟩)

end CFGGraph

/-- C5, as stated, fails: in the reachable state where 5 is marked try-block, 6 is marked
throwing and (5, 6) is an exception edge, the DOT text holds no node and no edge statement
at all and the JSON document has no `nodes` member, because marks and exception edges create
neither nodes nor plain edges. -/
theorem marks_without_nodes_not_serialized :
    Reachable marksOnlyGraph ∧ marksOnlyGraph.isNodeTryBlock 5 = true ∧
      marksOnlyGraph.isNodeThrowingException 6 = true ∧
      marksOnlyGraph.isExceptionEdge 5 6 = true ∧
      marksOnlyGraph.writeToDotFile = "digraph CFG \x7b\n\x7d\n" ∧
      (marksOnlyGraph.writeToJsonFile Json.null Json.null).get "nodes" = Json.null :=
  ⟨⟨_, rfl⟩, by decide, by decide, by decide, by decide, rfl⟩

/-- C5, amended: when `a` and `b` are nodes of the graph, `a` is marked try-block, `b` is
marked throwing and `(a, b)` is an exception edge, the DOT text of `writeToDotFile` contains
the node statement of `b` with a non-empty style attribute, which is ` color=red` when `b` is
not also marked try-block; if `b` is in the successor set of `a` it contains the edge
statement `a -> b [color=red];`; and the JSON document has `isTryBlock` true in the entry of
`a` and `isThrowingException` true in the entry of `b`. -/
theorem try_throw_serialized_when_nodes (g : CFGGraph) (astJson functionCallJson : Json)
    (a b : Int) (ha : g.hasNode a = true) (hb : g.hasNode b = true)
    (htry : g.isNodeTryBlock a = true) (hthrow : g.isNodeThrowingException b = true)
    (hexc : g.isExceptionEdge a b = true) :
    (∃ style : String, style ≠ "" ∧ (g.isNodeTryBlock b = false → style = " color=red") ∧
        ("    " ++ to_string b ++ " [label=\"" ++ g.getNodeLabel b ++ "\"" ++ style ++
          "];\n").data <:+: g.writeToDotFile.data) ∧
      (b ∈ g.successorsOf a →
        ("    " ++ to_string a ++ " -> " ++ to_string b ++ " [color=red];\n").data <:+:
          g.writeToDotFile.data) ∧
      (((g.writeToJsonFile astJson functionCallJson).get "nodes").get (to_string a)).get
        "isTryBlock" = Json.bool true ∧
      (((g.writeToJsonFile astJson functionCallJson).get "nodes").get (to_string b)).get
        "isThrowingException" = Json.bool true := by
  have hka : a ∈ g.keys := (CFGGraph.hasNode_iff g a).1 ha
  have hkb : b ∈ g.keys := (CFGGraph.hasNode_iff g b).1 hb
  refine ⟨?_, ?_, ?_, ?_⟩
  · have h := CFGGraph.infix_writeToDotFile g _ (CFGGraph.mem_dotStatements_node g b hkb)
    cases hbt : g.isNodeTryBlock b
    · refine ⟨" color=red", by decide, fun _ => rfl, ?_⟩
      simpa [CFGGraph.nodeStatement, hthrow, hbt] using h
    · refine ⟨" shape=box color=lightblue", by decide, fun hc => Bool.noConfusion hc, ?_⟩
      simpa [CFGGraph.nodeStatement, hbt] using h
  · intro hs
    have h := CFGGraph.infix_writeToDotFile g _
      (CFGGraph.mem_dotStatements_edge g a b (CFGGraph.mem_edgePairs_of_successorsOf g a b hs))
    simpa [CFGGraph.edgeStatement, hexc] using h
  · obtain ⟨n, hn⟩ := json_node_entry g astJson functionCallJson a hka
    rw [hn, nodeJson_isTryBlock, htry]
  · obtain ⟨n, hn⟩ := json_node_entry g astJson functionCallJson b hkb
    rw [hn, nodeJson_isThrowingException, hthrow]

/-- Witness for C5 amended: the try-block node 5 with the exception edge to the throwing
node 6. -/
theorem try_throw_serialized_witness :
    tryThrowGraph.hasNode 5 = true ∧ tryThrowGraph.hasNode 6 = true ∧
      6 ∈ tryThrowGraph.successorsOf 5 ∧
      (∃ style : String, style ≠ "" ∧
        (tryThrowGraph.isNodeTryBlock 6 = false → style = " color=red") ∧
        ("    " ++ to_string 6 ++ " [label=\"" ++ tryThrowGraph.getNodeLabel 6 ++ "\"" ++ style ++
          "];\n").data <:+: tryThrowGraph.writeToDotFile.data) ∧
      "    5 -> 6 [color=red];\n".data <:+: tryThrowGraph.writeToDotFile.data ∧
      (((tryThrowGraph.writeToJsonFile Json.null Json.null).get "nodes").get "5").get
        "isTryBlock" = Json.bool true ∧
      (((tryThrowGraph.writeToJsonFile Json.null Json.null).get "nodes").get "6").get
        "isThrowingException" = Json.bool true :=
  have h := try_throw_serialized_when_nodes tryThrowGraph Json.null Json.null 5 6
    (by decide) (by decide) (by decide) (by decide) (by decide)
  ⟨by decide, by decide, by decide, h.1, h.2.1 (by decide), h.2.2.1, h.2.2.2⟩

/-! ## The reader of control-flow graphs -/

theorem takeWhile_append_stop {p : Char → Bool} (l : List Char) (c : Char) (r : List Char)
    (hl : ∀ x ∈ l, p x = true) (hc : p c = false) : (l ++ c :: r).takeWhile p = l := by
  induction l with
  | nil => simp [List.takeWhile, hc]
  | cons x xs ih =>
    have hx : p x = true := hl x (List.mem_cons_self _ _)
    simp only [List.cons_append, List.takeWhile, hx, List.append_eq]
    rw [ih (fun y hy => hl y (List.mem_cons_of_mem _ hy))]

theorem dropWhile_append_stop {p : Char → Bool} (l : List Char) (c : Char) (r : List Char)
    (hl : ∀ x ∈ l, p x = true) (hc : p c = false) : (l ++ c :: r).dropWhile p = c :: r := by
  induction l with
  | nil => simp [List.dropWhile, hc]
  | cons x xs ih =>
    have hx : p x = true := hl x (List.mem_cons_self _ _)
    simp only [List.cons_append, List.dropWhile, hx, List.append_eq]
    exact ih (fun y hy => hl y (List.mem_cons_of_mem _ hy))

theorem splitOn_append_sep (sep : Char) (l rest : List Char) (hl : ∀ x ∈ l, x ≠ sep) :
    splitOn sep (l ++ sep :: rest) = l :: splitOn sep rest := by
  induction l with
  | nil => simp [splitOn]
  | cons x xs ih =>
    have hx : (x == sep) = false := by simpa using hl x (List.mem_cons_self _ _)
    simp only [List.cons_append, splitOn, hx, Bool.false_eq_true, if_false, List.append_eq]
    rw [ih (fun y hy => hl y (List.mem_cons_of_mem _ hy))]

theorem reDigit_bounds (c : Char) (h : reDigit c = true) : 48 ≤ c.toNat ∧ c.toNat ≤ 57 := by
  simpa [reDigit] using h

theorem reSpace_of_digit (c : Char) (h : reDigit c = true) : reSpace c = false := by
  have hb := reDigit_bounds c h
  simp only [reSpace, Bool.or_eq_false_iff, beq_eq_false_iff_ne, Bool.and_eq_false_imp,
    decide_eq_true_eq, decide_eq_false_iff_not]
  omega

theorem isSpaceQChar_of_digit (c : Char) (h : reDigit c = true) : isSpaceQChar c = false := by
  have hb := reDigit_bounds c h
  simp only [isSpaceQChar, Bool.or_eq_false_iff, beq_eq_false_iff_ne, Bool.and_eq_false_imp,
    decide_eq_true_eq, decide_eq_false_iff_not]
  omega

theorem digit_beq_false (c d : Char) (h : reDigit c = true) (hd : reDigit d = false) :
    (c == d) = false := by
  rw [beq_eq_false_iff_ne]
  rintro rfl
  rw [h] at hd
  exact Bool.noConfusion hd

theorem trimmed_of_ends (c d : Char) (mid : List Char) (hc : isSpaceQChar c = false)
    (hd : isSpaceQChar d = false) : trimmed (c :: (mid ++ [d])) = c :: (mid ++ [d]) := by
  simp [trimmed, List.dropWhile, hc, hd]

theorem skippedByCFGParser_digit (c : Char) (r : List Char) (h : reDigit c = true) :
    skippedByCFGParser (c :: r) = false := by
  have h1 : (c == '/') = false := digit_beq_false c '/' h (by rfl)
  have h2 : (c == 'd') = false := digit_beq_false c 'd' h (by rfl)
  have h3 : (c == '\x7d') = false := digit_beq_false c '\x7d' h (by rfl)
  simp [skippedByCFGParser, startsWith, h1, h2, h3]

theorem matchAttrBlock_closed (attrs : List Char) (hattrs : ∀ c ∈ attrs, c ≠ ']') :
    matchAttrBlock ('[' :: (attrs ++ [']', ';'])) = some attrs := by
  have hp : ∀ x ∈ attrs, (fun x : Char => x != ']') x = true := by
    intro x hx
    simpa using hattrs x hx
  have h1 : (attrs ++ [']', ';']).dropWhile (fun x => x != ']') = [']', ';'] :=
    dropWhile_append_stop attrs ']' [';'] hp (by rfl)
  have h2 : (attrs ++ [']', ';']).takeWhile (fun x => x != ']') = attrs :=
    takeWhile_append_stop attrs ']' [';'] hp (by rfl)
  have h3 : matchTail [';'] = true := by rfl
  simp only [matchAttrBlock, beq_self_eq_true, if_true, h1, h2, h3]

theorem nodeRegex_node_line (ds attrs : List Char) (hne : ds ≠ [])
    (hds : ∀ c ∈ ds, reDigit c = true) (hattrs : ∀ c ∈ attrs, c ≠ ']') :
    nodeRegex (ds ++ ' ' :: '[' :: (attrs ++ [']', ';'])) = some (ds, attrs) := by
  obtain ⟨d, ds', rfl⟩ := List.exists_cons_of_ne_nil hne
  have hd : reSpace d = false := reSpace_of_digit d (hds d (List.mem_cons_self _ _))
  have h0 : (d :: ds' ++ ' ' :: '[' :: (attrs ++ [']', ';'])).dropWhile reSpace =
      d :: ds' ++ ' ' :: '[' :: (attrs ++ [']', ';']) := by
    simp [List.dropWhile, hd]
  have h1 : (d :: ds' ++ ' ' :: '[' :: (attrs ++ [']', ';'])).takeWhile reDigit = d :: ds' :=
    takeWhile_append_stop (d :: ds') ' ' _ hds (by rfl)
  have h2 : (d :: ds' ++ ' ' :: '[' :: (attrs ++ [']', ';'])).dropWhile reDigit =
      ' ' :: '[' :: (attrs ++ [']', ';']) :=
    dropWhile_append_stop (d :: ds') ' ' _ hds (by rfl)
  have h3 : (' ' :: '[' :: (attrs ++ [']', ';'])).dropWhile reSpace =
      '[' :: (attrs ++ [']', ';']) := by
    have ha : reSpace ' ' = true := by rfl
    have hb : reSpace '[' = false := by rfl
    simp [List.dropWhile, ha, hb]
  simp only [nodeRegex, h0, h1, h2, h3, matchAttrBlock_closed attrs hattrs]
  simp

theorem parseDotLine_node (g : CFGGraph) (ds attrs : List Char) (hne : ds ≠ [])
    (hds : ∀ c ∈ ds, reDigit c = true) (hattrs : ∀ c ∈ attrs, c ≠ ']') :
    parseDotLine g (ds ++ ' ' :: '[' :: (attrs ++ [']', ';'])) =
      parseNodeStatement g ds attrs := by
  have hre := nodeRegex_node_line ds attrs hne hds hattrs
  obtain ⟨d, ds', rfl⟩ := List.exists_cons_of_ne_nil hne
  have hdig : reDigit d = true := hds d (List.mem_cons_self _ _)
  have hshape : d :: ds' ++ ' ' :: '[' :: (attrs ++ [']', ';']) =
      d :: ((ds' ++ ' ' :: '[' :: (attrs ++ [']'])) ++ [';']) := by simp
  have ht : trimmed (d :: ds' ++ ' ' :: '[' :: (attrs ++ [']', ';'])) =
      d :: ds' ++ ' ' :: '[' :: (attrs ++ [']', ';']) := by
    rw [hshape]
    exact trimmed_of_ends d ';' _ (isSpaceQChar_of_digit d hdig) (by rfl)
  have hskip : skippedByCFGParser (d :: ds' ++ ' ' :: '[' :: (attrs ++ [']', ';'])) = false :=
    skippedByCFGParser_digit d _ hdig
  simp only [parseDotLine, ht, hskip, hre, Bool.false_eq_true, if_false]

theorem parseDotLine_plain_edge (g : CFGGraph) (ds1 ds2 : List Char) (hne1 : ds1 ≠ [])
    (hne2 : ds2 ≠ []) (hds1 : ∀ c ∈ ds1, reDigit c = true)
    (hds2 : ∀ c ∈ ds2, reDigit c = true) :
    parseDotLine g (ds1 ++ ' ' :: '-' :: '>' :: ' ' :: (ds2 ++ [';'])) = g := by
  obtain ⟨d, ds', rfl⟩ := List.exists_cons_of_ne_nil hne1
  obtain ⟨e, es', rfl⟩ := List.exists_cons_of_ne_nil hne2
  have hdig : reDigit d = true := hds1 d (List.mem_cons_self _ _)
  have hedig : reDigit e = true := hds2 e (List.mem_cons_self _ _)
  have hd : reSpace d = false := reSpace_of_digit d hdig
  have he : reSpace e = false := reSpace_of_digit e hedig
  have hshape : d :: ds' ++ ' ' :: '-' :: '>' :: ' ' :: (e :: es' ++ [';']) =
      d :: ((ds' ++ ' ' :: '-' :: '>' :: ' ' :: (e :: es')) ++ [';']) := by simp
  have ht : trimmed (d :: ds' ++ ' ' :: '-' :: '>' :: ' ' :: (e :: es' ++ [';'])) =
      d :: ds' ++ ' ' :: '-' :: '>' :: ' ' :: (e :: es' ++ [';']) := by
    rw [hshape]
    exact trimmed_of_ends d ';' _ (isSpaceQChar_of_digit d hdig) (by rfl)
  have hskip : skippedByCFGParser
      (d :: ds' ++ ' ' :: '-' :: '>' :: ' ' :: (e :: es' ++ [';'])) = false :=
    skippedByCFGParser_digit d _ hdig
  have h0 : (d :: ds' ++ ' ' :: '-' :: '>' :: ' ' :: (e :: es' ++ [';'])).dropWhile reSpace =
      d :: ds' ++ ' ' :: '-' :: '>' :: ' ' :: (e :: es' ++ [';']) := by
    simp [List.dropWhile, hd]
  have h1 : (d :: ds' ++ ' ' :: '-' :: '>' :: ' ' :: (e :: es' ++ [';'])).takeWhile reDigit =
      d :: ds' := takeWhile_append_stop (d :: ds') ' ' _ hds1 (by rfl)
  have h2 : (d :: ds' ++ ' ' :: '-' :: '>' :: ' ' :: (e :: es' ++ [';'])).dropWhile reDigit =
      ' ' :: '-' :: '>' :: ' ' :: (e :: es' ++ [';']) :=
    dropWhile_append_stop (d :: ds') ' ' _ hds1 (by rfl)
  have hsp : reSpace ' ' = true := by rfl
  have hdash : reSpace '-' = false := by rfl
  have h3 : (' ' :: '-' :: '>' :: ' ' :: (e :: es' ++ [';'])).dropWhile reSpace =
      '-' :: '>' :: ' ' :: (e :: es' ++ [';']) := by
    simp [List.dropWhile, hsp, hdash]
  have hnode : nodeRegex (d :: ds' ++ ' ' :: '-' :: '>' :: ' ' :: (e :: es' ++ [';'])) = none := by
    have hm : matchAttrBlock ('-' :: '>' :: ' ' :: (e :: es' ++ [';'])) = none := by
      have hb : ('-' == '[') = false := by rfl
      simp only [matchAttrBlock, hb, Bool.false_eq_true, if_false]
    simp only [nodeRegex, h0, h1, h2, h3, hm]
    simp
  have h4 : (' ' :: (e :: es' ++ [';'])).dropWhile reSpace = e :: es' ++ [';'] := by
    simp [List.dropWhile, hsp, he]
  have h5 : (e :: es' ++ [';']).takeWhile reDigit = e :: es' :=
    takeWhile_append_stop (e :: es') ';' [] hds2 (by rfl)
  have h6 : (e :: es' ++ [';']).dropWhile reDigit = [';'] :=
    dropWhile_append_stop (e :: es') ';' [] hds2 (by rfl)
  have hedge : edgeRegex (d :: ds' ++ ' ' :: '-' :: '>' :: ' ' :: (e :: es' ++ [';'])) = none := by
    have hs : stripLit ['-', '>'] ('-' :: '>' :: ' ' :: (e :: es' ++ [';'])) =
        some (' ' :: (e :: es' ++ [';'])) := by
      simp [stripLit]
    have h7 : ([';'] : List Char).dropWhile reSpace = [';'] := by rfl
    have hm : matchAttrBlock [';'] = none := by rfl
    simp only [edgeRegex, h0, h1, h2, h3, hs, h4, h5, h6, h7, hm]
    simp
  simp only [parseDotLine, ht, hskip, hnode, hedge, Bool.false_eq_true, if_false]

theorem intToChars_nonneg (n : Nat) : intToChars (n : Int) = natToChars n := rfl

theorem toInt_natToChars (n : Nat) (h : n ≤ 2147483647) :
    toInt (natToChars n) = some (n : Int) := by
  simp only [toInt, digitsValue_natToChars, h, if_true]
  rfl

theorem parseNodeStatement_empty (ds attrs : List Char) (a : Int) (h : toInt ds = some a) :
    ∃ n, (parseNodeStatement CFGGraph.empty ds attrs).nodes = [(a, n)] ∧
      n.label = "Block " ++ to_string a ∧
      (parseNodeStatement CFGGraph.empty ds attrs).exceptionEdges = [] := by
  have hirr : intLt a a = false := intLt_irrefl a
  simp only [parseNodeStatement, h]
  cases labelRegex attrs with
  | none =>
    refine ⟨CFGNode.mk1 a ("Block " ++ to_string a), ?_, rfl, ?_⟩
    · split <;> split <;>
        simp [CFGGraph.addNode, CFGGraph.hasNode, CFGGraph.empty, mapFind, mapSet,
          CFGGraph.markNodeAsTryBlock, CFGGraph.markNodeAsThrowingException]
    · split <;> split <;>
        simp [CFGGraph.addNode, CFGGraph.hasNode, CFGGraph.empty, mapFind, mapSet,
          CFGGraph.markNodeAsTryBlock, CFGGraph.markNodeAsThrowingException]
  | some l =>
    refine ⟨{ CFGNode.mk1 a ("Block " ++ to_string a) with statements := [⟨l⟩] }, ?_, rfl, ?_⟩
    · split <;> split <;>
        simp [CFGGraph.addNode, CFGGraph.hasNode, CFGGraph.empty, mapFind, mapSet, mapUpdate,
          CFGGraph.addStatement, CFGGraph.addStatementToNode, hirr, CFGNode.mk1,
          CFGGraph.markNodeAsTryBlock, CFGGraph.markNodeAsThrowingException]
    · split <;> split <;>
        simp [CFGGraph.addNode, CFGGraph.hasNode, CFGGraph.empty, mapFind, mapSet, mapUpdate,
          CFGGraph.addStatement, CFGGraph.addStatementToNode, hirr,
          CFGGraph.markNodeAsTryBlock, CFGGraph.markNodeAsThrowingException]

theorem scenarioText_lines (n m : Nat) (L : String) (hL : ∀ c ∈ L.data, c ≠ '\n') :
    splitLines (scenarioText (n : Int) (m : Int) L).toList =
      [natToChars n ++ ' ' :: '[' :: (("label=\"".toList ++ L.data ++ ['"']) ++ [']', ';']),
        natToChars n ++ ' ' :: '-' :: '>' :: ' ' :: (natToChars m ++ [';'])] := by
  have hnl : ∀ k : Nat, ∀ x ∈ natToChars k, x ≠ '\n' := by
    intro k x hx hc
    have := natToChars_all_digits k x hx
    rw [hc] at this
    exact Bool.noConfusion this
  have htext : (scenarioText (n : Int) (m : Int) L).toList =
      (natToChars n ++ ' ' :: '[' :: (("label=\"".toList ++ L.data ++ ['"']) ++ [']', ';'])) ++
        '\n' :: ((natToChars n ++ ' ' :: '-' :: '>' :: ' ' :: (natToChars m ++ [';'])) ++
          '\n' :: []) := by
    simp [scenarioText, to_string, intToChars_nonneg, String.toList]
  have hlit : ∀ x ∈ "label=\"".toList, x ≠ '\n' := by decide
  have hq : ∀ x ∈ ['"'], x ≠ '\n' := by decide
  have hend : ∀ x ∈ [']', ';'], x ≠ '\n' := by decide
  have hsemi : ∀ x ∈ [';'], x ≠ '\n' := by decide
  have h1 : ∀ x ∈ natToChars n ++ ' ' :: '[' ::
      (("label=\"".toList ++ L.data ++ ['"']) ++ [']', ';']), x ≠ '\n' := by
    intro x hx
    rcases List.mem_append.1 hx with hx | hx
    · exact hnl n x hx
    · rcases List.mem_cons.1 hx with rfl | hx
      · decide
      · rcases List.mem_cons.1 hx with rfl | hx
        · decide
        · rcases List.mem_append.1 hx with hx | hx
          · rcases List.mem_append.1 hx with hx | hx
            · rcases List.mem_append.1 hx with hx | hx
              · exact hlit x hx
              · exact hL x hx
            · exact hq x hx
          · exact hend x hx
  have h2 : ∀ x ∈ natToChars n ++ ' ' :: '-' :: '>' :: ' ' :: (natToChars m ++ [';']),
      x ≠ '\n' := by
    intro x hx
    rcases List.mem_append.1 hx with hx | hx
    · exact hnl n x hx
    · rcases List.mem_cons.1 hx with rfl | hx
      · decide
      · rcases List.mem_cons.1 hx with rfl | hx
        · decide
        · rcases List.mem_cons.1 hx with rfl | hx
          · decide
          · rcases List.mem_cons.1 hx with rfl | hx
            · decide
            · rcases List.mem_append.1 hx with hx | hx
              · exact hnl m x hx
              · exact hsemi x hx
  rw [splitLines, htext, splitOn_append_sep _ _ _ h1, splitOn_append_sep _ _ _ h2]
  have hne1 : natToChars n ≠ [] := natToChars_ne_nil n
  cases hc : natToChars n with
  | nil => exact absurd hc hne1
  | cons d ds => simp [splitOn, List.filter]

/-- C4, as stated, fails on the spec's instance: parsing `5 [label="Block 5"];` followed by
`5 -> 6;` gives a graph whose only node is 5 and which has no edge, because the edge line has
no attribute list and is not recognised, and because an edge never creates its target. -/
theorem scenario_parse_one_node_no_edge :
    scenarioText 5 6 "Block 5" = "5 [label=\"Block 5\"];\n5 -> 6;\n" ∧
      (parseDotToCFG "5 [label=\"Block 5\"];\n5 -> 6;\n").keys = [5] ∧
      (parseDotToCFG "5 [label=\"Block 5\"];\n5 -> 6;\n").hasNode 6 = false ∧
      (parseDotToCFG "5 [label=\"Block 5\"];\n5 -> 6;\n").getEdgeCount = 0 := by
  decide

/-- C4, amended: for distinct ids `a` and `b` with `0 ≤ a ≤ INT_MAX` and `0 ≤ b`, and every
label text `L` without double quote, bracket or newline, parsing the two-line text
`a [label="L"];`, `a -> b;` gives a graph whose only node is `a`, labelled with the default
label `"Block a"`; `b` is not a node, and there is no exception edge. -/
theorem scenario_parse_source_node_only (a b : Int) (L : String) (ha : 0 ≤ a)
    (hmax : a ≤ 2147483647) (hb : 0 ≤ b) (hab : a ≠ b)
    (hL : ∀ c ∈ L.data, c ≠ '"' ∧ c ≠ '[' ∧ c ≠ ']' ∧ c ≠ '\n') :
    (parseDotToCFG (scenarioText a b L)).keys = [a] ∧
      (parseDotToCFG (scenarioText a b L)).getNodeLabel a = "Block " ++ to_string a ∧
      (parseDotToCFG (scenarioText a b L)).hasNode b = false ∧
      (parseDotToCFG (scenarioText a b L)).exceptionEdges = [] := by
  obtain ⟨n, rfl⟩ := Int.eq_ofNat_of_zero_le ha
  obtain ⟨m, rfl⟩ := Int.eq_ofNat_of_zero_le hb
  have hn : n ≤ 2147483647 := by omega
  have hattrs : ∀ c ∈ "label=\"".toList ++ L.data ++ ['"'], c ≠ ']' := by
    have hlit : ∀ x ∈ "label=\"".toList, x ≠ ']' := by decide
    have hq : ∀ x ∈ ['"'], x ≠ ']' := by decide
    intro c hc
    rcases List.mem_append.1 hc with hc | hc
    · rcases List.mem_append.1 hc with hc | hc
      · exact hlit c hc
      · exact (hL c hc).2.2.1
    · exact hq c hc
  have hparse : parseDotToCFG (scenarioText (n : Int) (m : Int) L) =
      parseNodeStatement CFGGraph.empty (natToChars n) ("label=\"".toList ++ L.data ++ ['"']) := by
    rw [parseDotToCFG, scenarioText_lines n m L (fun c hc => (hL c hc).2.2.2)]
    simp only [List.foldl_cons, List.foldl_nil]
    rw [parseDotLine_node _ _ _ (natToChars_ne_nil n) (natToChars_all_digits n) hattrs,
      parseDotLine_plain_edge _ _ _ (natToChars_ne_nil n) (natToChars_ne_nil m)
        (natToChars_all_digits n) (natToChars_all_digits m)]
  obtain ⟨node, hnodes, hlabel, hexc⟩ := parseNodeStatement_empty (natToChars n)
    ("label=\"".toList ++ L.data ++ ['"']) (n : Int) (toInt_natToChars n hn)
  rw [hparse]
  have hlt : (intLt (m : Int) (n : Int) || intLt (n : Int) (m : Int)) = true :=
    lt_or_lt_of_ne intLt_eq_of_not_lt (fun h => hab h.symm)
  refine ⟨?_, ?_, ?_, hexc⟩
  · unfold CFGGraph.keys
    rw [hnodes]
    rfl
  · simp only [CFGGraph.getNodeLabel, hnodes, mapFind, intLt_irrefl, Bool.or_self,
      Bool.false_eq_true, if_false, hlabel]
    split <;> rfl
  · unfold CFGGraph.hasNode
    rw [hnodes]
    simp only [mapFind, hlt, if_true]
    rfl

/-- Witness for C4 amended: the spec's instance `a = 5`, `b = 6`, `L = "Block 5"`. -/
theorem scenario_parse_source_node_only_witness :
    (parseDotToCFG (scenarioText 5 6 "Block 5")).keys = [5] ∧
      (parseDotToCFG (scenarioText 5 6 "Block 5")).getNodeLabel 5 = "Block " ++ to_string 5 ∧
      (parseDotToCFG (scenarioText 5 6 "Block 5")).hasNode 6 = false ∧
      (parseDotToCFG (scenarioText 5 6 "Block 5")).exceptionEdges = [] :=
  scenario_parse_source_node_only 5 6 "Block 5" (by decide) (by decide) (by decide)
    (by decide) (by decide)

/-! ## Monotonicity of the graph model -/

section SetLemmas

variable {κ : Type} {lt : κ → κ → Bool}

theorem setContains_setInsert_of_contains (x y : κ) (s : List κ)
    (h : setContains lt y s = true) : setContains lt y (setInsert lt x s) = true := by
  induction s with
  | nil => simp [setContains] at h
  | cons z zs ih =>
    cases h1 : lt x z
    · cases h2 : lt z x
      · simpa [setInsert, h1, h2] using h
      · simp only [setInsert, h1, h2, if_true, Bool.false_eq_true, if_false, setContains]
        simp only [setContains] at h
        cases hz : (lt y z || lt z y)
        · simp
        · simp only [hz, if_true] at h ⊢
          exact ih h
    · simp only [setInsert, h1, if_true]
      cases hx : (lt y x || lt x y)
      · simp [setContains, hx]
      · simp only [setContains, hx, if_true]
        simpa [setContains] using h

end SetLemmas

namespace CFGGraph

theorem Preserved.refl (g : CFGGraph) : Preserved g g :=
  ⟨fun _ h => h, fun _ _ h => h, fun _ _ h => h, fun _ h => h, fun _ h => h⟩

theorem Preserved.trans {g1 g2 g3 : CFGGraph} (h12 : Preserved g1 g2) (h23 : Preserved g2 g3) :
    Preserved g1 g3 :=
  ⟨fun k h => h23.1 k (h12.1 k h), fun s t h => h23.2.1 s t (h12.2.1 s t h),
    fun s t h => h23.2.2.1 s t (h12.2.2.1 s t h), fun k h => h23.2.2.2.1 k (h12.2.2.2.1 k h),
    fun k h => h23.2.2.2.2 k (h12.2.2.2.2 k h)⟩

/-- Writing a node whose successor set contains the old one keeps everything present. -/
theorem preserved_nodes_set (g : CFGGraph) (k : Int) (v' : CFGNode)
    (hv : ∀ v, mapFind intLt k g.nodes = some v → ∀ t ∈ v.successors, t ∈ v'.successors) :
    Preserved g { g with nodes := mapSet intLt k v' g.nodes } := by
  refine ⟨?_, ?_, fun _ _ h => h, fun _ h => h, fun _ h => h⟩
  · intro j hj
    rw [hasNode_iff] at hj ⊢
    exact (mem_keys_mapSet intLt_eq_of_not_lt k v' g.nodes j).2 (Or.inr hj)
  · intro s t ht
    by_cases hs : s = k
    · subst hs
      unfold successorsOf at ht ⊢
      rw [show ({ g with nodes := mapSet intLt s v' g.nodes } : CFGGraph).nodes =
        mapSet intLt s v' g.nodes from rfl, mapFind_mapSet_self intLt_irrefl]
      cases hf : mapFind intLt s g.nodes with
      | none => simp [hf] at ht
      | some v =>
        simp only [hf] at ht
        exact hv v hf t ht
    · unfold successorsOf at ht ⊢
      rw [show ({ g with nodes := mapSet intLt k v' g.nodes } : CFGGraph).nodes =
        mapSet intLt k v' g.nodes from rfl, mapFind_mapSet_ne intLt_eq_of_not_lt hs]
      exact ht

theorem preserved_addNode (g : CFGGraph) (k : Int) : Preserved g (g.addNode k) := by
  cases h : g.hasNode k
  · have hnone : mapFind intLt k g.nodes = none := by simpa [hasNode] using h
    simp only [addNode, h, Bool.false_eq_true, if_false]
    apply preserved_nodes_set
    intro v hv
    rw [hnone] at hv
    exact Option.noConfusion hv
  · simp only [addNode, h, if_true]
    exact Preserved.refl g

theorem preserved_addNodeWithLabel (g : CFGGraph) (k : Int) (label : String) :
    Preserved g (g.addNodeWithLabel k label) := by
  cases h : g.hasNode k
  · have hnone : mapFind intLt k g.nodes = none := by simpa [hasNode] using h
    simp only [addNodeWithLabel, h, Bool.false_eq_true, if_false]
    apply preserved_nodes_set
    intro v hv
    rw [hnone] at hv
    exact Option.noConfusion hv
  · simp only [addNodeWithLabel, h, if_true, mapUpdate]
    apply preserved_nodes_set
    intro v hv t ht
    simpa [hv] using ht

theorem preserved_update (g : CFGGraph) (k : Int) (f : CFGNode → CFGNode)
    (hf : ∀ v, ∀ t ∈ v.successors, t ∈ (f v).successors) :
    Preserved g { g with nodes := mapUpdate intLt CFGNode.default k f g.nodes } := by
  unfold mapUpdate
  apply preserved_nodes_set
  intro v hv t ht
  rw [hv]
  exact hf v t ht

theorem preserved_addStatementToNode (g : CFGGraph) (k : Int) (stmt : String) :
    Preserved g (g.addStatementToNode k stmt) := by
  unfold addStatementToNode
  refine @Preserved.trans _ (if g.hasNode k = true then g else g.addNode k) _ ?_ ?_
  · split
    · exact Preserved.refl g
    · exact preserved_addNode g k
  · exact preserved_update _ k _ (fun v t ht => ht)

theorem preserved_addEdge (g : CFGGraph) (a b : Int) : Preserved g (g.addEdge a b) := by
  unfold addEdge
  refine @Preserved.trans _ (if g.hasNode a = true then g else g.addNode a) _ ?_ ?_
  · split
    · exact Preserved.refl g
    · exact preserved_addNode g a
  · exact preserved_update _ a _ (fun v t ht => mem_setInsert_of_mem b t v.successors ht)

theorem preserved_addExceptionEdge (g : CFGGraph) (a b : Int) :
    Preserved g (g.addExceptionEdge a b) :=
  ⟨fun _ h => h, fun _ _ h => h,
    fun s t h => setContains_setInsert_of_contains (a, b) (s, t) g.exceptionEdges h,
    fun _ h => h, fun _ h => h⟩

theorem preserved_markNodeAsTryBlock (g : CFGGraph) (n : Int) :
    Preserved g (g.markNodeAsTryBlock n) :=
  ⟨fun _ h => h, fun _ _ h => h, fun _ _ h => h,
    fun k h => setContains_setInsert_of_contains n k g.tryBlocks h, fun _ h => h⟩

theorem preserved_markNodeAsThrowingException (g : CFGGraph) (n : Int) :
    Preserved g (g.markNodeAsThrowingException n) :=
  ⟨fun _ h => h, fun _ _ h => h, fun _ _ h => h, fun _ h => h,
    fun k h => setContains_setInsert_of_contains n k g.throwingBlocks h⟩

theorem preserved_apply (g : CFGGraph) (op : Op) : Preserved g (Op.apply g op) := by
  cases op with
  | addNode id => exact preserved_addNode g id
  | addNodeWithLabel id l => exact preserved_addNodeWithLabel g id l
  | addStatement id s => exact preserved_addStatementToNode g id s
  | addEdge a b => exact preserved_addEdge g a b
  | addExceptionEdge a b => exact preserved_addExceptionEdge g a b
  | markNodeAsTryBlock id => exact preserved_markNodeAsTryBlock g id
  | markNodeAsThrowingException id => exact preserved_markNodeAsThrowingException g id

end CFGGraph

/-- C18: every public mutating operation (`addNode` in both overloads, `addStatement`,
`addEdge`, `addExceptionEdge`, `markNodeAsTryBlock`, `markNodeAsThrowingException`), with any
arguments and on any graph, keeps every node id, every successor pair, every exception-edge
pair and every try-block or throwing mark that was present before the call. -/
theorem operations_are_monotonic (g : CFGGraph) (op : Op) :
    (∀ k, g.hasNode k = true → (Op.apply g op).hasNode k = true) ∧
      (∀ s t, t ∈ g.successorsOf s → t ∈ (Op.apply g op).successorsOf s) ∧
      (∀ s t, g.isExceptionEdge s t = true → (Op.apply g op).isExceptionEdge s t = true) ∧
      (∀ k, g.isNodeTryBlock k = true → (Op.apply g op).isNodeTryBlock k = true) ∧
      (∀ k, g.isNodeThrowingException k = true →
        (Op.apply g op).isNodeThrowingException k = true) :=
  CFGGraph.preserved_apply g op

/-! ## Lines of a text -/

theorem splitOn_ne_nil (sep : Char) (s : List Char) : splitOn sep s ≠ [] := by
  induction s with
  | nil => simp [splitOn]
  | cons c cs ih =>
    cases hc : (c == sep)
    · cases hs : splitOn sep cs with
      | nil => exact absurd hs ih
      | cons l ls => simp [splitOn, hc, hs]
    · simp [splitOn, hc]

theorem splitOn_append (sep : Char) (a b : List Char) :
    splitOn sep (a ++ sep :: b) = splitOn sep a ++ splitOn sep b := by
  induction a with
  | nil => simp [splitOn]
  | cons c cs ih =>
    cases hc : (c == sep)
    · cases hs : splitOn sep cs with
      | nil => exact absurd hs (splitOn_ne_nil sep cs)
      | cons l ls =>
        simp only [List.cons_append, splitOn, hc, Bool.false_eq_true, if_false, List.append_eq]
        rw [ih, hs]
        rfl
    · simp only [List.cons_append, splitOn, hc, if_true, List.append_eq]
      rw [ih]

theorem splitOn_of_not_mem (sep : Char) (u : List Char) (hu : ∀ c ∈ u, c ≠ sep) :
    splitOn sep u = [u] := by
  induction u with
  | nil => rfl
  | cons c cs ih =>
    have hc : (c == sep) = false := by simpa using hu c (List.mem_cons_self _ _)
    simp only [splitOn, hc, Bool.false_eq_true, if_false]
    rw [ih (fun y hy => hu y (List.mem_cons_of_mem _ hy))]

theorem splitLines_append (a b : List Char) :
    splitLines (a ++ '\n' :: b) = splitLines a ++ splitLines b := by
  simp [splitLines, splitOn_append]

theorem splitLines_line (u : List Char) (hne : u ≠ []) (hu : ∀ c ∈ u, c ≠ '\n') :
    splitLines u = [u] := by
  cases u with
  | nil => exact absurd rfl hne
  | cons c cs => simp [splitLines, splitOn_of_not_mem '\n' (c :: cs) hu]

theorem splitLines_around (before line after : List Char) (hne : line ≠ [])
    (hl : ∀ c ∈ line, c ≠ '\n') :
    splitLines (textAround before line after).toList =
      splitLines before ++ line :: splitLines after := by
  simp only [textAround, String.toList]
  rw [splitLines_append, splitLines_append, splitLines_line line hne hl]
  rfl

theorem parseDotToCFG_around (before line after : List Char) (hne : line ≠ [])
    (hl : ∀ c ∈ line, c ≠ '\n') :
    parseDotToCFG (textAround before line after) =
      (splitLines after).foldl parseDotLine
        (parseDotLine ((splitLines before).foldl parseDotLine CFGGraph.empty) line) := by
  rw [parseDotToCFG, splitLines_around before line after hne hl, List.foldl_append,
    List.foldl_cons]

theorem parseDotToCFG_without (before after : List Char) :
    parseDotToCFG (textWithout before after) =
      (splitLines after).foldl parseDotLine
        ((splitLines before).foldl parseDotLine CFGGraph.empty) := by
  simp only [parseDotToCFG, textWithout, String.toList]
  rw [splitLines_append, List.foldl_append]

theorem parseDotLine_unmatched (g : CFGGraph) (u : List Char)
    (hn : nodeRegex (trimmed u) = none) (he : edgeRegex (trimmed u) = none) :
    parseDotLine g u = g := by
  simp only [parseDotLine, hn, he]
  split <;> rfl

/-- C11: a line that has neither the node-statement nor the edge-statement shape is skipped
and parsing continues: for all texts `before` and `after` (any number of lines each),
`parseDotToCFG` returns the same graph for `before`, the line, `after` as for `before`,
`after`. -/
theorem unmatched_line_is_skipped (before after u : List Char) (hu : ∀ c ∈ u, c ≠ '\n')
    (hn : nodeRegex (trimmed u) = none) (he : edgeRegex (trimmed u) = none) :
    parseDotToCFG (textAround before u after) = parseDotToCFG (textWithout before after) := by
  rw [parseDotToCFG_without]
  by_cases hne : u = []
  · subst hne
    simp only [parseDotToCFG, textAround, String.toList]
    rw [splitLines_append, show ([] : List Char) ++ '\n' :: after = [] ++ '\n' :: after from rfl,
      splitLines_append, List.foldl_append, List.foldl_append]
    rfl
  · rw [parseDotToCFG_around before u after hne hu, parseDotLine_unmatched _ u hn he]

/-- Witness for C11: the line `hello world` between a node statement and an edge statement. -/
theorem unmatched_line_is_skipped_witness :
    parseDotToCFG (textAround "1 [color=red];".toList "hello world".toList
        "1 -> 2 [color=red];".toList) =
      parseDotToCFG (textWithout "1 [color=red];".toList "1 -> 2 [color=red];".toList) :=
  unmatched_line_is_skipped _ _ _ (by decide) (by decide) (by decide)

/-- C12: the quoted label of a node statement is not recorded. Parsing `5 [label="Hello"];`
gives node 5 with the default label `Block 5` and no statement, because the label pattern
asks for a backslash between `=` and the quote; only the text `5 [label=\"Hello"];` with
that backslash has its label recorded (as a statement). -/
theorem quoted_label_is_not_recorded :
    (parseDotToCFG "5 [label=\"Hello\"];").nodes = [(5, ⟨5, "Block 5", "", [], []⟩)] ∧
      labelRegex "label=\"Hello\"".toList = none ∧
      (parseDotToCFG "5 [label=\\\"Hello\"];").nodes =
        [(5, ⟨5, "Block 5", "", [], ["Hello"]⟩)] := by
  decide

/-- C15: the DOT writers do not escape double quotes of a label. For the node 1 labelled
`say "hi"` both `writeToDotFile` (`cfg_graph.cpp`) and `generateDotRepresentation` write the
label with its quotes unchanged, whereas the writer of `graph_generator_impl.cpp` escapes
the quotes of the statements it writes. -/
theorem label_quotes_are_not_escaped :
    quotedLabelGraph.getNodeLabel 1 = "say \"hi\"" ∧
      quotedLabelGraph.nodeStatement 1 = "    1 [label=\"say \"hi\"\"];\n" ∧
      quotedLabelGraph.writeToDotFile = "digraph CFG \x7b\n    1 [label=\"say \"hi\"\"];\n\x7d\n" ∧
      Visualizer.nodeStatement quotedLabelGraph false [] 1 ⟨1, "say \"hi\"", "", [], []⟩ =
        "  1 [label=\"say \"hi\"\"];\n" ∧
      Impl.nodeStatement ⟨1, "", "", [], ["say \"hi\""]⟩ =
        "    node1 [label=\"1\\nsay \\\"hi\\\"\\n\"];\n" := by
  decide

/-- C16: a node carrying both marks gets only the try-block style. For node 5 marked
try-block and throwing, `writeToDotFile` (`cfg_graph.cpp`) writes
`5 [label="Block 5" shape=box color=lightblue];` without the throwing style ` color=red`,
whereas `generateDotRepresentation` writes both styles. -/
theorem both_marks_get_one_style :
    bothMarksGraph.isNodeTryBlock 5 = true ∧ bothMarksGraph.isNodeThrowingException 5 = true ∧
      bothMarksGraph.nodeStatement 5 = "    5 [label=\"Block 5\" shape=box color=lightblue];\n" ∧
      Visualizer.nodeStatement bothMarksGraph false [] 5 ⟨5, "Block 5", "", [], []⟩ =
        "  5 [label=\"Block 5\", style=filled, fillcolor=lightblue, style=filled, fillcolor=lightcoral];\n" := by
  decide

/-! ## Statements recognised by the reader of control-flow graphs -/

theorem shapeRegex_box_first (rest : List Char) :
    shapeRegex ("shape=box".toList ++ rest) = some "box" := by
  have h1 : reSpace '=' = false := by rfl
  have h2 : reSpace 'b' = false := by rfl
  show shapeRegex ('s' :: 'h' :: 'a' :: 'p' :: 'e' :: '=' :: 'b' :: 'o' :: 'x' :: rest) = _
  simp [shapeRegex, searchFrom, keywordRegexAt, stripLit, firstWord, startsWith,
    List.dropWhile, h1, h2]

namespace CFGGraph

end CFGGraph

theorem natToChars_no_newline (k : Nat) : ∀ x ∈ natToChars k, x ≠ '\n' := by
  intro x hx hc
  have := natToChars_all_digits k x hx
  rw [hc] at this
  exact Bool.noConfusion this

theorem nodeLine_ne_nil (n : Nat) (attrs : List Char) : nodeLine n attrs ≠ [] := by
  unfold nodeLine
  cases h : natToChars n with
  | nil => exact absurd h (natToChars_ne_nil n)
  | cons d ds => simp

theorem nodeLine_no_newline (n : Nat) (attrs : List Char) (hattrs : ∀ c ∈ attrs, c ≠ '\n') :
    ∀ c ∈ nodeLine n attrs, c ≠ '\n' := by
  have hend : ∀ x ∈ [']', ';'], x ≠ '\n' := by decide
  intro x hx
  unfold nodeLine at hx
  rcases List.mem_append.1 hx with hx | hx
  · exact natToChars_no_newline n x hx
  · rcases List.mem_cons.1 hx with rfl | hx
    · decide
    · rcases List.mem_cons.1 hx with rfl | hx
      · decide
      · rcases List.mem_append.1 hx with hx | hx
        · exact hattrs x hx
        · exact hend x hx

theorem marks_addNode (g : CFGGraph) (k : Int) :
    (g.addNode k).throwingBlocks = g.throwingBlocks ∧ (g.addNode k).tryBlocks = g.tryBlocks := by
  unfold CFGGraph.addNode
  split <;> exact ⟨rfl, rfl⟩

theorem marks_addStatement (g : CFGGraph) (k : Int) (stmt : String) :
    (g.addStatement k stmt).throwingBlocks = g.throwingBlocks ∧
      (g.addStatement k stmt).tryBlocks = g.tryBlocks := by
  unfold CFGGraph.addStatement CFGGraph.addStatementToNode
  simp only
  split
  · exact ⟨rfl, rfl⟩
  · exact marks_addNode g k

theorem parseNodeStatement_marks (g : CFGGraph) (ds attrs : List Char) (n : Int)
    (h : toInt ds = some n) :
    (parseNodeStatement g ds attrs).throwingBlocks =
        (if colorRegex attrs = some "red" then setInsert intLt n g.throwingBlocks
         else g.throwingBlocks) ∧
      (parseNodeStatement g ds attrs).tryBlocks =
        (if shapeRegex attrs = some "box" then setInsert intLt n g.tryBlocks
         else g.tryBlocks) := by
  have h2 : (match labelRegex attrs with
      | some l => (g.addNode n).addStatement n ⟨l⟩
      | none => g.addNode n).throwingBlocks = g.throwingBlocks ∧
      (match labelRegex attrs with
      | some l => (g.addNode n).addStatement n ⟨l⟩
      | none => g.addNode n).tryBlocks = g.tryBlocks := by
    cases labelRegex attrs with
    | none => exact marks_addNode g n
    | some l =>
      exact ⟨(marks_addStatement _ n _).1.trans (marks_addNode g n).1,
        (marks_addStatement _ n _).2.trans (marks_addNode g n).2⟩
  simp only [parseNodeStatement, h]
  by_cases hc : colorRegex attrs = some "red" <;> by_cases hs : shapeRegex attrs = some "box" <;>
    simp only [hc, hs, if_true, if_false, CFGGraph.markNodeAsTryBlock,
      CFGGraph.markNodeAsThrowingException, h2.1, h2.2] <;> exact ⟨trivial, trivial⟩

/-- C14: the colour pattern is not tied to the attribute name. The node statement
`5 [fillcolor=white, color=red];` has the attribute `color=red`, but the pattern first
matches inside `fillcolor=white` and captures `white`, so node 5 is created and not marked as
throwing; conversely `5 [fillcolor=red];`, which has no `color` attribute, marks node 5 as
throwing. With the attribute alone, `5 [color=red];`, the node is marked. -/
theorem later_color_red_not_marked :
    (parseDotToCFG "5 [fillcolor=white, color=red];").hasNode 5 = true ∧
      colorRegex "fillcolor=white, color=red".toList = some "white" ∧
      (parseDotToCFG "5 [fillcolor=white, color=red];").isNodeThrowingException 5 = false ∧
      (parseDotToCFG "5 [fillcolor=red];").isNodeThrowingException 5 = true ∧
      (parseDotToCFG "5 [color=red];").isNodeThrowingException 5 = true := by
  decide

/-! ## The structure of the JSON document -/

section MapLemmas

variable {κ : Type} {β : Type} {lt : κ → κ → Bool}

theorem mapSet_perm (heq : ∀ a b, lt a b = false → lt b a = false → a = b) (k : κ) (v : β)
    (m : List (κ × β)) (hk : k ∉ m.map Prod.fst) : (mapSet lt k v m).Perm ((k, v) :: m) := by
  induction m with
  | nil => simp [mapSet]
  | cons p rest ih =>
    obtain ⟨k1, v1⟩ := p
    simp only [List.map_cons, List.mem_cons, not_or] at hk
    cases h1 : lt k k1
    · cases h2 : lt k1 k
      · exact absurd (heq k k1 h1 h2) hk.1
      · simp only [mapSet, h1, h2, Bool.false_eq_true, if_false, if_true]
        exact ((ih hk.2).cons (k1, v1)).trans (List.Perm.swap _ _ _)
    · simp only [mapSet, h1, if_true]
      exact List.Perm.refl _

theorem mapFind_of_mem_nodup (hirr : ∀ a, lt a a = false)
    (heq : ∀ a b, lt a b = false → lt b a = false → a = b) (k : κ) (v : β)
    (m : List (κ × β)) (hm : (k, v) ∈ m) (hnd : (m.map Prod.fst).Nodup) :
    mapFind lt k m = some v := by
  induction m with
  | nil => simp at hm
  | cons p rest ih =>
    obtain ⟨k1, v1⟩ := p
    simp only [List.map_cons, List.nodup_cons] at hnd
    rcases List.mem_cons.1 hm with he | hr
    · have hk : k = k1 := congrArg Prod.fst he
      have hv : v = v1 := congrArg Prod.snd he
      subst hk
      subst hv
      simp [mapFind, hirr]
    · have hne : k ≠ k1 := by
        rintro rfl
        exact hnd.1 (List.mem_map.2 ⟨(k, v), hr, rfl⟩)
      have hlt : (lt k k1 || lt k1 k) = true := lt_or_lt_of_ne heq hne
      simp only [mapFind, hlt, if_true]
      exact ih hr hnd.2

theorem mem_mapSet (heq : ∀ a b, lt a b = false → lt b a = false → a = b) (k : κ) (v : β)
    (m : List (κ × β)) (p : κ × β) (hp : p ∈ mapSet lt k v m) : p = (k, v) ∨ p ∈ m := by
  induction m with
  | nil =>
    simp only [mapSet, List.mem_singleton] at hp
    exact Or.inl hp
  | cons q rest ih =>
    obtain ⟨k1, v1⟩ := q
    cases h1 : lt k k1
    · cases h2 : lt k1 k
      · simp only [mapSet, h1, h2, Bool.false_eq_true, if_false, List.mem_cons] at hp
        rcases hp with hp | hp
        · left
          rw [hp, heq k k1 h1 h2]
        · exact Or.inr (List.mem_cons_of_mem _ hp)
      · simp only [mapSet, h1, h2, Bool.false_eq_true, if_false, if_true, List.mem_cons] at hp
        rcases hp with hp | hp
        · exact Or.inr (hp ▸ List.mem_cons_self _ _)
        · rcases ih hp with h | h
          · exact Or.inl h
          · exact Or.inr (List.mem_cons_of_mem _ h)
    · simp only [mapSet, h1, if_true, List.mem_cons] at hp
      rcases hp with hp | hp | hp
      · exact Or.inl hp
      · exact Or.inr (hp ▸ List.mem_cons_self _ _)
      · exact Or.inr (List.mem_cons_of_mem _ hp)

end MapLemmas

theorem Json.fields_set (j : Json) (k : String) (v : Json)
    (hj : j = Json.null ∨ ∃ fs, j = Json.obj fs) :
    (j.set k v).fields = mapSet strLt k v j.fields := by
  rcases hj with rfl | ⟨fs, rfl⟩
  · rfl
  · rfl

theorem Json.toArray_push (j : Json) (v : Json)
    (hj : j = Json.null ∨ ∃ items, j = Json.arr items) :
    (j.push v).toArray = j.toArray ++ [v] ∧ ∃ items, j.push v = Json.arr items := by
  rcases hj with rfl | ⟨items, rfl⟩
  · exact ⟨rfl, _, rfl⟩
  · exact ⟨rfl, _, rfl⟩

theorem jsonNodes_perm (g : CFGGraph) (l : List (Int × CFGNode)) (j : Json)
    (hj : j = Json.null ∨ ∃ fs, j = Json.obj fs)
    (hn : j.get "nodes" = Json.null ∨ ∃ fs, j.get "nodes" = Json.obj fs)
    (hnd : (l.map Prod.fst).Nodup)
    (hfresh : ∀ p ∈ l, to_string p.1 ∉ (j.get "nodes").fields.map Prod.fst) :
    ((l.foldl (fun j p =>
        j.set "nodes" ((j.get "nodes").set (to_string p.1) (g.nodeJson p.1 p.2))) j).get
          "nodes").fields.Perm
      ((j.get "nodes").fields ++ l.map (fun p => (to_string p.1, g.nodeJson p.1 p.2))) := by
  induction l generalizing j with
  | nil => simp
  | cons p l ih =>
    rw [List.foldl_cons]
    have hget : (j.set "nodes" ((j.get "nodes").set (to_string p.1) (g.nodeJson p.1 p.2))).get
        "nodes" = (j.get "nodes").set (to_string p.1) (g.nodeJson p.1 p.2) :=
      Json.get_set_self j _ _ hj
    simp only [List.map_cons, List.nodup_cons] at hnd
    have hperm := ih (j.set "nodes" ((j.get "nodes").set (to_string p.1) (g.nodeJson p.1 p.2)))
      (Or.inr (Json.set_isObj j _ _ hj))
      (by rw [hget]; exact Or.inr (Json.set_isObj _ _ _ hn)) hnd.2
      (by
        intro q hq
        rw [hget, Json.fields_set _ _ _ hn, mem_keys_mapSet strLt_eq_of_not_lt]
        rintro (h | h)
        · have : q.1 = p.1 := to_string_injective _ _ h
          exact hnd.1 (List.mem_map.2 ⟨q, hq, this⟩)
        · exact hfresh q (List.mem_cons_of_mem _ hq) h)
    refine hperm.trans ?_
    rw [hget, Json.fields_set _ _ _ hn, List.map_cons]
    have h1 := mapSet_perm strLt_eq_of_not_lt (to_string p.1) (g.nodeJson p.1 p.2)
      (j.get "nodes").fields (hfresh p (List.mem_cons_self _ _))
    exact (h1.append_right _).trans List.perm_middle.symm

theorem jsonNodes_other (g : CFGGraph) (k : String) (hk : k ≠ "nodes")
    (l : List (Int × CFGNode)) (j : Json) (hj : j = Json.null ∨ ∃ fs, j = Json.obj fs) :
    (l.foldl (fun j p =>
        j.set "nodes" ((j.get "nodes").set (to_string p.1) (g.nodeJson p.1 p.2))) j).get k
      = j.get k := by
  induction l generalizing j with
  | nil => rfl
  | cons p l ih =>
    rw [List.foldl_cons, ih _ (Or.inr (Json.set_isObj j _ _ hj))]
    exact Json.get_set_ne j _ _ _ hk hj

theorem jsonNodes_shape (g : CFGGraph) (l : List (Int × CFGNode)) (j : Json)
    (hj : j = Json.null ∨ ∃ fs, j = Json.obj fs) :
    (l.foldl (fun j p =>
        j.set "nodes" ((j.get "nodes").set (to_string p.1) (g.nodeJson p.1 p.2))) j)
        = Json.null ∨
      ∃ fs, (l.foldl (fun j p =>
        j.set "nodes" ((j.get "nodes").set (to_string p.1) (g.nodeJson p.1 p.2))) j)
        = Json.obj fs := by
  induction l generalizing j with
  | nil => exact hj
  | cons p l ih =>
    rw [List.foldl_cons]
    exact ih _ (Or.inr (Json.set_isObj j _ _ hj))

theorem jsonEdges_toArray (g : CFGGraph) (l : List (Int × Int)) (j : Json)
    (hj : j = Json.null ∨ ∃ fs, j = Json.obj fs)
    (he : j.get "edges" = Json.null ∨ ∃ items, j.get "edges" = Json.arr items) :
    ((l.foldl (fun j e => j.set "edges" ((j.get "edges").push (g.edgeJson e.1 e.2))) j).get
        "edges").toArray =
      (j.get "edges").toArray ++ l.map (fun e => g.edgeJson e.1 e.2) := by
  induction l generalizing j with
  | nil => simp
  | cons e l ih =>
    rw [List.foldl_cons]
    have hget : (j.set "edges" ((j.get "edges").push (g.edgeJson e.1 e.2))).get "edges" =
        (j.get "edges").push (g.edgeJson e.1 e.2) := Json.get_set_self j _ _ hj
    obtain ⟨hpush, harr⟩ := Json.toArray_push (j.get "edges") (g.edgeJson e.1 e.2) he
    rw [ih _ (Or.inr (Json.set_isObj j _ _ hj)) (by rw [hget]; exact Or.inr harr), hget, hpush,
      List.map_cons, List.append_assoc, List.singleton_append]

namespace CFGGraph

theorem mem_edgePairs_iff (g : CFGGraph) (hwf : g.WF) (s t : Int) :
    (s, t) ∈ g.edgePairs ↔ t ∈ g.successorsOf s := by
  constructor
  · intro h
    simp only [edgePairs, List.mem_flatMap, List.mem_map] at h
    obtain ⟨⟨k, n⟩, hp, t', ht, he⟩ := h
    have hk : k = s := congrArg Prod.fst he
    have ht' : t' = t := congrArg Prod.snd he
    subst hk
    subst ht'
    have hf := mapFind_of_mem_nodup intLt_irrefl intLt_eq_of_not_lt k n g.nodes hp
      (wf_nodup g hwf)
    simp only [successorsOf, hf]
    exact ht
  · exact mem_edgePairs_of_successorsOf g s t

theorem edgePairs_pairwise_aux (l : List (Int × CFGNode))
    (hk : (l.map Prod.fst).Pairwise (· < ·))
    (hs : ∀ p ∈ l, p.2.successors.Pairwise (· < ·)) :
    (l.flatMap (fun p => p.2.successors.map (fun t => (p.1, t)))).Pairwise
      (fun e f => e.1 < f.1 ∨ (e.1 = f.1 ∧ e.2 < f.2)) := by
  induction l with
  | nil => simp
  | cons p l ih =>
    simp only [List.map_cons, List.pairwise_cons] at hk
    rw [List.flatMap_cons, List.pairwise_append]
    refine ⟨?_, ih hk.2 (fun q hq => hs q (List.mem_cons_of_mem _ hq)), ?_⟩
    · rw [List.pairwise_map]
      exact (hs p (List.mem_cons_self _ _)).imp (fun h => Or.inr ⟨rfl, h⟩)
    · intro e he f hf
      simp only [List.mem_map] at he
      simp only [List.mem_flatMap, List.mem_map] at hf
      obtain ⟨t, _, rfl⟩ := he
      obtain ⟨q, hq, t', _, rfl⟩ := hf
      exact Or.inl (hk.1 q.1 (List.mem_map.2 ⟨q, hq, rfl⟩))

theorem edgePairs_pairwise (g : CFGGraph) (hwf : g.WF) (hs : g.SuccWF) :
    g.edgePairs.Pairwise (fun e f => e.1 < f.1 ∨ (e.1 = f.1 ∧ e.2 < f.2)) :=
  edgePairs_pairwise_aux g.nodes hwf hs

end CFGGraph

/-! ## The ordering invariants of the containers -/

theorem mem_setInsert_int (x y : Int) (s : List Int) (h : y ∈ setInsert intLt x s) :
    y = x ∨ y ∈ s := by
  induction s with
  | nil =>
    simp only [setInsert, List.mem_singleton] at h
    exact Or.inl h
  | cons z zs ih =>
    cases h1 : intLt x z
    · cases h2 : intLt z x
      · simp only [setInsert, h1, h2, Bool.false_eq_true, if_false] at h
        exact Or.inr h
      · simp only [setInsert, h1, h2, Bool.false_eq_true, if_false, if_true,
          List.mem_cons] at h
        rcases h with h | h
        · exact Or.inr (h ▸ List.mem_cons_self _ _)
        · rcases ih h with h | h
          · exact Or.inl h
          · exact Or.inr (List.mem_cons_of_mem _ h)
    · simp only [setInsert, h1, if_true, List.mem_cons] at h
      rcases h with h | h | h
      · exact Or.inl h
      · exact Or.inr (h ▸ List.mem_cons_self _ _)
      · exact Or.inr (List.mem_cons_of_mem _ h)

theorem setInsert_pairwise (x : Int) (s : List Int) (h : s.Pairwise (· < ·)) :
    (setInsert intLt x s).Pairwise (· < ·) := by
  induction s with
  | nil => simp [setInsert]
  | cons z zs ih =>
    simp only [List.pairwise_cons] at h
    cases h1 : intLt x z
    · cases h2 : intLt z x
      · simp only [setInsert, h1, h2, Bool.false_eq_true, if_false, List.pairwise_cons]
        exact h
      · have hk : z < x := by simpa [intLt] using h2
        simp only [setInsert, h1, h2, Bool.false_eq_true, if_false, if_true,
          List.pairwise_cons]
        refine ⟨?_, ih h.2⟩
        intro a ha
        rcases mem_setInsert_int x a zs ha with rfl | ha
        · exact hk
        · exact h.1 a ha
    · have hk : x < z := by simpa [intLt] using h1
      simp only [setInsert, h1, if_true, List.pairwise_cons, List.mem_cons]
      refine ⟨?_, h.1, h.2⟩
      rintro a (rfl | ha)
      · exact hk
      · exact lt_trans hk (h.1 a ha)

namespace CFGGraph

theorem ordered_nodes_set (g : CFGGraph) (k : Int) (v : CFGNode)
    (hv : v.successors.Pairwise (· < ·)) (h : g.WF ∧ g.SuccWF) :
    WF { g with nodes := mapSet intLt k v g.nodes } ∧
      SuccWF { g with nodes := mapSet intLt k v g.nodes } := by
  refine ⟨keys_mapSet_pairwise k v g.nodes h.1, ?_⟩
  intro p hp
  rcases mem_mapSet intLt_eq_of_not_lt k v g.nodes p hp with rfl | hp
  · exact hv
  · exact h.2 p hp

theorem ordered_update (g : CFGGraph) (k : Int) (f : CFGNode → CFGNode)
    (hf : ∀ v : CFGNode, v.successors.Pairwise (· < ·) → (f v).successors.Pairwise (· < ·))
    (h : g.WF ∧ g.SuccWF) :
    WF { g with nodes := mapUpdate intLt CFGNode.default k f g.nodes } ∧
      SuccWF { g with nodes := mapUpdate intLt CFGNode.default k f g.nodes } := by
  unfold mapUpdate
  apply ordered_nodes_set g k _ _ h
  apply hf
  cases hfind : mapFind intLt k g.nodes with
  | none => exact List.Pairwise.nil
  | some n => exact h.2 (k, n) (mapFind_mem intLt_eq_of_not_lt k g.nodes n hfind)

theorem ordered_addNode (g : CFGGraph) (k : Int) (h : g.WF ∧ g.SuccWF) :
    (g.addNode k).WF ∧ (g.addNode k).SuccWF := by
  unfold addNode
  split
  · exact h
  · exact ordered_nodes_set g k _ List.Pairwise.nil h

theorem ordered_addNodeWithLabel (g : CFGGraph) (k : Int) (label : String)
    (h : g.WF ∧ g.SuccWF) :
    (g.addNodeWithLabel k label).WF ∧ (g.addNodeWithLabel k label).SuccWF := by
  unfold addNodeWithLabel
  split
  · exact ordered_update g k _ (fun _ hv => hv) h
  · exact ordered_nodes_set g k _ List.Pairwise.nil h

theorem ordered_addStatementToNode (g : CFGGraph) (k : Int) (stmt : String)
    (h : g.WF ∧ g.SuccWF) :
    (g.addStatementToNode k stmt).WF ∧ (g.addStatementToNode k stmt).SuccWF := by
  unfold addStatementToNode
  refine ordered_update (if g.hasNode k = true then g else g.addNode k) k _
    (fun _ hv => hv) ?_
  split
  · exact h
  · exact ordered_addNode g k h

theorem ordered_addEdge (g : CFGGraph) (a b : Int) (h : g.WF ∧ g.SuccWF) :
    (g.addEdge a b).WF ∧ (g.addEdge a b).SuccWF := by
  unfold addEdge
  refine ordered_update (if g.hasNode a = true then g else g.addNode a) a _
    (fun v hv => setInsert_pairwise b v.successors hv) ?_
  split
  · exact h
  · exact ordered_addNode g a h

theorem ordered_apply (g : CFGGraph) (op : Op) (h : g.WF ∧ g.SuccWF) :
    (Op.apply g op).WF ∧ (Op.apply g op).SuccWF := by
  cases op with
  | addNode id => exact ordered_addNode g id h
  | addNodeWithLabel id l => exact ordered_addNodeWithLabel g id l h
  | addStatement id s => exact ordered_addStatementToNode g id s h
  | addEdge a b => exact ordered_addEdge g a b h
  | addExceptionEdge a b => exact h
  | markNodeAsTryBlock id => exact h
  | markNodeAsThrowingException id => exact h

theorem ordered_foldl (ops : List Op) (g : CFGGraph) (h : g.WF ∧ g.SuccWF) :
    (ops.foldl Op.apply g).WF ∧ (ops.foldl Op.apply g).SuccWF := by
  induction ops generalizing g with
  | nil => exact h
  | cons op ops ih => exact ih _ (ordered_apply g op h)

/-- Every graph built by the public operations keeps its node map and its successor sets
in ascending order. -/
theorem ordered_run (ops : List Op) : (run ops).WF ∧ (run ops).SuccWF :=
  ordered_foldl ops CFGGraph.empty
    ⟨List.Pairwise.nil, fun _ hp => absurd hp (List.not_mem_nil _)⟩

end CFGGraph

theorem writeToJsonFile_nodes (g : CFGGraph) (astJson functionCallJson : Json)
    (hwf : g.WF) :
    ((g.writeToJsonFile astJson functionCallJson).get "nodes").fields.Perm
      (g.nodes.map (fun p => (to_string p.1, g.nodeJson p.1 p.2))) := by
  have hshape : g.jsonAfterNodes = Json.null ∨ ∃ fs, g.jsonAfterNodes = Json.obj fs :=
    jsonNodes_shape g g.nodes Json.null (Or.inl rfl)
  obtain ⟨he1, he2⟩ := jsonEdges_fold g g.edgePairs g.jsonAfterNodes hshape
  have he1' : g.jsonAfterEdges = Json.null ∨ ∃ fs, g.jsonAfterEdges = Json.obj fs := he1
  have he2' : g.jsonAfterEdges.get "nodes" = g.jsonAfterNodes.get "nodes" := he2
  have hp := jsonNodes_perm g g.nodes Json.null (Or.inl rfl) (Or.inl rfl)
    (CFGGraph.wf_nodup g hwf) (fun p _ h => by simp [Json.get, Json.fields, mapFind] at h)
  have hp' : (g.jsonAfterNodes.get "nodes").fields.Perm
      ((Json.null.get "nodes").fields ++
        g.nodes.map (fun p => (to_string p.1, g.nodeJson p.1 p.2))) := hp
  unfold CFGGraph.writeToJsonFile
  rw [Json.get_set_ne _ _ _ _ (by decide) (Or.inr (Json.set_isObj _ _ _ he1')),
    Json.get_set_ne _ _ _ _ (by decide) he1', he2']
  exact hp'

theorem writeToJsonFile_edges (g : CFGGraph) (astJson functionCallJson : Json) :
    ((g.writeToJsonFile astJson functionCallJson).get "edges").toArray =
      g.edgePairs.map (fun e => g.edgeJson e.1 e.2) := by
  have hshape : g.jsonAfterNodes = Json.null ∨ ∃ fs, g.jsonAfterNodes = Json.obj fs :=
    jsonNodes_shape g g.nodes Json.null (Or.inl rfl)
  have hnone : g.jsonAfterNodes.get "edges" = Json.null :=
    jsonNodes_other g "edges" (by decide) g.nodes Json.null (Or.inl rfl)
  obtain ⟨he1, _⟩ := jsonEdges_fold g g.edgePairs g.jsonAfterNodes hshape
  have he1' : g.jsonAfterEdges = Json.null ∨ ∃ fs, g.jsonAfterEdges = Json.obj fs := he1
  have ha := jsonEdges_toArray g g.edgePairs g.jsonAfterNodes hshape (Or.inl hnone)
  have ha' : (g.jsonAfterEdges.get "edges").toArray =
      (g.jsonAfterNodes.get "edges").toArray ++ g.edgePairs.map (fun e => g.edgeJson e.1 e.2) :=
    ha
  unfold CFGGraph.writeToJsonFile
  rw [Json.get_set_ne _ _ _ _ (by decide) (Or.inr (Json.set_isObj _ _ _ he1')),
    Json.get_set_ne _ _ _ _ (by decide) he1', ha', hnone]
  rfl

theorem writeToJsonFile_extra (g : CFGGraph) (astJson functionCallJson : Json) :
    (g.writeToJsonFile astJson functionCallJson).get "ast" = astJson ∧
      (g.writeToJsonFile astJson functionCallJson).get "functionCalls" = functionCallJson := by
  have hshape : g.jsonAfterNodes = Json.null ∨ ∃ fs, g.jsonAfterNodes = Json.obj fs :=
    jsonNodes_shape g g.nodes Json.null (Or.inl rfl)
  obtain ⟨he1, _⟩ := jsonEdges_fold g g.edgePairs g.jsonAfterNodes hshape
  have he1' : g.jsonAfterEdges = Json.null ∨ ∃ fs, g.jsonAfterEdges = Json.obj fs := he1
  unfold CFGGraph.writeToJsonFile
  constructor
  · rw [Json.get_set_ne _ _ _ _ (by decide) (Or.inr (Json.set_isObj _ _ _ he1'))]
    exact Json.get_set_self _ _ _ he1'
  · exact Json.get_set_self _ _ _ (Or.inr (Json.set_isObj _ _ _ he1'))

theorem nodeJson_fields (g : CFGGraph) (id : Int) (node : CFGNode) :
    (g.nodeJson id node).get "id" = Json.num id ∧
      (g.nodeJson id node).get "label" = Json.str (g.getNodeLabel id) ∧
      (g.nodeJson id node).get "functionName" = Json.str node.functionName ∧
      (g.nodeJson id node).get "statements" = Json.arr (node.statements.map Json.str) ∧
      (g.nodeJson id node).get "isTryBlock" = Json.bool (g.isNodeTryBlock id) ∧
      (g.nodeJson id node).get "isThrowingException" =
        Json.bool (g.isNodeThrowingException id) :=
  ⟨rfl, rfl, rfl, rfl, rfl, rfl⟩

theorem edgeJson_fields (g : CFGGraph) (s t : Int) :
    (g.edgeJson s t).get "source" = Json.num s ∧
      (g.edgeJson s t).get "target" = Json.num t ∧
      (g.edgeJson s t).get "isExceptionEdge" = Json.bool (g.isExceptionEdge s t) :=
  ⟨rfl, rfl, rfl⟩

/-- C17: for a graph whose node map and successor sets are ordered as `std::map` and
`std::set` keep them, the document built by `writeToJsonFile` has under `nodes` exactly one
member per node, keyed by the decimal id, which carries the id, the label that
`getNodeLabel` returns, the function name, the statements in order and the two flags as the
queries `isNodeTryBlock` and `isNodeThrowingException` report them; the array under `edges`
holds one object per successor pair, in ascending (source, target) order, with the flag that
`isExceptionEdge` reports; and `ast` and `functionCalls` are the two values passed in. -/
theorem json_document_structure (g : CFGGraph) (astJson functionCallJson : Json)
    (hwf : g.WF) (hs : g.SuccWF) :
    ((g.writeToJsonFile astJson functionCallJson).get "nodes").fields.Perm
        (g.nodes.map (fun p => (to_string p.1, g.nodeJson p.1 p.2))) ∧
      ((g.writeToJsonFile astJson functionCallJson).get "nodes").fields.length
        = g.getNodeCount ∧
      (((g.writeToJsonFile astJson functionCallJson).get "nodes").fields.map Prod.fst).Nodup ∧
      (∀ id node, (id, node) ∈ g.nodes →
        ((g.writeToJsonFile astJson functionCallJson).get "nodes").get (to_string id)
            = g.nodeJson id node ∧
          (g.nodeJson id node).get "id" = Json.num id ∧
          (g.nodeJson id node).get "label" = Json.str (g.getNodeLabel id) ∧
          (g.nodeJson id node).get "functionName" = Json.str node.functionName ∧
          (g.nodeJson id node).get "statements" = Json.arr (node.statements.map Json.str) ∧
          (g.nodeJson id node).get "isTryBlock" = Json.bool (g.isNodeTryBlock id) ∧
          (g.nodeJson id node).get "isThrowingException" =
            Json.bool (g.isNodeThrowingException id)) ∧
      ((g.writeToJsonFile astJson functionCallJson).get "edges").toArray =
        g.edgePairs.map (fun e => g.edgeJson e.1 e.2) ∧
      (∀ s t, (s, t) ∈ g.edgePairs ↔ t ∈ g.successorsOf s) ∧
      g.edgePairs.Pairwise (fun e f => e.1 < f.1 ∨ (e.1 = f.1 ∧ e.2 < f.2)) ∧
      (∀ s t, (g.edgeJson s t).get "source" = Json.num s ∧
        (g.edgeJson s t).get "target" = Json.num t ∧
        (g.edgeJson s t).get "isExceptionEdge" = Json.bool (g.isExceptionEdge s t)) ∧
      (g.writeToJsonFile astJson functionCallJson).get "ast" = astJson ∧
      (g.writeToJsonFile astJson functionCallJson).get "functionCalls" = functionCallJson := by
  have hperm := writeToJsonFile_nodes g astJson functionCallJson hwf
  have hkeys : (((g.writeToJsonFile astJson functionCallJson).get "nodes").fields.map
      Prod.fst).Nodup := by
    refine ((hperm.map Prod.fst).nodup_iff).2 ?_
    rw [List.map_map]
    have hnd : (g.nodes.map Prod.fst).Nodup := CFGGraph.wf_nodup g hwf
    have : (List.map to_string (g.nodes.map Prod.fst)).Nodup :=
      List.Nodup.map (fun a b h => to_string_injective a b h) hnd
    rw [List.map_map] at this
    exact this
  refine ⟨hperm, ?_, hkeys, ?_, writeToJsonFile_edges g astJson functionCallJson,
    CFGGraph.mem_edgePairs_iff g hwf, CFGGraph.edgePairs_pairwise g hwf hs,
    edgeJson_fields g, writeToJsonFile_extra g astJson functionCallJson⟩
  · rw [hperm.length_eq, List.length_map]
    rfl
  · intro id node hmem
    refine ⟨?_, nodeJson_fields g id node⟩
    have hm : (to_string id, g.nodeJson id node) ∈
        ((g.writeToJsonFile astJson functionCallJson).get "nodes").fields :=
      hperm.symm.subset (List.mem_map.2 ⟨(id, node), hmem, rfl⟩)
    show (mapFind strLt (to_string id)
      ((g.writeToJsonFile astJson functionCallJson).get "nodes").fields).getD Json.null = _
    rw [mapFind_of_mem_nodup strLt_irrefl strLt_eq_of_not_lt _ _ _ hm hkeys]
    rfl

/-- Witness for C17: the document written for the triangle graph. -/
theorem json_document_structure_witness :
    triangleGraph.WF ∧ triangleGraph.SuccWF ∧
      ((triangleGraph.writeToJsonFile (Json.str "a") (Json.str "f")).get "nodes").fields.length
        = 3 ∧
      ((triangleGraph.writeToJsonFile (Json.str "a") (Json.str "f")).get "edges").toArray =
        triangleGraph.edgePairs.map (fun e => triangleGraph.edgeJson e.1 e.2) ∧
      (triangleGraph.writeToJsonFile (Json.str "a") (Json.str "f")).get "ast" = Json.str "a" :=
  have hwf : triangleGraph.WF := (CFGGraph.ordered_run _).1
  have hs : triangleGraph.SuccWF := (CFGGraph.ordered_run _).2
  have h := json_document_structure triangleGraph (Json.str "a") (Json.str "f") hwf hs
  ⟨hwf, hs, h.2.1, h.2.2.2.2.1, h.2.2.2.2.2.2.2.2.1⟩

/-! ## The hierarchical layouts -/

theorem slotX_lt (a b count : Int) (h : a < b) : slotX a count < slotX b count := by
  have hq : (a : ℚ) < (b : ℚ) := by exact_mod_cast h
  unfold slotX
  linarith

theorem slotX_le (a b count : Int) (h : a ≤ b) : slotX a count ≤ slotX b count := by
  have hq : (a : ℚ) ≤ (b : ℚ) := by exact_mod_cast h
  unfold slotX
  linarith

theorem levelY_injective (a b : Int) (h : levelY a = levelY b) : a = b := by
  unfold levelY at h
  have h2 : a * 100 = b * 100 := by exact_mod_cast h
  omega

namespace CustomGraphView

theorem placeNodes_fst (nodeLevels : List (String × Int)) (counts : List (Int × Int))
    (keys : List String) (levelPositions : List (Int × Int)) :
    (placeNodes nodeLevels counts levelPositions keys).map Prod.fst = keys := by
  induction keys generalizing levelPositions with
  | nil => rfl
  | cons id rest ih => simp [placeNodes, ih]

theorem placeNodes_y (nodeLevels : List (String × Int)) (counts : List (Int × Int))
    (keys : List String) (levelPositions : List (Int × Int)) :
    ∀ p ∈ placeNodes nodeLevels counts levelPositions keys,
      p.2.2 = levelY (levelOf nodeLevels p.1) := by
  induction keys generalizing levelPositions with
  | nil => simp [placeNodes]
  | cons id rest ih =>
    intro p hp
    simp only [placeNodes, List.mem_cons] at hp
    rcases hp with rfl | hp
    · rfl
    · exact ih _ p hp

theorem placeNodes_lower (nodeLevels : List (String × Int)) (counts : List (Int × Int))
    (keys : List String) (levelPositions : List (Int × Int)) :
    ∀ p ∈ placeNodes nodeLevels counts levelPositions keys,
      slotX ((mapFind intLt (levelOf nodeLevels p.1) levelPositions).getD 0)
        ((mapFind intLt (levelOf nodeLevels p.1) counts).getD 0) ≤ p.2.1 := by
  induction keys generalizing levelPositions with
  | nil => simp [placeNodes]
  | cons id rest ih =>
    intro p hp
    simp only [placeNodes, List.mem_cons] at hp
    rcases hp with rfl | hp
    · exact le_refl _
    · refine le_trans (slotX_le _ _ _ ?_) (ih _ p hp)
      by_cases hl : levelOf nodeLevels p.1 = levelOf nodeLevels id
      · rw [hl, mapFind_mapSet_self intLt_irrefl]
        simp
      · rw [mapFind_mapSet_ne intLt_eq_of_not_lt hl]

theorem placeNodes_pairwise (nodeLevels : List (String × Int)) (counts : List (Int × Int))
    (keys : List String) (levelPositions : List (Int × Int)) :
    (placeNodes nodeLevels counts levelPositions keys).Pairwise
      (fun p q => levelOf nodeLevels p.1 = levelOf nodeLevels q.1 → p.2.1 < q.2.1) := by
  induction keys generalizing levelPositions with
  | nil => simp [placeNodes]
  | cons id rest ih =>
    simp only [placeNodes, List.pairwise_cons]
    refine ⟨?_, ih _⟩
    intro q hq hl
    have hlow := placeNodes_lower nodeLevels counts rest _ q hq
    rw [← hl, mapFind_mapSet_self intLt_irrefl] at hlow
    exact lt_of_lt_of_le (slotX_lt _ _ _ (by simp)) hlow

end CustomGraphView

namespace CFGVisualizerWindow

theorem position_ge (func : String) (depth : Int) (l : List (String × Int)) (i : Int) :
    i ≤ position func depth i l := by
  induction l generalizing i with
  | nil => exact le_refl _
  | cons e rest ih =>
    obtain ⟨o, od⟩ := e
    unfold position
    split
    · split
      · exact le_refl _
      · exact le_trans (by omega) (ih (i + 1))
    · exact ih i

theorem position_ne (f g : String) (d : Int) (hfg : f ≠ g) (l : List (String × Int)) (i : Int)
    (hf : (f, d) ∈ l) (hg : (g, d) ∈ l) : position f d i l ≠ position g d i l := by
  induction l generalizing i with
  | nil => simp at hf
  | cons e rest ih =>
    obtain ⟨o, od⟩ := e
    by_cases hd : od = d
    · by_cases hof : o = f
      · have hog : o ≠ g := fun h => hfg (hof.symm.trans h)
        have hge := position_ge g d rest (i + 1)
        subst hof
        simp only [position, hd, hog, if_true, if_false]
        omega
      · by_cases hog : o = g
        · have hge := position_ge f d rest (i + 1)
          subst hog
          simp only [position, hd, hof, if_true, if_false]
          omega
        · simp only [position, hd, hof, hog, if_true, if_false]
          have hf2 : (f, d) ∈ rest := by
            rcases List.mem_cons.1 hf with h | h
            · exact absurd (congrArg Prod.fst h).symm hof
            · exact h
          have hg2 : (g, d) ∈ rest := by
            rcases List.mem_cons.1 hg with h | h
            · exact absurd (congrArg Prod.fst h).symm hog
            · exact h
          exact ih (i + 1) hf2 hg2
    · simp only [position, hd, if_false]
      have hf2 : (f, d) ∈ rest := by
        rcases List.mem_cons.1 hf with h | h
        · exact absurd (congrArg Prod.snd h).symm hd
        · exact h
      have hg2 : (g, d) ∈ rest := by
        rcases List.mem_cons.1 hg with h | h
        · exact absurd (congrArg Prod.snd h).symm hd
        · exact h
      exact ih i hf2 hg2

end CFGVisualizerWindow

theorem slotX_injective (a b count : Int) (h : slotX a count = slotX b count) : a = b := by
  rcases lt_trichotomy a b with hlt | heq | hgt
  · exact absurd h (ne_of_lt (slotX_lt a b count hlt))
  · exact heq
  · exact absurd h.symm (ne_of_lt (slotX_lt b a count hgt))

/-- The positioning loops of both hierarchical layouts, whatever levels the level
computation assigned: two distinct nodes of the same level are placed at different
x-coordinates. For the graph view
(`keys` the node ids, `nodeLevels` the level map) every node id gets one position, its
y-coordinate is 100 times its level, and within a level the x-coordinates grow strictly in
iteration order; for the dependency view (`depths` the depth map) every entry gets one
position with y-coordinate 100 times its depth. The slot index `p` of a level with `c`
nodes is mapped to `x = (p - (c - 1) / 2) * 120`, which is injective in `p`. -/
theorem positioning_loops_give_distinct_x (keys : List String)
    (nodeLevels depths : List (String × Int)) :
    (nodeLevels ≠ [] →
        (CustomGraphView.applyHierarchicalLayout keys nodeLevels).map Prod.fst = keys) ∧
      (∀ p ∈ CustomGraphView.applyHierarchicalLayout keys nodeLevels,
        p.2.2 = levelY (CustomGraphView.levelOf nodeLevels p.1)) ∧
      (∀ p ∈ CustomGraphView.applyHierarchicalLayout keys nodeLevels,
        ∀ q ∈ CustomGraphView.applyHierarchicalLayout keys nodeLevels,
          p.1 ≠ q.1 →
          CustomGraphView.levelOf nodeLevels p.1 = CustomGraphView.levelOf nodeLevels q.1 →
          p.2.1 ≠ q.2.1) ∧
      (CFGVisualizerWindow.applyHierarchicalLayout depths).map Prod.fst
        = depths.map Prod.fst ∧
      (∀ f g d, f ≠ g → (f, d) ∈ depths → (g, d) ∈ depths →
        ∃ xf xg, (f, xf, levelY d) ∈ CFGVisualizerWindow.applyHierarchicalLayout depths ∧
          (g, xg, levelY d) ∈ CFGVisualizerWindow.applyHierarchicalLayout depths ∧
          xf ≠ xg) ∧
      (∀ p ∈ CFGVisualizerWindow.applyHierarchicalLayout depths,
        ∀ q ∈ CFGVisualizerWindow.applyHierarchicalLayout depths,
          p.1 ≠ q.1 → p.2.2 = q.2.2 → p.2.1 ≠ q.2.1) ∧
      (∀ a b count, slotX a count = slotX b count → a = b) := by
  refine ⟨?_, ?_, ?_, ?_, ?_, ?_, slotX_injective⟩
  · intro hne
    cases nodeLevels with
    | nil => exact absurd rfl hne
    | cons e es =>
      simp only [CustomGraphView.applyHierarchicalLayout, List.isEmpty_cons, Bool.false_eq_true,
        if_false]
      exact CustomGraphView.placeNodes_fst _ _ _ _
  · intro p hp
    unfold CustomGraphView.applyHierarchicalLayout at hp
    split at hp
    · simp at hp
    · exact CustomGraphView.placeNodes_y _ _ _ _ p hp
  · intro p hp q hq hne hl
    unfold CustomGraphView.applyHierarchicalLayout at hp hq
    split at hp
    · simp at hp
    · rename_i hemp
      rw [if_neg hemp] at hq
      have hpw := CustomGraphView.placeNodes_pairwise nodeLevels
        (CustomGraphView.levelCounts nodeLevels) keys []
      have hsymm : Symmetric (fun p q : String × ℚ × ℚ =>
          CustomGraphView.levelOf nodeLevels p.1 = CustomGraphView.levelOf nodeLevels q.1 →
            p.2.1 ≠ q.2.1) := fun a b hab h => (hab h.symm).symm
      have hpw2 : List.Pairwise (fun p q : String × ℚ × ℚ =>
          CustomGraphView.levelOf nodeLevels p.1 = CustomGraphView.levelOf nodeLevels q.1 →
            p.2.1 ≠ q.2.1)
          (CustomGraphView.placeNodes nodeLevels (CustomGraphView.levelCounts nodeLevels) []
            keys) :=
        hpw.imp (fun hab h => ne_of_lt (hab h))
      exact hpw2.forall hsymm hp hq (fun h => hne (congrArg Prod.fst h)) hl
  · simp [CFGVisualizerWindow.applyHierarchicalLayout, Function.comp_def]
  · intro f g d hfg hf hg
    refine ⟨_, _, List.mem_map.2 ⟨(f, d), hf, rfl⟩, List.mem_map.2 ⟨(g, d), hg, rfl⟩, ?_⟩
    intro h
    exact CFGVisualizerWindow.position_ne f g d hfg depths 0 hf hg (slotX_injective _ _ _ h)
  · intro p hp q hq hne hy
    simp only [CFGVisualizerWindow.applyHierarchicalLayout, List.mem_map] at hp hq
    obtain ⟨⟨f, df⟩, hf, rfl⟩ := hp
    obtain ⟨⟨g, dg⟩, hg, rfl⟩ := hq
    have hd : df = dg := levelY_injective _ _ hy
    subst hd
    intro h
    exact CFGVisualizerWindow.position_ne f g df hne depths 0 hf hg (slotX_injective _ _ _ h)

theorem applyHierarchicalLayout_example :
    CustomGraphView.applyHierarchicalLayout ["a", "b", "c"] [("a", 0), ("b", 1), ("c", 1)]
        = [("a", 0, 0), ("b", -60, 100), ("c", 60, 100)] ∧
      CFGVisualizerWindow.applyHierarchicalLayout [("main", 3), ("f", 2), ("g", 2), ("h", 1)]
        = [("main", 0, 300), ("f", -60, 200), ("g", 60, 200), ("h", 0, 100)] := by
  have h1 : ("b" == "a") = false := by decide
  have h2 : ("c" == "a") = false := by decide
  have h3 : ("c" == "b") = false := by decide
  have h4 : ¬ ("main" = "f") := by decide
  have h5 : ¬ ("main" = "g") := by decide
  have h6 : ¬ ("f" = "g") := by decide
  have h7 : ¬ ("main" = "h") := by decide
  constructor
  · norm_num [CustomGraphView.applyHierarchicalLayout, CustomGraphView.placeNodes,
      CustomGraphView.levelOf, CustomGraphView.levelCounts, List.lookup, mapUpdate, mapFind,
      mapSet, intLt, slotX, levelY, h1, h2, h3]
  · norm_num [CFGVisualizerWindow.applyHierarchicalLayout, CFGVisualizerWindow.position,
      CFGVisualizerWindow.depthCounts, mapUpdate, mapFind, mapSet, intLt, slotX, levelY,
      h4, h5, h6, h7]

/-! ## The reader of the graph view on edge statements -/

/-- C27: an edge statement with an attribute list is not handled as an edge. For the line
`1 -> 2 [color=red];` the unanchored node pattern matches the part `2 [color=red];`, so
`parseDotFormat` calls `createNodeFromDot(2, "2", ...)` and never reaches the edge branch;
only an edge statement without attribute list, `1 -> 2;`, leads to `createEdgeFromDot(1, 2,
...)`. The edge statement that `generateDotRepresentation` writes for an exception edge
creates the node 4 labelled `exception`. -/
theorem attributed_edge_line_creates_node :
    (viewParseLines "1 -> 2 [color=red];").calls =
        [SceneCall.createNodeFromDot 2 "2"
          [("color", "red"), ("fillcolor", "lightgray"), ("shape", "ellipse"),
            ("style", "filled")]] ∧
      (viewParseLines "1 -> 2;").calls =
        [SceneCall.createEdgeFromDot 1 2 [("color", "black")]] ∧
      (viewParseLines "  3 -> 4 [color=red, style=dashed, label=\"exception\"];").calls =
        [SceneCall.createNodeFromDot 4 "exception"
          [("color", "red"), ("fillcolor", "lightgray"), ("label", "exception"),
            ("shape", "ellipse"), ("style", "dashed")]] := by
  decide

/-! ## The writer `Parser::generateDOT` -/

set_option maxRecDepth 20000 in
/-- C29: the attribute list of an edge statement is opened and never closed. For a function
with the blocks 0, 2, 1 and the edges 2 -> 1 (`Unconditional`) and 3 -> 2 (`True`),
`generateDOT` writes the edge statements `2 -> 1 [label="Unconditional";` and
`3 -> 2 [label="True", color=blue;`, which contain `[` and no `]`, whereas each node
statement ends in `];`. -/
theorem edge_attribute_list_is_not_closed :
    Parser.generateDOT
        ⟨"f", [⟨0, "ENTRY", 0, ""⟩, ⟨2, "x = 1;\n", 3, "x = 1;"⟩, ⟨1, "EXIT", 0, ""⟩],
          [⟨2, 1, "Unconditional"⟩, ⟨3, 2, "True"⟩]⟩ =
      "digraph \"f\" \x7b\n  node [shape=rectangle, fontname=\"Courier\", fontsize=10];\n  edge [fontsize=8];\n\n  0 [label=\"ENTRY\", shape=diamond, style=filled, fillcolor=palegreen];\n  2 [label=\"x = 1;\\n\", style=filled, fillcolor=lemonchiffon];\n  1 [label=\"EXIT\", shape=diamond, style=filled, fillcolor=palegreen];\n  2 -> 1 [label=\"Unconditional\";\n  3 -> 2 [label=\"True\", color=blue;\n\x7d\n" ∧
      Parser.edgeStatement ⟨2, 1, Parser.edgeLabel 1 0⟩ = "  2 -> 1 [label=\"Unconditional\";\n" ∧
      '[' ∈ (Parser.edgeStatement ⟨2, 1, "Unconditional"⟩).data ∧
      ']' ∉ (Parser.edgeStatement ⟨2, 1, "Unconditional"⟩).data := by
  decide

/-! ## The dependency visitor -/

theorem umapFind_umapSet_self {κ β : Type} [DecidableEq κ] (k : κ) (v : β)
    (m : List (κ × β)) : umapFind k (umapSet k v m) = some v := by
  induction m with
  | nil => simp [umapSet, umapFind]
  | cons p rest ih =>
    obtain ⟨k1, v1⟩ := p
    by_cases h : k1 = k
    · simp [umapSet, umapFind, h]
    · simp [umapSet, umapFind, h, ih]

theorem umapFind_umapSet_ne {κ β : Type} [DecidableEq κ] (k k2 : κ) (v : β)
    (m : List (κ × β)) (hne : k2 ≠ k) : umapFind k2 (umapSet k v m) = umapFind k2 m := by
  induction m with
  | nil =>
    have h : ¬ k = k2 := fun h => hne h.symm
    simp [umapSet, umapFind, h]
  | cons p rest ih =>
    obtain ⟨k1, v1⟩ := p
    by_cases h : k1 = k
    · have h2 : ¬ k = k2 := fun h => hne h.symm
      subst h
      simp [umapSet, umapFind, h2]
    · by_cases h3 : k1 = k2
      · subst h3
        simp [umapSet, umapFind, h]
      · simp [umapSet, umapFind, h, h3, ih]

namespace CFGVisitor

theorem recorded_visit (st : VisitorState) (e : VisitorEvent) (f g : String)
    (hg : g ∈ calleesOf st.FunctionDependencies f)
    (he : e ≠ VisitorEvent.functionDecl true true f) :
    g ∈ calleesOf (visit st e).FunctionDependencies f := by
  cases e with
  | functionDecl hasBody isInMainFile name =>
    cases hasBody
    · exact hg
    · cases isInMainFile
      · exact hg
      · have hne : f ≠ name := by
          rintro rfl
          exact he rfl
        simp only [visit, VisitFunctionDecl, Bool.not_true, Bool.false_eq_true, if_false,
          calleesOf]
        rw [umapFind_umapSet_ne _ _ _ _ hne]
        exact hg
  | callExpr callee =>
    cases callee with
    | none =>
      simp only [visit, VisitCallExpr]
      split
      · exact hg
      · exact hg
    | some c =>
      simp only [visit, VisitCallExpr]
      split
      · by_cases hcf : f = st.CurrentFunction
        · simp only [calleesOf]
          rw [hcf, umapFind_umapSet_self]
          simp only [Option.getD_some]
          apply mem_setInsert_of_mem
          rw [← hcf]
          exact hg
        · simp only [calleesOf]
          rw [umapFind_umapSet_ne _ _ _ _ hcf]
          exact hg
      · exact hg

theorem recorded_foldl (post : List VisitorEvent) (st : VisitorState) (f g : String)
    (hg : g ∈ calleesOf st.FunctionDependencies f)
    (hpost : ∀ e ∈ post, e ≠ VisitorEvent.functionDecl true true f) :
    g ∈ calleesOf (post.foldl visit st).FunctionDependencies f := by
  induction post generalizing st with
  | nil => exact hg
  | cons e rest ih =>
    exact ih _ (recorded_visit st e f g hg (hpost e (List.mem_cons_self _ _)))
      (fun e2 h2 => hpost e2 (List.mem_cons_of_mem _ h2))

end CFGVisitor

/-- C25, as stated, fails: a later definition with the same qualified name empties the
callee set. After the events definition of `f`, call of `g`, definition of `f` (two
overloads of `f`, say), the callee set of `f` is empty although `g` was called while `f` was
the current function. -/
theorem redefinition_drops_recorded_calls :
    (CFGVisitor.traverse
        [.functionDecl true true "f", .callExpr (some "g")]).CurrentFunction = "f" ∧
      CFGVisitor.calleesOf
        (CFGVisitor.traverse
          [.functionDecl true true "f", .callExpr (some "g")]).FunctionDependencies "f"
        = ["g"] ∧
      CFGVisitor.calleesOf
        (CFGVisitor.traverse
          [.functionDecl true true "f", .callExpr (some "g"),
            .functionDecl true true "f"]).FunctionDependencies "f" = [] := by
  decide

/-- C25, amended: a direct call of `g` that is visited while `f` is the current function
(`CurrentFunction`, not empty) is in the callee set of `f` in the final dependency map,
provided no definition named `f` (a declaration with a body, in the main file) is visited
after the call. -/
theorem call_recorded_until_redefinition (pre post : List CFGVisitor.VisitorEvent)
    (f g : String) (hcur : (CFGVisitor.traverse pre).CurrentFunction = f) (hf : f ≠ "")
    (hpost : ∀ e ∈ post, e ≠ CFGVisitor.VisitorEvent.functionDecl true true f) :
    g ∈ CFGVisitor.calleesOf
      (CFGVisitor.traverse (pre ++ .callExpr (some g) :: post)).FunctionDependencies f := by
  unfold CFGVisitor.traverse
  rw [List.foldl_append, List.foldl_cons]
  apply CFGVisitor.recorded_foldl _ _ _ _ _ hpost
  have hcur2 : (List.foldl CFGVisitor.visit CFGVisitor.VisitorState.init pre).CurrentFunction
      = f := hcur
  have hne : (List.foldl CFGVisitor.visit CFGVisitor.VisitorState.init pre).CurrentFunction
      ≠ "" := by
    rw [hcur2]
    exact hf
  simp only [CFGVisitor.visit, CFGVisitor.VisitCallExpr, hne, ne_eq, not_false_eq_true, if_true,
    CFGVisitor.calleesOf]
  rw [hcur2, umapFind_umapSet_self]
  exact mem_setInsert_self strLt_eq_of_not_lt _ _

/-- Witness for C25 amended: `main` calls `g` and `h`, then another function is defined. -/
theorem call_recorded_until_redefinition_witness :
    "g" ∈ CFGVisitor.calleesOf
      (CFGVisitor.traverse
        ([.functionDecl true true "main"] ++ .callExpr (some "g") ::
          [.callExpr (some "h"), .functionDecl true true "other",
            .callExpr (some "g")])).FunctionDependencies "main" :=
  call_recorded_until_redefinition [.functionDecl true true "main"]
    [.callExpr (some "h"), .functionDecl true true "other", .callExpr (some "g")]
    "main" "g" (by decide) (by decide) (by decide)

/-! ## The builder -/

namespace Builder

theorem nodes_addStatement (g : CFGGraph) (k : Int) (s : String) (n : CFGNode)
    (h : mapFind intLt k g.nodes = some n) :
    (g.addStatement k s).nodes =
      mapSet intLt k { n with statements := n.statements ++ [s] } g.nodes := by
  have hn : g.hasNode k = true := by simp [CFGGraph.hasNode, h]
  simp [CFGGraph.addStatement, CFGGraph.addStatementToNode, hn, mapUpdate, h]

theorem nodes_addEdge (g : CFGGraph) (k t : Int) (n : CFGNode)
    (h : mapFind intLt k g.nodes = some n) :
    (g.addEdge k t).nodes =
      mapSet intLt k { n with successors := setInsert intLt t n.successors } g.nodes := by
  have hn : g.hasNode k = true := by simp [CFGGraph.hasNode, h]
  simp [CFGGraph.addEdge, hn, mapUpdate, h]

theorem entry_addNode_new (g : CFGGraph) (k : Int) (h : g.hasNode k = false) :
    mapFind intLt k (g.addNode k).nodes =
      some (CFGNode.mk1 k ("Block " ++ to_string k)) := by
  simp [CFGGraph.addNode, h, mapFind_mapSet_self intLt_irrefl]

theorem entry_addNode_ne (g : CFGGraph) (k k2 : Int) (hne : k2 ≠ k) :
    mapFind intLt k2 (g.addNode k).nodes = mapFind intLt k2 g.nodes := by
  unfold CFGGraph.addNode
  split
  · rfl
  · exact mapFind_mapSet_ne intLt_eq_of_not_lt hne _ _

theorem entry_extractStatements (k : Int) (stmts : List Stmt) (g : CFGGraph) (n : CFGNode)
    (h : mapFind intLt k g.nodes = some n) :
    mapFind intLt k (stmts.foldl (fun g s => g.addStatement k s.text) g).nodes =
        some { n with statements := n.statements ++ stmts.map (fun s => s.text) } ∧
      ∀ k2, k2 ≠ k →
        mapFind intLt k2 (stmts.foldl (fun g s => g.addStatement k s.text) g).nodes =
          mapFind intLt k2 g.nodes := by
  induction stmts generalizing g n with
  | nil => simp [h]
  | cons s rest ih =>
    have hnodes := nodes_addStatement g k s.text n h
    have h1 : mapFind intLt k (g.addStatement k s.text).nodes =
        some { n with statements := n.statements ++ [s.text] } := by
      rw [hnodes]
      exact mapFind_mapSet_self intLt_irrefl _ _ _
    obtain ⟨ih1, ih2⟩ := ih (g.addStatement k s.text) _ h1
    rw [List.foldl_cons]
    refine ⟨?_, ?_⟩
    · rw [ih1]
      simp
    · intro k2 hne
      rw [ih2 k2 hne, hnodes]
      exact mapFind_mapSet_ne intLt_eq_of_not_lt hne _ _

theorem nodes_handleTryAndCatch (block : CFGBlock) (g : CFGGraph)
    (stmtToBlock : List (Nat × Int)) :
    (handleTryAndCatch block g stmtToBlock).nodes = g.nodes := by
  unfold handleTryAndCatch
  generalize block.statements = stmts
  induction stmts generalizing g with
  | nil => rfl
  | cons s rest ih =>
    rw [List.foldl_cons, ih]
    cases s.kind with
    | other => rfl
    | throwExpr => rfl
    | tryStmt handlers =>
      simp only
      have hh : ∀ (hs : List Nat) (g1 : CFGGraph),
          (hs.foldl
            (fun g1 catchStmt =>
              match umapFind catchStmt stmtToBlock with
              | some target => g1.addExceptionEdge block.blockID target
              | none => g1) g1).nodes = g1.nodes := by
        intro hs
        induction hs with
        | nil => intro g1; rfl
        | cons c cs ihc =>
          intro g1
          rw [List.foldl_cons, ihc]
          cases umapFind c stmtToBlock <;> rfl
      rw [hh]
      rfl

theorem entry_handleSuccessors (k : Int) (succs : List (Option Int)) (g : CFGGraph)
    (n : CFGNode) (h : mapFind intLt k g.nodes = some n) :
    mapFind intLt k
        (succs.foldl
          (fun g succ =>
            match succ with
            | some id => g.addEdge k id
            | none => g) g).nodes =
        some { n with
          successors :=
            (succs.filterMap id).foldl (fun s t => setInsert intLt t s) n.successors } ∧
      ∀ k2, k2 ≠ k →
        mapFind intLt k2
            (succs.foldl
              (fun g succ =>
                match succ with
                | some id => g.addEdge k id
                | none => g) g).nodes =
          mapFind intLt k2 g.nodes := by
  induction succs generalizing g n with
  | nil => simp [h]
  | cons s rest ih =>
    rw [List.foldl_cons]
    cases s with
    | none =>
      obtain ⟨ih1, ih2⟩ := ih g n h
      exact ⟨by simpa using ih1, ih2⟩
    | some t =>
      have hnodes := nodes_addEdge g k t n h
      have h1 : mapFind intLt k (g.addEdge k t).nodes =
          some { n with successors := setInsert intLt t n.successors } := by
        rw [hnodes]
        exact mapFind_mapSet_self intLt_irrefl _ _ _
      obtain ⟨ih1, ih2⟩ := ih (g.addEdge k t) _ h1
      refine ⟨?_, ?_⟩
      · simp only
        rw [ih1]
        simp
      · intro k2 hne
        simp only
        rw [ih2 k2 hne, hnodes]
        exact mapFind_mapSet_ne intLt_eq_of_not_lt hne _ _

theorem entry_processBlock (stmtToBlock : List (Nat × Int)) (g : CFGGraph) (block : CFGBlock) :
    (g.hasNode block.blockID = false →
      mapFind intLt block.blockID (processBlock stmtToBlock g block).nodes =
        some ⟨block.blockID, "Block " ++ to_string block.blockID, "",
          (block.succs.filterMap id).foldl (fun s t => setInsert intLt t s) [],
          block.statements.map (fun s => s.text)⟩) ∧
      ∀ k2, k2 ≠ block.blockID →
        mapFind intLt k2 (processBlock stmtToBlock g block).nodes = mapFind intLt k2 g.nodes := by
  constructor
  · intro hnew
    have h0 := entry_addNode_new g block.blockID hnew
    have h1 := (entry_extractStatements block.blockID block.statements _ _ h0).1
    have h2 := Eq.trans
      (congrArg (mapFind intLt block.blockID)
        (nodes_handleTryAndCatch block
          (extractStatementsFromBlock block (g.addNode block.blockID)) stmtToBlock)) h1
    have h3 := (entry_handleSuccessors block.blockID block.succs _ _ h2).1
    unfold processBlock handleSuccessors
    rw [h3]
    simp [CFGNode.mk1]
  · intro k2 hne
    cases hn : mapFind intLt block.blockID (g.addNode block.blockID).nodes with
    | none =>
      have := CFGGraph.hasNode_addNode g block.blockID
      simp [CFGGraph.hasNode, hn] at this
    | some n0 =>
      have h1 := entry_extractStatements block.blockID block.statements _ _ hn
      have h2 := Eq.trans
        (congrArg (mapFind intLt block.blockID)
          (nodes_handleTryAndCatch block
            (extractStatementsFromBlock block (g.addNode block.blockID)) stmtToBlock)) h1.1
      have h3 := (entry_handleSuccessors block.blockID block.succs _ _ h2).2 k2 hne
      unfold processBlock handleSuccessors
      rw [h3, nodes_handleTryAndCatch]
      unfold extractStatementsFromBlock
      rw [h1.2 k2 hne, entry_addNode_ne g _ _ hne]

theorem entry_foldl_processBlock (stmtToBlock : List (Nat × Int)) (blocks : List CFGBlock)
    (g : CFGGraph) (hd : (blocks.map (fun b => b.blockID)).Nodup)
    (hnew : ∀ b ∈ blocks, g.hasNode b.blockID = false) :
    (∀ b ∈ blocks,
      mapFind intLt b.blockID (blocks.foldl (processBlock stmtToBlock) g).nodes =
        some ⟨b.blockID, "Block " ++ to_string b.blockID, "",
          (b.succs.filterMap id).foldl (fun s t => setInsert intLt t s) [],
          b.statements.map (fun s => s.text)⟩) ∧
      ∀ k, k ∉ blocks.map (fun b => b.blockID) →
        mapFind intLt k (blocks.foldl (processBlock stmtToBlock) g).nodes =
          mapFind intLt k g.nodes := by
  induction blocks generalizing g with
  | nil => simp
  | cons b0 rest ih =>
    simp only [List.map_cons, List.nodup_cons] at hd
    obtain ⟨hp1, hp2⟩ := entry_processBlock stmtToBlock g b0
    have hnew2 : ∀ b ∈ rest, (processBlock stmtToBlock g b0).hasNode b.blockID = false := by
      intro b hb
      have hne : b.blockID ≠ b0.blockID := by
        intro h
        exact hd.1 (List.mem_map.2 ⟨b, hb, h⟩)
      have := hnew b (List.mem_cons_of_mem _ hb)
      simp only [CFGGraph.hasNode] at this ⊢
      rw [hp2 _ hne]
      exact this
    obtain ⟨ih1, ih2⟩ := ih (processBlock stmtToBlock g b0) hd.2 hnew2
    rw [List.foldl_cons]
    refine ⟨?_, ?_⟩
    · intro b hb
      rcases List.mem_cons.1 hb with rfl | hb
      · rw [ih2 _ hd.1]
        exact hp1 (hnew _ (List.mem_cons_self _ _))
      · exact ih1 b hb
    · intro k hk
      simp only [List.map_cons, List.mem_cons, not_or] at hk
      rw [ih2 k hk.2, hp2 k hk.1]

theorem mem_foldl_setInsert (ts : List Int) (s : List Int) (t : Int) :
    t ∈ ts.foldl (fun s t => setInsert intLt t s) s ↔ t ∈ ts ∨ t ∈ s := by
  induction ts generalizing s with
  | nil => simp
  | cons a rest ih =>
    rw [List.foldl_cons, ih, List.mem_cons]
    constructor
    · rintro (h | h)
      · exact Or.inl (Or.inr h)
      · rcases mem_setInsert_int a t s h with h | h
        · exact Or.inl (Or.inl h)
        · exact Or.inr h
    · rintro ((h | h) | h)
      · right
        rw [h]
        exact mem_setInsert_self intLt_eq_of_not_lt _ _
      · exact Or.inl h
      · exact Or.inr (mem_setInsert_of_mem _ _ _ h)

theorem pairwise_foldl_setInsert (ts : List Int) (s : List Int) (h : s.Pairwise (· < ·)) :
    (ts.foldl (fun s t => setInsert intLt t s) s).Pairwise (· < ·) := by
  induction ts generalizing s with
  | nil => exact h
  | cons a rest ih => exact ih _ (setInsert_pairwise a s h)

end Builder

/-- C26: for a stream of blocks with pairwise distinct ids, the graph that `generateCFG`
builds has exactly the block ids as nodes; the statement list of the node of a block is the
list of the block's statement texts in order; and its successor set holds exactly the ids in
the block's non-null successor slots, each once. -/
theorem builder_graph_matches_blocks (cfg : List (Option Builder.CFGBlock))
    (hd : ((cfg.filterMap id).map (fun b => b.blockID)).Nodup) :
    (∀ k, (Builder.generateCFG cfg).hasNode k = true ↔ ∃ b, some b ∈ cfg ∧ b.blockID = k) ∧
      (∀ b, some b ∈ cfg →
        Builder.statementsOf (Builder.generateCFG cfg) b.blockID =
          b.statements.map (fun s => s.text)) ∧
      (∀ b, some b ∈ cfg → ∀ t,
        t ∈ (Builder.generateCFG cfg).successorsOf b.blockID ↔ some t ∈ b.succs) ∧
      (∀ b, some b ∈ cfg → ((Builder.generateCFG cfg).successorsOf b.blockID).Nodup) := by
  have hmem : ∀ b, some b ∈ cfg ↔ b ∈ cfg.filterMap id := by
    intro b
    simp [List.mem_filterMap]
  obtain ⟨h1, h2⟩ := Builder.entry_foldl_processBlock
    (Builder.stmtToBlockOf (cfg.filterMap id)) (cfg.filterMap id) CFGGraph.empty hd
    (fun _ _ => rfl)
  have h1' : ∀ b, some b ∈ cfg →
      mapFind intLt b.blockID (Builder.generateCFG cfg).nodes =
        some ⟨b.blockID, "Block " ++ to_string b.blockID, "",
          (b.succs.filterMap id).foldl (fun s t => setInsert intLt t s) [],
          b.statements.map (fun s => s.text)⟩ := fun b hb => h1 b ((hmem b).1 hb)
  refine ⟨?_, ?_, ?_, ?_⟩
  · intro k
    constructor
    · intro hk
      by_contra hno
      have hk2 : k ∉ (cfg.filterMap id).map (fun b => b.blockID) := by
        intro hin
        obtain ⟨b, hb, hbk⟩ := List.mem_map.1 hin
        exact hno ⟨b, (hmem b).2 hb, hbk⟩
      have := h2 k hk2
      have hk3 : (mapFind intLt k (Builder.generateCFG cfg).nodes).isSome = true := hk
      have hk4 : mapFind intLt k (Builder.generateCFG cfg).nodes = none := this
      rw [hk4] at hk3
      exact Bool.noConfusion hk3
    · rintro ⟨b, hb, rfl⟩
      simp [CFGGraph.hasNode, h1' b hb]
  · intro b hb
    simp [Builder.statementsOf, h1' b hb]
  · intro b hb t
    simp only [CFGGraph.successorsOf, h1' b hb]
    rw [Builder.mem_foldl_setInsert]
    simp [List.mem_filterMap]
  · intro b hb
    simp only [CFGGraph.successorsOf, h1' b hb]
    exact (Builder.pairwise_foldl_setInsert _ [] List.Pairwise.nil).imp (fun h => ne_of_lt h)

/-- Witness for C26: an entry block with a statement and two successor slots (one null), a
block with a `try` statement whose handler lies in the third block, and an exit block. -/
theorem builder_graph_matches_blocks_witness :
    (Builder.generateCFG
        [some ⟨2, [.statement ⟨1, "int x = 0", .other⟩, .other,
            .statement ⟨2, "x++", .other⟩], [some 1, none, some 0]⟩,
          none,
          some ⟨1, [.statement ⟨3, "try", .tryStmt [4]⟩], [some 0, some 0]⟩,
          some ⟨0, [.statement ⟨4, "catch", .other⟩], []⟩]).hasNode 2 = true ∧
      Builder.statementsOf
        (Builder.generateCFG
          [some ⟨2, [.statement ⟨1, "int x = 0", .other⟩, .other,
              .statement ⟨2, "x++", .other⟩], [some 1, none, some 0]⟩,
            none,
            some ⟨1, [.statement ⟨3, "try", .tryStmt [4]⟩], [some 0, some 0]⟩,
            some ⟨0, [.statement ⟨4, "catch", .other⟩], []⟩]) 2 = ["int x = 0", "x++"] :=
  have h := builder_graph_matches_blocks
    [some ⟨2, [.statement ⟨1, "int x = 0", .other⟩, .other,
        .statement ⟨2, "x++", .other⟩], [some 1, none, some 0]⟩,
      none,
      some ⟨1, [.statement ⟨3, "try", .tryStmt [4]⟩], [some 0, some 0]⟩,
      some ⟨0, [.statement ⟨4, "catch", .other⟩], []⟩] (by decide)
  ⟨(h.1 2).2 ⟨_, List.mem_cons_self _ _, rfl⟩, h.2.1 _ (List.mem_cons_self _ _)⟩

/-! ## The view after `parseDotFormat` -/

namespace CustomGraphView

theorem applySceneCall_members (st : ViewState) (c : SceneCall) :
    (applySceneCall st c).m_nodes = st.m_nodes ∧ (applySceneCall st c).m_edges = st.m_edges ∧
      (applySceneCall st c).m_nodeLevels = st.m_nodeLevels := by
  cases c with
  | createNodeFromDot id label attributes => exact ⟨rfl, rfl, rfl⟩
  | createEdgeFromDot source target attributes =>
    simp only [applySceneCall, createEdgeFromDot]
    split
    · exact ⟨rfl, rfl, rfl⟩
    · exact ⟨rfl, rfl, rfl⟩

theorem foldl_applySceneCall_members (calls : List SceneCall) (st : ViewState) :
    (calls.foldl applySceneCall st).m_nodes = st.m_nodes ∧
      (calls.foldl applySceneCall st).m_edges = st.m_edges ∧
      (calls.foldl applySceneCall st).m_nodeLevels = st.m_nodeLevels := by
  induction calls generalizing st with
  | nil => exact ⟨rfl, rfl, rfl⟩
  | cons c rest ih =>
    obtain ⟨h1, h2, h3⟩ := ih (applySceneCall st c)
    obtain ⟨g1, g2, g3⟩ := applySceneCall_members st c
    rw [List.foldl_cons]
    exact ⟨h1.trans g1, h2.trans g2, h3.trans g3⟩

end CustomGraphView

/-- C28: for a view with a scene, whatever it held before and whatever the DOT text is,
after `parseDotFormat` the node map `m_nodes` and the edge list `m_edges` are empty (the
scene items made by `createNodeFromDot` and `createEdgeFromDot` are not stored in them),
and a following `applyHierarchicalLayout`, `applyForceDirectedLayout` or
`applyCircularLayout` makes no `setPos` call, so that no item changes its position. The
return value is the one of the model of `parseDotFormat` used above. -/
theorem layouts_after_parseDotFormat_move_nothing (st : CustomGraphView.ViewState)
    (dotContent : String) :
    (st.parseDotFormat true dotContent).1.m_nodes = [] ∧
      (st.parseDotFormat true dotContent).1.m_edges = [] ∧
      (st.parseDotFormat true dotContent).1.applyHierarchicalLayout = Outcome.returned [] ∧
      (st.parseDotFormat true dotContent).1.applyForceDirectedLayout true = [] ∧
      (st.parseDotFormat true dotContent).1.applyCircularLayout = [] ∧
      (st.parseDotFormat true dotContent).2 = parseDotFormat true dotContent := by
  obtain ⟨h1, h2, _⟩ := CustomGraphView.foldl_applySceneCall_members
    (viewParseLines dotContent).calls st.clear
  have hn : (st.parseDotFormat true dotContent).1.m_nodes = [] := h1
  have he : (st.parseDotFormat true dotContent).1.m_edges = [] := h2
  refine ⟨hn, he, ?_, ?_, ?_, rfl⟩
  · simp [CustomGraphView.ViewState.applyHierarchicalLayout, hn, he,
      CustomGraphView.calculateLevels, CustomGraphView.applyHierarchicalLayout]
  · simp [CustomGraphView.ViewState.applyForceDirectedLayout, hn]
  · simp [CustomGraphView.ViewState.applyCircularLayout, hn]

/-! ## The level computation on a cycle -/

namespace CustomGraphView

theorem levelLoop_on_cycle (fuel : Nat) :
    ∀ (l : Int) (levels : List (String × Int)),
      levelLoop [("1", "2"), ("2", "3"), ("3", "2")] fuel [("2", l)] levels = none ∧
        levelLoop [("1", "2"), ("2", "3"), ("3", "2")] fuel [("3", l)] levels = none := by
  induction fuel with
  | zero => intro l levels; exact ⟨rfl, rfl⟩
  | succ n ih =>
    intro l levels
    have h12 : ¬ ("1" = "2") := by decide
    have h13 : ¬ ("1" = "3") := by decide
    have h23 : ¬ ("2" = "3") := by decide
    have h32 : ¬ ("3" = "2") := by decide
    constructor
    · have := (ih (l + 1) (recordLevel levels "2" l)).2
      simpa [levelLoop, outgoing, List.filter, h12, h32] using this
    · have := (ih (l + 1) (recordLevel levels "3" l)).1
      simpa [levelLoop, outgoing, List.filter, h13, h23] using this

end CustomGraphView

/-- C22: `calculateLevels` does not terminate on an edge list with a cycle that can be
reached from a root. For the nodes 1, 2, 3 with the edges 1 -> 2, 2 -> 3, 3 -> 2 (a loop
between 2 and 3 entered from 1), with `allNodes` holding the three keys, the queue is never
empty: whatever the bound on the number of iterations, the loop has not returned. -/
theorem calculateLevels_loops_on_cycle (fuel : Nat) :
    CustomGraphView.calculateLevelsFrom fuel ["1", "2", "3"]
        [("1", "2"), ("2", "3"), ("3", "2")]
      = Outcome.outOfFuel := by
  have hroots : CustomGraphView.rootNodes ["1", "2", "3"]
      [("1", "2"), ("2", "3"), ("3", "2")] = ["1"] := by decide
  have h12 : ¬ ("2" = "1") := by decide
  have h13 : ¬ ("3" = "1") := by decide
  cases fuel with
  | zero => simp [CustomGraphView.calculateLevelsFrom, hroots, CustomGraphView.levelLoop]
  | succ n =>
    have := (CustomGraphView.levelLoop_on_cycle n 1 (CustomGraphView.recordLevel [] "1" 0)).1
    simp [CustomGraphView.calculateLevelsFrom, hroots, CustomGraphView.levelLoop,
      CustomGraphView.outgoing, List.filter, h12, h13]
    rw [this]

/-! ## The depth computation of the dependency view -/

/-- C23: the depth of a function whose callee was already visited is too small. For the
acyclic dependency map a -> b, a -> c, b -> d, c -> d the only root is `a`; `d` is visited
below `b`, so below `c` it contributes 0, and `c` gets depth 1 although its callee `d` has
depth 1 (the claimed value is 2). -/
theorem visited_callee_contributes_zero :
    CFGVisualizerWindow.roots [("a", ["b", "c"]), ("b", ["d"]), ("c", ["d"])] = ["a"] ∧
      CFGVisualizerWindow.calculateDepths 10 [("a", ["b", "c"]), ("b", ["d"]), ("c", ["d"])] =
        some [("d", 1), ("b", 2), ("c", 1), ("a", 3)] := by
  decide

/-- C24: a function on a cycle that no root reaches gets no position. For the dependency
map main -> helper, a -> b, b -> a the functions are a, b, helper, main; the only root is
`main`, the depth computation visits `main` and `helper`, and the layout sets a position for
these two only. -/
theorem unreached_cycle_gets_no_position :
    CFGVisualizerWindow.allFunctions [("main", ["helper"]), ("a", ["b"]), ("b", ["a"])] =
        ["a", "b", "helper", "main"] ∧
      CFGVisualizerWindow.roots [("main", ["helper"]), ("a", ["b"]), ("b", ["a"])] = ["main"] ∧
      CFGVisualizerWindow.calculateDepths 10 [("main", ["helper"]), ("a", ["b"]), ("b", ["a"])] =
        some [("helper", 1), ("main", 2)] ∧
      (CFGVisualizerWindow.hierarchicalPositions 10
        [("main", ["helper"]), ("a", ["b"]), ("b", ["a"])]).map (fun l => l.map Prod.fst) =
        some ["helper", "main"] := by
  decide

/-! ## The level computation on acyclic graphs -/

namespace CustomGraphView

theorem lookup_eq_umapFind (k : String) (m : List (String × Int)) :
    m.lookup k = umapFind k m := by
  induction m with
  | nil => rfl
  | cons p rest ih =>
    obtain ⟨k1, v1⟩ := p
    by_cases h : k1 = k
    · subst h
      simp [List.lookup, umapFind]
    · have h2 : (k == k1) = false := by
        rw [beq_eq_false_iff_ne]
        exact fun hc => h hc.symm
      simp [List.lookup, umapFind, h, h2, ih]

theorem expand_append (E : List (String × String)) (q r : List (String × Int)) :
    expand E (q ++ r) = expand E q ++ expand E r := by
  simp [expand, List.flatMap_append]

theorem levelLoop_generation_step (E : List (String × String)) (q : List (String × Int)) :
    ∀ (r levels : List (String × Int)) (fuel : Nat),
      levelLoop E (fuel + q.length) (q ++ r) levels =
        levelLoop E fuel (r ++ expand E q)
          (q.foldl (fun lv item => recordLevel lv item.1 item.2) levels) := by
  induction q with
  | nil =>
    intro r levels fuel
    simp [expand]
  | cons item q ih =>
    intro r levels fuel
    obtain ⟨v, l⟩ := item
    have h := ih (r ++ outgoing E v l) (recordLevel levels v l) fuel
    show levelLoop E (fuel + q.length + 1) ((v, l) :: (q ++ r)) levels = _
    rw [levelLoop, List.append_assoc, h, List.foldl_cons]
    simp [expand, List.flatMap_cons, List.append_assoc]

theorem levelLoop_generations (E : List (String × String)) (n : Nat) :
    ∀ (q levels : List (String × Int)) (fuel : Nat), generation E n q = [] →
      levelLoop E (fuel + (generations E n q).length) q levels =
        some ((generations E n q).foldl (fun lv item => recordLevel lv item.1 item.2) levels) := by
  induction n with
  | zero =>
    intro q levels fuel h
    have hq : q = [] := h
    subst hq
    cases fuel <;> rfl
  | succ n ih =>
    intro q levels fuel h
    have h1 := levelLoop_generation_step E q [] levels (fuel + (generations E n (expand E q)).length)
    simp only [List.append_nil, List.nil_append] at h1
    have hlen : fuel + (generations E (n + 1) q).length =
        fuel + (generations E n (expand E q)).length + q.length := by
      simp [generations]
      omega
    rw [hlen, h1, ih (expand E q) _ fuel h]
    simp [generations, List.foldl_append]

theorem mem_outgoing (E : List (String × String)) (v w : String) (l l2 : Int) :
    (w, l2) ∈ outgoing E v l ↔ (v, w) ∈ E ∧ l2 = l + 1 := by
  simp only [outgoing, List.mem_map, List.mem_filter, decide_eq_true_eq]
  constructor
  · rintro ⟨e, ⟨he, hv⟩, heq⟩
    obtain ⟨e1, e2⟩ := e
    simp only [Prod.mk.injEq] at heq
    simp only at hv
    subst hv
    rw [← heq.1, ← heq.2]
    exact ⟨he, rfl⟩
  · rintro ⟨he, rfl⟩
    exact ⟨(v, w), ⟨he, rfl⟩, rfl⟩

theorem mem_expand (E : List (String × String)) (q : List (String × Int)) (w : String)
    (l2 : Int) :
    (w, l2) ∈ expand E q ↔ ∃ v l, (v, l) ∈ q ∧ (v, w) ∈ E ∧ l2 = l + 1 := by
  simp only [expand, List.mem_flatMap]
  constructor
  · rintro ⟨⟨v, l⟩, hq, hw⟩
    exact ⟨v, l, hq, (mem_outgoing E v w l l2).1 hw⟩
  · rintro ⟨v, l, hq, hw⟩
    exact ⟨(v, l), hq, (mem_outgoing E v w l l2).2 hw⟩

theorem generation_succ (E : List (String × String)) (n : Nat) (q : List (String × Int)) :
    generation E (n + 1) q = expand E (generation E n q) := by
  induction n generalizing q with
  | zero => rfl
  | succ n ih =>
    show generation E (n + 1) (expand E q) = _
    rw [ih (expand E q)]
    rfl

theorem mem_generation (E : List (String × String)) (n : Nat) (seeds : List String)
    (v : String) (l : Int) :
    (v, l) ∈ generation E n (seeds.map (fun r => (r, (0 : Int)))) ↔
      l = (n : Int) ∧ ∃ r ∈ seeds, Walk E r v n := by
  induction n generalizing v l with
  | zero =>
    simp only [generation, List.mem_map, Prod.mk.injEq]
    constructor
    · rintro ⟨r, hr, rfl, rfl⟩
      exact ⟨rfl, r, hr, Walk.nil r⟩
    · rintro ⟨rfl, r, hr, hw⟩
      cases hw
      exact ⟨v, hr, rfl, rfl⟩
  | succ n ih =>
    rw [generation_succ, mem_expand]
    constructor
    · rintro ⟨u, l0, hu, he, rfl⟩
      obtain ⟨rfl, r, hr, hw⟩ := (ih u l0).1 hu
      exact ⟨by push_cast; rfl, r, hr, Walk.snoc hw he⟩
    · rintro ⟨rfl, r, hr, hw⟩
      cases hw with
      | snoc hw2 he =>
        exact ⟨_, (n : Int), (ih _ _).2 ⟨rfl, r, hr, hw2⟩, he, by push_cast; rfl⟩

theorem mem_generations (E : List (String × String)) (n : Nat) (q : List (String × Int))
    (item : String × Int) :
    item ∈ generations E n q ↔ ∃ m, m < n ∧ item ∈ generation E m q := by
  induction n generalizing q with
  | zero => simp [generations]
  | succ n ih =>
    simp only [generations, List.mem_append, ih]
    constructor
    · rintro (h | ⟨m, hm, h⟩)
      · exact ⟨0, Nat.succ_pos _, h⟩
      · exact ⟨m + 1, Nat.succ_lt_succ hm, h⟩
    · rintro ⟨m, hm, h⟩
      cases m with
      | zero => exact Or.inl h
      | succ m => exact Or.inr ⟨m, Nat.lt_of_succ_lt_succ hm, h⟩

end CustomGraphView

namespace CustomGraphView

theorem Walk.cons {E : List (String × String)} {t u v : String} {k : Nat}
    (he : (t, u) ∈ E) (hw : Walk E u v k) : Walk E t v (k + 1) := by
  induction hw with
  | nil => exact Walk.snoc (Walk.nil t) he
  | snoc _ he2 ih => exact Walk.snoc ih he2

theorem Walk.end_mem {E : List (String × String)} {keys : List String} {u v : String}
    {k : Nat} (hover : ∀ e ∈ E, e.1 ∈ keys ∧ e.2 ∈ keys) (hu : u ∈ keys) (hw : Walk E u v k) :
    v ∈ keys := by
  cases hw with
  | nil => exact hu
  | snoc _ he => exact (hover _ he).2

theorem Walk.visited {E : List (String × String)} {keys : List String} {u v : String}
    {k : Nat} (hover : ∀ e ∈ E, e.1 ∈ keys ∧ e.2 ∈ keys) (hac : Acyclic E) (hu : u ∈ keys)
    (hw : Walk E u v k) :
    ∃ p : List String, p.length = k ∧ p.Nodup ∧ (∀ x ∈ p, x ∈ keys) ∧
      ∀ x ∈ p, ∃ j, Walk E x v (j + 1) := by
  induction hw with
  | nil => exact ⟨[], rfl, List.nodup_nil, by simp, by simp⟩
  | @snoc v w k hw2 he ih =>
    obtain ⟨p, hlen, hnd, hsub, hreach⟩ := ih
    refine ⟨v :: p, by simp [hlen], ?_, ?_, ?_⟩
    · refine List.nodup_cons.2 ⟨?_, hnd⟩
      intro hv
      obtain ⟨j, hj⟩ := hreach v hv
      exact hac v j hj
    · intro x hx
      rcases List.mem_cons.1 hx with rfl | hx
      · exact Walk.end_mem hover hu hw2
      · exact hsub x hx
    · intro x hx
      rcases List.mem_cons.1 hx with rfl | hx
      · exact ⟨0, Walk.snoc (Walk.nil _) he⟩
      · obtain ⟨j, hj⟩ := hreach x hx
        exact ⟨j + 1, Walk.snoc hj he⟩

theorem Walk.length_lt {E : List (String × String)} {keys : List String} {u v : String}
    {k : Nat} (hover : ∀ e ∈ E, e.1 ∈ keys ∧ e.2 ∈ keys) (hac : Acyclic E) (hu : u ∈ keys)
    (hw : Walk E u v k) : k < keys.length := by
  obtain ⟨p, hlen, hnd, hsub, hreach⟩ := Walk.visited hover hac hu hw
  have hv : v ∉ p := by
    intro hv
    obtain ⟨j, hj⟩ := hreach v hv
    exact hac v j hj
  have hnd2 : (v :: p).Nodup := List.nodup_cons.2 ⟨hv, hnd⟩
  have hsub2 : (v :: p) ⊆ keys := by
    intro x hx
    rcases List.mem_cons.1 hx with rfl | hx
    · exact Walk.end_mem hover hu hw
    · exact hsub x hx
  have := (List.subperm_of_subset hnd2 hsub2).length_le
  simp only [List.length_cons, hlen] at this
  omega

theorem exists_walk_back {E : List (String × String)} {keys : List String}
    (hover : ∀ e ∈ E, e.1 ∈ keys ∧ e.2 ∈ keys) (v : String) (hv : v ∈ keys) (n : Nat) :
    (∃ r k, IsRoot keys E r ∧ Walk E r v k) ∨ ∃ u, u ∈ keys ∧ Walk E u v n := by
  induction n with
  | zero => exact Or.inr ⟨v, hv, Walk.nil v⟩
  | succ n ih =>
    rcases ih with h | ⟨u, hu, hw⟩
    · exact Or.inl h
    · by_cases hin : ∃ e ∈ E, e.2 = u
      · obtain ⟨e, he, hu2⟩ := hin
        obtain ⟨t, u'⟩ := e
        simp only at hu2
        subst hu2
        exact Or.inr ⟨t, (hover _ he).1, Walk.cons he hw⟩
      · left
        refine ⟨u, n, ⟨hu, ?_⟩, hw⟩
        intro e he hc
        exact hin ⟨e, he, hc⟩

theorem exists_root_walk {E : List (String × String)} {keys : List String}
    (hover : ∀ e ∈ E, e.1 ∈ keys ∧ e.2 ∈ keys) (hac : Acyclic E) (v : String)
    (hv : v ∈ keys) : ∃ r k, IsRoot keys E r ∧ Walk E r v k := by
  rcases exists_walk_back hover v hv keys.length with h | ⟨u, hu, hw⟩
  · exact h
  · exact absurd (Walk.length_lt hover hac hu hw) (lt_irrefl _)

theorem mem_rootNodes (keys : List String) (E : List (String × String)) (r : String) :
    r ∈ rootNodes keys E ↔ IsRoot keys E r := by
  have hc : (List.map Prod.snd E).contains r = true ↔ ∃ e ∈ E, e.2 = r := by
    simp [List.contains, List.elem_iff]
  simp only [rootNodes, IsRoot, List.mem_filter, Bool.not_eq_true']
  constructor
  · rintro ⟨hr, h⟩
    refine ⟨hr, fun e he hce => ?_⟩
    have := hc.2 ⟨e, he, hce⟩
    rw [h] at this
    exact Bool.noConfusion this
  · rintro ⟨hr, h⟩
    refine ⟨hr, ?_⟩
    cases hb : (List.map Prod.snd E).contains r
    · rfl
    · obtain ⟨e, he, hce⟩ := hc.1 hb
      exact absurd hce (h e he)

theorem umapFind_recordLevel_ne (levels : List (String × Int)) (x v : String) (l : Int)
    (hne : v ≠ x) : umapFind v (recordLevel levels x l) = umapFind v levels := by
  unfold recordLevel
  split
  · exact umapFind_umapSet_ne _ _ _ _ hne
  · split
    · exact umapFind_umapSet_ne _ _ _ _ hne
    · rfl

theorem umapFind_recordLevel_self (levels : List (String × Int)) (x : String) (l : Int) :
    ∃ l2, umapFind x (recordLevel levels x l) = some l2 ∧ l ≤ l2 ∧
      (l2 = l ∨ umapFind x levels = some l2) ∧
      ∀ l0, umapFind x levels = some l0 → l0 ≤ l2 := by
  unfold recordLevel
  cases h : umapFind x levels with
  | none =>
    refine ⟨l, umapFind_umapSet_self _ _ _, le_refl _, Or.inl rfl, ?_⟩
    intro l0 h0
    exact Option.noConfusion h0
  | some l1 =>
    by_cases hlt : l1 < l
    · simp only [hlt, if_true]
      refine ⟨l, umapFind_umapSet_self _ _ _, le_refl _, Or.inl rfl, ?_⟩
      intro l0 h0
      have : l0 = l1 := (Option.some.inj h0).symm
      omega
    · simp only [hlt, if_false]
      refine ⟨l1, h, by omega, Or.inr rfl, ?_⟩
      intro l0 h0
      have : l0 = l1 := (Option.some.inj h0).symm
      omega

theorem recorded_levels (items : List (String × Int)) :
    ∀ (levels : List (String × Int)) (v : String),
      (∀ l, umapFind v (items.foldl (fun lv item => recordLevel lv item.1 item.2) levels)
          = some l → umapFind v levels = some l ∨ (v, l) ∈ items) ∧
        (∀ l, (umapFind v levels = some l ∨ (v, l) ∈ items) →
          ∃ l2, umapFind v (items.foldl (fun lv item => recordLevel lv item.1 item.2) levels)
            = some l2 ∧ l ≤ l2) := by
  induction items with
  | nil =>
    intro levels v
    refine ⟨fun l h => Or.inl h, ?_⟩
    rintro l (h | h)
    · exact ⟨l, h, le_refl _⟩
    · simp at h
  | cons item rest ih =>
    intro levels v
    obtain ⟨x, lx⟩ := item
    obtain ⟨ih1, ih2⟩ := ih (recordLevel levels x lx) v
    simp only [List.foldl_cons]
    constructor
    · intro l h
      rcases ih1 l h with h1 | h1
      · by_cases hvx : v = x
        · subst hvx
          obtain ⟨l2, hl2, _, hor, _⟩ := umapFind_recordLevel_self levels v lx
          have : l = l2 := Option.some.inj (h1.symm.trans hl2)
          subst this
          rcases hor with rfl | hor
          · exact Or.inr (List.mem_cons_self _ _)
          · exact Or.inl hor
        · rw [umapFind_recordLevel_ne _ _ _ _ hvx] at h1
          exact Or.inl h1
      · exact Or.inr (List.mem_cons_of_mem _ h1)
    · intro l h
      have hstep : ∃ l1, umapFind v (recordLevel levels x lx) = some l1 ∧ l ≤ l1 ∨
          (v, l) ∈ rest := by
        rcases h with h | h
        · by_cases hvx : v = x
          · subst hvx
            obtain ⟨l2, hl2, _, _, hmono⟩ := umapFind_recordLevel_self levels v lx
            exact ⟨l2, Or.inl ⟨hl2, hmono l h⟩⟩
          · exact ⟨l, Or.inl ⟨by rw [umapFind_recordLevel_ne _ _ _ _ hvx]; exact h, le_refl _⟩⟩
        · rcases List.mem_cons.1 h with h | h
          · have h1 : v = x := congrArg Prod.fst h
            have h2 : l = lx := congrArg Prod.snd h
            subst h1
            subst h2
            obtain ⟨l2, hl2, hle, _, _⟩ := umapFind_recordLevel_self levels v l
            exact ⟨l2, Or.inl ⟨hl2, hle⟩⟩
          · exact ⟨l, Or.inr h⟩
      obtain ⟨l1, hl1⟩ := hstep
      rcases hl1 with ⟨hl1, hle⟩ | hl1
      · obtain ⟨l2, hl2, hle2⟩ := ih2 l1 (Or.inl hl1)
        exact ⟨l2, hl2, le_trans hle hle2⟩
      · exact ih2 l (Or.inr hl1)

theorem fillUnvisited_of_all (keys : List String) (levels : List (String × Int))
    (h : ∀ v ∈ keys, (umapFind v levels).isSome = true) : fillUnvisited keys levels = levels := by
  unfold fillUnvisited
  induction keys with
  | nil => rfl
  | cons k rest ih =>
    rw [List.foldl_cons, if_pos (h k (List.mem_cons_self _ _))]
    exact ih (fun v hv => h v (List.mem_cons_of_mem _ hv))

end CustomGraphView

namespace CustomGraphView

theorem Walk.rank_le {E : List (String × String)} (rank : String → Nat)
    (h : ∀ e ∈ E, rank e.1 < rank e.2) {u v : String} {k : Nat} (hw : Walk E u v k) :
    rank u + k ≤ rank v := by
  induction hw with
  | nil => exact le_refl _
  | snoc _ he ih =>
    have := h _ he
    simp only at this
    omega

/-- An edge list that increases some numbering of the nodes along every edge is acyclic. -/
theorem acyclic_of_rank (E : List (String × String)) (rank : String → Nat)
    (h : ∀ e ∈ E, rank e.1 < rank e.2) : Acyclic E := by
  intro v k hw
  have := Walk.rank_le rank h hw
  omega

theorem levelLoop_returns {keys : List String} {E : List (String × String)}
    (hover : ∀ e ∈ E, e.1 ∈ keys ∧ e.2 ∈ keys) (hac : Acyclic E) (fuel : Nat)
    (hfuel : (generations E keys.length
      ((rootNodes keys E).map (fun r => (r, (0 : Int))))).length ≤ fuel) :
    levelLoop E fuel ((rootNodes keys E).map (fun r => (r, (0 : Int)))) [] =
      some ((generations E keys.length
        ((rootNodes keys E).map (fun r => (r, (0 : Int))))).foldl
          (fun lv item => recordLevel lv item.1 item.2) []) := by
  have hempty : generation E keys.length ((rootNodes keys E).map (fun r => (r, (0 : Int))))
      = [] := by
    rw [List.eq_nil_iff_forall_not_mem]
    rintro ⟨v, l⟩ hmem
    obtain ⟨_, r, hr, hw⟩ := (mem_generation E keys.length (rootNodes keys E) v l).1 hmem
    have hrk : r ∈ keys := ((mem_rootNodes keys E r).1 hr).1
    exact absurd (Walk.length_lt hover hac hrk hw) (lt_irrefl _)
  have h := levelLoop_generations E keys.length
    ((rootNodes keys E).map (fun r => (r, (0 : Int)))) []
    (fuel - (generations E keys.length
      ((rootNodes keys E).map (fun r => (r, (0 : Int))))).length) hempty
  rw [Nat.sub_add_cancel hfuel] at h
  exact h

theorem levels_of_generations {keys : List String} {E : List (String × String)}
    (hover : ∀ e ∈ E, e.1 ∈ keys ∧ e.2 ∈ keys) (hac : Acyclic E) (v : String)
    (hv : v ∈ keys) :
    ∃ k : Nat,
      umapFind v ((generations E keys.length
        ((rootNodes keys E).map (fun r => (r, (0 : Int))))).foldl
          (fun lv item => recordLevel lv item.1 item.2) []) = some (k : Int) ∧
        (∃ r, IsRoot keys E r ∧ Walk E r v k) ∧
        ∀ r k2, IsRoot keys E r → Walk E r v k2 → k2 ≤ k := by
  obtain ⟨h1, h2⟩ := recorded_levels
    (generations E keys.length ((rootNodes keys E).map (fun r => (r, (0 : Int))))) [] v
  have hin : ∀ r k2, IsRoot keys E r → Walk E r v k2 →
      (v, (k2 : Int)) ∈ generations E keys.length
        ((rootNodes keys E).map (fun r => (r, (0 : Int)))) := by
    intro r k2 hr hw
    rw [mem_generations]
    exact ⟨k2, Walk.length_lt hover hac hr.1 hw,
      (mem_generation E k2 (rootNodes keys E) v k2).2
        ⟨rfl, r, (mem_rootNodes keys E r).2 hr, hw⟩⟩
  obtain ⟨r0, k0, hr0, hw0⟩ := exists_root_walk hover hac v hv
  obtain ⟨l2, hl2, _⟩ := h2 (k0 : Int) (Or.inr (hin r0 k0 hr0 hw0))
  rcases h1 l2 hl2 with hnil | hmem
  · exact Option.noConfusion hnil
  · obtain ⟨m, _, hm⟩ := (mem_generations E keys.length _ (v, l2)).1 hmem
    obtain ⟨hlm, r, hr, hw⟩ := (mem_generation E m (rootNodes keys E) v l2).1 hm
    subst hlm
    refine ⟨m, hl2, ⟨r, (mem_rootNodes keys E r).1 hr, hw⟩, ?_⟩
    intro r2 k2 hr2 hw2
    obtain ⟨l3, hl3, hle⟩ := h2 (k2 : Int) (Or.inr (hin r2 k2 hr2 hw2))
    have : l3 = (m : Int) := Option.some.inj (hl3.symm.trans hl2)
    omega

end CustomGraphView

/-- The levels that the statements after the construction of `allNodes` compute: for a
non-empty set `allNodes` and an acyclic edge list between its elements,
`calculateLevelsFrom` returns (every sufficiently large bound on the number of loop
iterations gives a result), and the level it stores for a node `v` is the number `k` of edges
of a longest walk that ends at `v` and starts at a root (a node that is the target of no
edge): there is such a walk along `k` edges and none along more. In particular the level of
a root is 0. -/
theorem calculateLevelsFrom_longest_path (keys : List String)
    (edges : List (String × String)) (hkeys : keys ≠ [])
    (hover : ∀ e ∈ edges, e.1 ∈ keys ∧ e.2 ∈ keys) (hac : CustomGraphView.Acyclic edges) :
    ∃ fuel0, ∀ fuel, fuel0 ≤ fuel → ∃ levels,
      CustomGraphView.calculateLevelsFrom fuel keys edges = Outcome.returned levels ∧
        ∀ v ∈ keys, ∃ k : Nat,
          umapFind v levels = some (k : Int) ∧
            CustomGraphView.levelOf levels v = (k : Int) ∧
            (∃ r, CustomGraphView.IsRoot keys edges r ∧ CustomGraphView.Walk edges r v k) ∧
            (∀ r k2, CustomGraphView.IsRoot keys edges r →
              CustomGraphView.Walk edges r v k2 → k2 ≤ k) ∧
            (CustomGraphView.IsRoot keys edges v → k = 0) := by
  cases hk : keys with
  | nil => exact absurd hk hkeys
  | cons key0 rest =>
    rw [← hk]
    have hkey0 : key0 ∈ keys := by rw [hk]; exact List.mem_cons_self _ _
    obtain ⟨r0, _, hr0, _⟩ := CustomGraphView.exists_root_walk hover hac key0 hkey0
    have hroots : (CustomGraphView.rootNodes keys edges).isEmpty = false := by
      cases hr : CustomGraphView.rootNodes keys edges with
      | nil =>
        have := (CustomGraphView.mem_rootNodes keys edges r0).2 hr0
        rw [hr] at this
        simp at this
      | cons a l => rfl
    refine ⟨(CustomGraphView.generations edges keys.length
      ((CustomGraphView.rootNodes keys edges).map (fun r => (r, (0 : Int))))).length,
      fun fuel hfuel => ?_⟩
    have hloop := CustomGraphView.levelLoop_returns hover hac fuel hfuel
    have hall := CustomGraphView.levels_of_generations hover hac
    have hfill := CustomGraphView.fillUnvisited_of_all keys
      ((CustomGraphView.generations edges keys.length
        ((CustomGraphView.rootNodes keys edges).map (fun r => (r, (0 : Int))))).foldl
          (fun lv item => CustomGraphView.recordLevel lv item.1 item.2) [])
      (fun v hv => by
        obtain ⟨k, hk1, _⟩ := hall v hv
        rw [hk1]
        rfl)
    generalize hL : (CustomGraphView.generations edges keys.length
        ((CustomGraphView.rootNodes keys edges).map (fun r => (r, (0 : Int))))).foldl
          (fun lv item => CustomGraphView.recordLevel lv item.1 item.2) [] = L
      at hloop hall hfill
    refine ⟨L, ?_, ?_⟩
    · simp only [CustomGraphView.calculateLevelsFrom, hroots, Bool.false_and,
        Bool.false_eq_true, if_false, hloop, hfill]
    · intro v hv
      obtain ⟨k, hk1, hk2, hk3⟩ := hall v hv
      refine ⟨k, hk1, ?_, hk2, hk3, ?_⟩
      · simp [CustomGraphView.levelOf, CustomGraphView.lookup_eq_umapFind, hk1]
      · intro hroot
        obtain ⟨r, _, hw⟩ := hk2
        cases hw with
        | nil => rfl
        | snoc _ he => exact absurd rfl (hroot.2 _ he)

/-- The diamond 1 -> 2, 1 -> 3, 2 -> 4, 3 -> 4 with the extra edge 1 -> 4 is acyclic, since
every edge leads to a larger number; with `allNodes` holding the four ids node 4 gets
level 2. -/
theorem calculateLevelsFrom_diamond :
    CustomGraphView.calculateLevelsFrom 100 ["1", "2", "3", "4"]
        [("1", "2"), ("1", "3"), ("2", "4"), ("3", "4"), ("1", "4")] =
        Outcome.returned [("1", 0), ("2", 1), ("3", 1), ("4", 2)] ∧
      CustomGraphView.Acyclic [("1", "2"), ("1", "3"), ("2", "4"), ("3", "4"), ("1", "4")] :=
  ⟨by decide,
    CustomGraphView.acyclic_of_rank _ (fun s => digitsValue s.toList) (by decide)⟩

/-- C30: `calculateLevels` assigns no level as soon as the view has a node. For the nodes
1, 2 with the edge 1 -> 2 (an acyclic edge list) the call runs into the construction of
`allNodes` from the iterators of two different lists, and its behaviour is undefined: no
content of `m_nodeLevels` is determined, where the claim asks for level 0 at node 1 and
level 1 at node 2. Only for the empty node set the method returns. The statements that
follow would give these levels if `allNodes` held the two keys. -/
theorem calculateLevels_undefined_with_nodes :
    CustomGraphView.calculateLevels ["1", "2"] [("1", "2")] = Outcome.undefinedBehaviour ∧
      CustomGraphView.calculateLevels [] [] = Outcome.returned [] ∧
      CustomGraphView.calculateLevelsFrom 2 ["1", "2"] [("1", "2")] =
        Outcome.returned [("1", 0), ("2", 1)] := by
  decide

/-! ## Edge statements as the writers spell them -/

/-- C19: in `CustomGraphView` the hierarchical layout of an acyclic graph determines no
position. For the view with the nodes 1, 2, 3 and the edges 1 -> 2, 1 -> 3,
`applyHierarchicalLayout` calls `calculateLevels`, whose behaviour is undefined as soon as
the view has a node: no x-coordinate is determined for the nodes 2 and 3, where the claim
asks for two different ones. The positioning loop, given the levels 0, 1, 1, would place
them at x = -60 and x = 60, and the dependency view, whose depth computation has no such
construct, places the callees 2 and 3 of the same graph at x = -60 and x = 60. -/
theorem hierarchical_layout_undefined_with_nodes :
    CustomGraphView.ViewState.applyHierarchicalLayout
        ⟨["1", "2", "3"], [("1", "2"), ("1", "3")], [], []⟩ = Outcome.undefinedBehaviour ∧
      CustomGraphView.applyHierarchicalLayout ["1", "2", "3"] [("1", 0), ("2", 1), ("3", 1)]
        = [("1", 0, 0), ("2", -60, 100), ("3", 60, 100)] ∧
      CFGVisualizerWindow.hierarchicalPositions 10 [("1", ["2", "3"])]
        = some [("2", -60, 100), ("3", 60, 100), ("1", 0, 200)] := by
  have h1 : ("2" == "1") = false := by decide
  have h2 : ("3" == "1") = false := by decide
  have h3 : ("3" == "2") = false := by decide
  have h4 : ¬ ("2" = "3") := by decide
  have h5 : ¬ ("2" = "1") := by decide
  have h6 : ¬ ("3" = "1") := by decide
  have hd : CFGVisualizerWindow.calculateDepths 10 [("1", ["2", "3"])]
      = some [("2", 1), ("3", 1), ("1", 2)] := by decide
  refine ⟨by decide, ?_, ?_⟩
  · norm_num [CustomGraphView.applyHierarchicalLayout, CustomGraphView.placeNodes,
      CustomGraphView.levelCounts, CustomGraphView.levelOf, List.lookup, slotX, levelY,
      mapFind, mapSet,
      mapUpdate, intLt, h1, h2, h3]
  · rw [CFGVisualizerWindow.hierarchicalPositions, hd]
    norm_num [CFGVisualizerWindow.applyHierarchicalLayout, CFGVisualizerWindow.position,
      CFGVisualizerWindow.depthCounts, slotX, levelY, mapFind, mapSet, mapUpdate, intLt,
      h4, h5, h6]

/-! ## The depth computation returns -/

theorem mem_of_mem_setInsert {κ : Type} (lt : κ → κ → Bool) (x y : κ) (s : List κ)
    (h : y ∈ setInsert lt x s) : y = x ∨ y ∈ s := by
  induction s with
  | nil =>
    simp only [setInsert, List.mem_singleton] at h
    exact Or.inl h
  | cons z zs ih =>
    unfold setInsert at h
    split at h
    · rcases List.mem_cons.1 h with h | h
      · exact Or.inl h
      · exact Or.inr h
    · split at h
      · rcases List.mem_cons.1 h with h | h
        · exact Or.inr (h ▸ List.mem_cons_self _ _)
        · rcases ih h with h | h
          · exact Or.inl h
          · exact Or.inr (List.mem_cons_of_mem _ h)
      · exact Or.inr h

theorem length_filter_lt_of_imp (p q : String → Bool) (l : List String)
    (himp : ∀ x, p x = true → q x = true) (x : String) (hx : x ∈ l) (hq : q x = true)
    (hp : p x = false) : (l.filter p).length < (l.filter q).length := by
  have hle : ∀ l : List String, (l.filter p).length ≤ (l.filter q).length :=
    fun l => (List.monotone_filter_right l himp).length_le
  induction l with
  | nil => simp at hx
  | cons y ys ih =>
    rcases List.mem_cons.1 hx with h | h
    · subst h
      rw [List.filter_cons_of_neg (by simp [hp]), List.filter_cons_of_pos hq,
        List.length_cons]
      exact Nat.lt_succ_of_le (hle ys)
    · have := ih h
      cases hpy : p y
      · rw [List.filter_cons_of_neg (by simp [hpy])]
        cases hqy : q y
        · rw [List.filter_cons_of_neg (by simp [hqy])]
          exact this
        · rw [List.filter_cons_of_pos hqy, List.length_cons]
          omega
      · rw [List.filter_cons_of_pos hpy, List.filter_cons_of_pos (himp y hpy),
          List.length_cons, List.length_cons]
        omega

namespace CFGVisualizerWindow

theorem calculateDepth_returns (deps : List (String × List String)) (U : List String)
    (hU : ∀ f cs, umapFind f deps = some cs → ∀ c ∈ cs, c ∈ U) :
    ∀ (fuel : Nat) (func : String) (visited : List String) (depths : List (String × Int)),
      func ∈ U → (U.filter (fun u => !setContains strLt u visited)).length < fuel →
      ∃ d visited2 depths2,
        calculateDepth deps fuel func (visited, depths) = some (d, visited2, depths2) ∧
          ∀ y, setContains strLt y visited = true → setContains strLt y visited2 = true := by
  intro fuel
  induction fuel with
  | zero => intro func visited depths _ h; exact absurd h (Nat.not_lt_zero _)
  | succ n ih =>
    intro func visited depths hfunc hfuel
    cases hc : setContains strLt func visited with
    | true =>
      refine ⟨0, visited, depths, ?_, fun y hy => hy⟩
      simp [calculateDepth, hc]
    | false =>
      have hcs : ∀ c ∈ (umapFind func deps).getD [], c ∈ U := by
        cases hf : umapFind func deps with
        | none => intro c hc2; simp at hc2
        | some cs => exact hU func cs hf
      have hlt : (U.filter (fun u => !setContains strLt u (setInsert strLt func visited))).length
          < (U.filter (fun u => !setContains strLt u visited)).length := by
        apply length_filter_lt_of_imp _ _ U _ func hfunc
        · simp [hc]
        · simp [setContains_setInsert strLt_irrefl]
        · intro x hx
          cases hxv : setContains strLt x visited with
          | false => rfl
          | true =>
            rw [setContains_setInsert_of_contains func x visited hxv] at hx
            simp at hx
      have key : ∀ (cs : List String), (∀ c ∈ cs, c ∈ U) →
          ∀ (m : Int) (v1 : List String) (d1 : List (String × Int)),
            (∀ y, setContains strLt y (setInsert strLt func visited) = true →
              setContains strLt y v1 = true) →
            ∃ m2 v2 d2,
              cs.foldl
                (fun acc callee =>
                  match acc with
                  | none => none
                  | some (maxChildDepth, visited1, depths1) =>
                    match calculateDepth deps n callee (visited1, depths1) with
                    | none => none
                    | some (d, visited2, depths2) => some (max maxChildDepth d, visited2, depths2))
                (some (m, v1, d1)) = some (m2, v2, d2) ∧
                ∀ y, setContains strLt y v1 = true → setContains strLt y v2 = true := by
        intro cs
        induction cs with
        | nil => intro _ m v1 d1 _; exact ⟨m, v1, d1, rfl, fun y hy => hy⟩
        | cons c rest ihc =>
          intro hall m v1 d1 hmono
          have hle : (U.filter (fun u => !setContains strLt u v1)).length
              ≤ (U.filter (fun u => !setContains strLt u (setInsert strLt func visited))).length := by
            apply (List.monotone_filter_right U _).length_le
            intro x hx
            cases hxv : setContains strLt x (setInsert strLt func visited) with
            | false => rfl
            | true =>
              rw [hmono x hxv] at hx
              simp at hx
          obtain ⟨d, v2, d2, hcall, hmono2⟩ :=
            ih c v1 d1 (hall c (List.mem_cons_self _ _)) (by omega)
          obtain ⟨m3, v3, d3, hfold, hmono3⟩ :=
            ihc (fun x hx => hall x (List.mem_cons_of_mem _ hx)) (max m d) v2 d2
              (fun y hy => hmono2 y (hmono y hy))
          refine ⟨m3, v3, d3, ?_, fun y hy => hmono3 y (hmono2 y hy)⟩
          rw [List.foldl_cons]
          simp only [hcall]
          exact hfold
      obtain ⟨m2, v2, d2, hfold, hmono⟩ :=
        key ((umapFind func deps).getD []) hcs 0 (setInsert strLt func visited) depths
          (fun y hy => hy)
      refine ⟨m2 + 1, v2, umapSet func (m2 + 1) d2, ?_, fun y hy =>
        hmono y (setContains_setInsert_of_contains func y visited hy)⟩
      rw [calculateDepth]
      simp only [hc, Bool.false_eq_true, if_false]
      rw [hfold]

end CFGVisualizerWindow

theorem umapFind_mem {κ β : Type} [DecidableEq κ] (key : κ) (m : List (κ × β)) (v : β)
    (h : umapFind key m = some v) : (key, v) ∈ m := by
  induction m with
  | nil => simp [umapFind] at h
  | cons p rest ih =>
    obtain ⟨k, w⟩ := p
    by_cases hk : k = key
    · simp only [umapFind, hk, if_true, Option.some.injEq] at h
      rw [hk, h]
      exact List.mem_cons_self _ _
    · simp only [umapFind, hk, if_false] at h
      exact List.mem_cons_of_mem _ (ih h)

namespace CFGVisualizerWindow

theorem mem_foldl_callees (cs : List String) (acc : List String) (x : String)
    (h : x ∈ cs.foldl (fun all1 callee => setInsert strLt callee all1) acc) :
    x ∈ acc ∨ x ∈ cs := by
  induction cs generalizing acc with
  | nil => exact Or.inl h
  | cons c rest ih =>
    rw [List.foldl_cons] at h
    rcases ih _ h with h | h
    · rcases mem_of_mem_setInsert strLt c x acc h with h | h
      · exact Or.inr (h ▸ List.mem_cons_self _ _)
      · exact Or.inl h
    · exact Or.inr (List.mem_cons_of_mem _ h)

theorem mem_allFunctions (deps : List (String × List String)) (x : String)
    (h : x ∈ allFunctions deps) : x ∈ deps.flatMap (fun e => e.1 :: e.2) := by
  have key : ∀ (l : List (String × List String)) (acc : List String),
      x ∈ l.foldl
        (fun all entry =>
          entry.2.foldl (fun all1 callee => setInsert strLt callee all1)
            (setInsert strLt entry.1 all)) acc →
      x ∈ acc ∨ x ∈ l.flatMap (fun e => e.1 :: e.2) := by
    intro l
    induction l with
    | nil => intro acc h; exact Or.inl h
    | cons e rest ih =>
      intro acc h
      rw [List.foldl_cons] at h
      rw [List.flatMap_cons]
      rcases ih _ h with h | h
      · rcases mem_foldl_callees _ _ _ h with h | h
        · rcases mem_of_mem_setInsert strLt e.1 x acc h with h | h
          · exact Or.inr (List.mem_append_left _ (h ▸ List.mem_cons_self _ _))
          · exact Or.inl h
        · exact Or.inr (List.mem_append_left _ (List.mem_cons_of_mem _ h))
      · exact Or.inr (List.mem_append_right _ h)
  rcases key deps [] h with h | h
  · simp at h
  · exact h

theorem mem_roots (deps : List (String × List String)) (x : String) (h : x ∈ roots deps) :
    x ∈ deps.flatMap (fun e => e.1 :: e.2) := by
  unfold roots at h
  simp only at h
  split at h
  · obtain ⟨e, he, rfl⟩ := List.mem_map.1 h
    exact List.mem_flatMap.2 ⟨e, he, List.mem_cons_self _ _⟩
  · exact mem_allFunctions deps x (List.mem_filter.1 h).1

theorem calculateDepths_returns (deps : List (String × List String)) (fuel : Nat)
    (hfuel : (deps.flatMap (fun e => e.1 :: e.2)).length < fuel) :
    ∃ depths, calculateDepths fuel deps = some depths := by
  have hU : ∀ f cs, umapFind f deps = some cs →
      ∀ c ∈ cs, c ∈ deps.flatMap (fun e => e.1 :: e.2) := by
    intro f cs hf c hc
    exact List.mem_flatMap.2 ⟨(f, cs), umapFind_mem f deps cs hf, List.mem_cons_of_mem _ hc⟩
  have key : ∀ (rs : List String), (∀ r ∈ rs, r ∈ deps.flatMap (fun e => e.1 :: e.2)) →
      ∀ depths0 : List (String × Int), ∃ depths,
        rs.foldl
          (fun acc root =>
            match acc with
            | none => none
            | some depths =>
              match calculateDepth deps fuel root ([], depths) with
              | none => none
              | some (_, _, depths1) => some depths1)
          (some depths0) = some depths := by
    intro rs
    induction rs with
    | nil => intro _ depths0; exact ⟨depths0, rfl⟩
    | cons r rest ih =>
      intro hall depths0
      obtain ⟨d, v, depths1, hcall, _⟩ :=
        calculateDepth_returns deps _ hU fuel r [] depths0 (hall r (List.mem_cons_self _ _))
          (lt_of_le_of_lt (List.length_filter_le _ _) hfuel)
      obtain ⟨depths, hfold⟩ := ih (fun x hx => hall x (List.mem_cons_of_mem _ hx)) depths1
      refine ⟨depths, ?_⟩
      rw [List.foldl_cons]
      simp only [hcall]
      exact hfold
  exact key (roots deps) (mem_roots deps) []

theorem mapFind_depthCounts_foldl (d : Int) (l : List Int) (acc : List (Int × Int)) :
    (mapFind intLt d
        (l.foldl (fun counts depth => mapUpdate intLt 0 depth (· + 1) counts) acc)).getD 0 =
      (mapFind intLt d acc).getD 0 + ((l.filter (fun x => decide (x = d))).length : Int) := by
  induction l generalizing acc with
  | nil => simp
  | cons x rest ih =>
    rw [List.foldl_cons, ih]
    by_cases hx : x = d
    · subst hx
      rw [mapUpdate, mapFind_mapSet_self intLt_irrefl, List.filter_cons_of_pos (by simp),
        List.length_cons]
      simp only [Option.getD_some]
      push_cast
      omega
    · have hne : d ≠ x := fun h => hx h.symm
      rw [mapUpdate, mapFind_mapSet_ne intLt_eq_of_not_lt hne,
        List.filter_cons_of_neg (by simp [hx])]

theorem mapFind_depthCounts (d : Int) (depths : List (String × Int)) :
    (mapFind intLt d (depthCounts depths)).getD 0 =
      ((depths.filter (fun e => decide (e.2 = d))).length : Int) := by
  unfold depthCounts
  rw [mapFind_depthCounts_foldl]
  have h : ((depths.map Prod.snd).filter (fun x => decide (x = d))).length =
      (depths.filter (fun e => decide (e.2 = d))).length := by
    rw [List.filter_map, List.length_map]
    rfl
  rw [h]
  simp [mapFind]

theorem position_lt (f : String) (d : Int) (l : List (String × Int)) (i : Int)
    (hf : (f, d) ∈ l) :
    position f d i l < i + ((l.filter (fun e => decide (e.2 = d))).length : Int) := by
  induction l generalizing i with
  | nil => simp at hf
  | cons e rest ih =>
    obtain ⟨o, od⟩ := e
    by_cases hd : od = d
    · subst hd
      rw [List.filter_cons_of_pos (by simp), List.length_cons]
      by_cases ho : o = f
      · subst ho
        simp only [position, if_true]
        push_cast
        omega
      · have hf2 : (f, od) ∈ rest := by
          rcases List.mem_cons.1 hf with h | h
          · exact absurd (congrArg Prod.fst h).symm ho
          · exact h
        have := ih (i + 1) hf2
        simp only [position, ho, if_true, if_false]
        push_cast
        omega
    · have hf2 : (f, d) ∈ rest := by
        rcases List.mem_cons.1 hf with h | h
        · exact absurd (congrArg Prod.snd h).symm hd
        · exact h
      rw [List.filter_cons_of_neg (by simp [hd])]
      simp only [position, hd, if_false]
      exact ih i hf2

end CFGVisualizerWindow

/-- The hierarchical layout of the dependency view returns for every dependency map, cyclic
or not, as soon as the bound on the recursion depth exceeds the number of names in the map:
`visited` grows with every call that does not return at once. Every entry `(f, d)` of
`depths` gets the position `x = (p - (c - 1) / 2) * 120`, `y = 100 * d`, where `c` is the
number of entries of depth `d` and `p`, with `0 <= p < c`, the number of such entries met
before `f`; two distinct functions of the same depth get different slots `p`, hence
different x-coordinates. -/
theorem hierarchicalPositions_distinct_x (deps : List (String × List String)) (fuel : Nat)
    (hfuel : (deps.flatMap (fun e => e.1 :: e.2)).length < fuel) :
    ∃ depths, CFGVisualizerWindow.calculateDepths fuel deps = some depths ∧
      CFGVisualizerWindow.hierarchicalPositions fuel deps =
        some (CFGVisualizerWindow.applyHierarchicalLayout depths) ∧
      (∀ f d, (f, d) ∈ depths →
        0 ≤ CFGVisualizerWindow.position f d 0 depths ∧
          CFGVisualizerWindow.position f d 0 depths <
            ((depths.filter (fun e => decide (e.2 = d))).length : Int) ∧
          (f, slotX (CFGVisualizerWindow.position f d 0 depths)
              ((depths.filter (fun e => decide (e.2 = d))).length : Int), levelY d) ∈
            CFGVisualizerWindow.applyHierarchicalLayout depths) ∧
      (∀ f g d, f ≠ g → (f, d) ∈ depths → (g, d) ∈ depths →
        CFGVisualizerWindow.position f d 0 depths ≠
            CFGVisualizerWindow.position g d 0 depths ∧
          slotX (CFGVisualizerWindow.position f d 0 depths)
              ((depths.filter (fun e => decide (e.2 = d))).length : Int) ≠
            slotX (CFGVisualizerWindow.position g d 0 depths)
              ((depths.filter (fun e => decide (e.2 = d))).length : Int)) := by
  obtain ⟨depths, hd⟩ := CFGVisualizerWindow.calculateDepths_returns deps fuel hfuel
  refine ⟨depths, hd, ?_, ?_, ?_⟩
  · rw [CFGVisualizerWindow.hierarchicalPositions, hd]
  · intro f d hf
    refine ⟨CFGVisualizerWindow.position_ge f d depths 0, ?_, ?_⟩
    · have := CFGVisualizerWindow.position_lt f d depths 0 hf
      omega
    · rw [← CFGVisualizerWindow.mapFind_depthCounts]
      exact List.mem_map.2 ⟨(f, d), hf, rfl⟩
  · intro f g d hfg hf hg
    have hne := CFGVisualizerWindow.position_ne f g d hfg depths 0 hf hg
    exact ⟨hne, fun h => hne (slotX_injective _ _ _ h)⟩

/-- The dependency map main -> a, main -> b, a -> main (a cycle through `main`): the layout
returns and places `a` and `b`, both of depth 1, at different x-coordinates. -/
theorem hierarchicalPositions_distinct_x_example :
    ∃ depths,
      CFGVisualizerWindow.calculateDepths 6 [("main", ["a", "b"]), ("a", ["main"])]
        = some depths ∧
      CFGVisualizerWindow.hierarchicalPositions 6 [("main", ["a", "b"]), ("a", ["main"])] =
        some (CFGVisualizerWindow.applyHierarchicalLayout depths) :=
  have h := hierarchicalPositions_distinct_x [("main", ["a", "b"]), ("a", ["main"])] 6
    (by decide)
  ⟨h.choose, h.choose_spec.1, h.choose_spec.2.1⟩

end CFG
